import Mathlib

/-!
# OpenAlloc: a fixed-arena heap allocator

Shallow embedding of `src/openalloc.c` (both builds) for a 64-bit little-endian
target (LP64).  Pointers and `size_t` values are natural numbers below `2 ^ 64`;
every C addition and subtraction on them is taken modulo `2 ^ 64`.  The arena is
ordinary byte-addressed memory: a header field is read and written at its byte
offset inside the block header, so headers that overlap (or payload bytes that
are later read as a header) behave as they do in C.

* `OpenAlloc.NoSeg` : the build with `OPENALLOC_NO_SEG` (one doubly-linked list,
  coalescing), header `block_header_doubly_t` of 32 bytes.
* `OpenAlloc.Seg`   : the default build (ten size-class lists), header
  `block_header_t` of 24 bytes.

Loops whose trip count depends on memory contents take a `fuel` argument and
return `none` when the fuel runs out before the loop exits.

The definitions come first: the two builds, the callers, and the predicates of the
invariants.  The lemmas and the theorems on the claims follow.
-/

namespace OpenAlloc

/-! ## Machine words and memory -/

/-- Number of values of `size_t` and of a pointer: `2 ^ 64`. -/
def W : Nat := 2 ^ 64

/-- The C expression `a + b` on `size_t` or on a byte pointer. -/
def add64 (a b : Nat) : Nat := (a + b) % W

/-- The C expression `a - b` on `size_t` or on a byte pointer. -/
def sub64 (a b : Nat) : Nat := (a % W + W - b % W) % W

/-- Byte-addressed memory.  Only the low eight bits of a cell are ever observed.
The map is total: a load or a store succeeds at every address, also at one outside
the arena, where the program has undefined behaviour and may trap. -/
abbrev Mem := Nat → Nat

/-- Load of one `uint8_t`. -/
def read8 (m : Mem) (a : Nat) : Nat := m a % 256

/-- Store of one `uint8_t`. -/
def write8 (m : Mem) (a v : Nat) : Mem :=
  fun x => if x = a then v % 256 else m x

/-- Little-endian load of a 64-bit field. -/
def read64 (m : Mem) (a : Nat) : Nat :=
  read8 m a + 256 * (read8 m (a + 1) + 256 * (read8 m (a + 2) + 256 * (read8 m (a + 3)
    + 256 * (read8 m (a + 4) + 256 * (read8 m (a + 5) + 256 * (read8 m (a + 6)
    + 256 * read8 m (a + 7)))))))

/-- Little-endian store of a 64-bit field. -/
def write64 (m : Mem) (a v : Nat) : Mem :=
  fun x => if a ≤ x ∧ x < a + 8 then v / 256 ^ (x - a) % 256 else m x

/-- The libc `memcpy(dst, src, n)` on non-overlapping ranges. -/
def memcpy (m : Mem) (dst src n : Nat) : Mem :=
  fun x => if dst ≤ x ∧ x < dst + n then m (src + (x - dst)) else m x

/-! ## Constants of `openalloc.h` -/

/-- The macro `OPENALLOC_ALIGN`. -/
def OPENALLOC_ALIGN : Nat := 8

/-- The macro `OPENALLOC_MIN_BLOCK`, `sizeof(size_t) * 2`. -/
def OPENALLOC_MIN_BLOCK : Nat := 8 * 2

/-- The macro `NUM_BINS`. -/
def NUM_BINS : Nat := 10

/-- The function `align_size` (identical in both builds):
`(size + OPENALLOC_ALIGN - 1) & ~(OPENALLOC_ALIGN - 1)` on `size_t`, where
`~(OPENALLOC_ALIGN - 1)` converts to the mask `2 ^ 64 - 8`. -/
def align_size (size : Nat) : Nat :=
  sub64 (add64 size OPENALLOC_ALIGN) 1 &&& (W - OPENALLOC_ALIGN)

/-- The snapshot `openalloc_stats_t`. -/
structure Stats where
  heap_start : Nat
  heap_size : Nat
  allocated_blocks : Nat
  free_blocks : Nat
  total_allocated : Nat
  total_freed : Nat
deriving DecidableEq

/-! ## The coalescing build (`OPENALLOC_NO_SEG`) -/

namespace NoSeg

/-- The value of `sizeof(block_header_doubly_t)`: `size` at offset 0, `next` at 8,
`prev` at 16, `free` at 24, three bytes `pad` and four bytes of tail padding. -/
def HDR : Nat := 32

/-- The static variables of the build together with the memory. -/
structure State where
  mem : Mem
  free_list : Nat
  heap_start : Nat
  heap_size : Nat

/-- Load of `b->size`. -/
def size (m : Mem) (b : Nat) : Nat := read64 m b
/-- Load of `b->next`. -/
def next (m : Mem) (b : Nat) : Nat := read64 m (b + 8)
/-- Load of `b->prev`. -/
def prev (m : Mem) (b : Nat) : Nat := read64 m (b + 16)
/-- Load of `b->free`. -/
def free (m : Mem) (b : Nat) : Nat := read8 m (b + 24)
/-- Store `b->size = v`. -/
def set_size (m : Mem) (b v : Nat) : Mem := write64 m b v
/-- Store `b->next = v`. -/
def set_next (m : Mem) (b v : Nat) : Mem := write64 m (b + 8) v
/-- Store `b->prev = v`. -/
def set_prev (m : Mem) (b v : Nat) : Mem := write64 m (b + 16) v
/-- Store `b->free = v`. -/
def set_free (m : Mem) (b v : Nat) : Mem := write8 m (b + 24) v

/-- The function `get_block_doubly`. -/
def get_block_doubly (ptr : Nat) : Nat := sub64 ptr HDR

/-- The function `get_data_doubly`. -/
def get_data_doubly (block : Nat) : Nat := add64 block HDR

/-- The function `split_block_doubly`. -/
def split_block_doubly (s : State) (block sz : Nat) : State :=
  if sub64 (size s.mem block) sz ≥ OPENALLOC_MIN_BLOCK + HDR then
    let new_block := add64 (add64 block HDR) sz
    let m := set_size s.mem new_block (sub64 (sub64 (size s.mem block) sz) HDR)
    let m := set_free m new_block 1
    let m := set_next m new_block 0
    let m := set_prev m new_block 0
    let m := set_size m block sz
    let m := if s.free_list ≠ 0 then
        set_prev (set_next m new_block s.free_list) s.free_list new_block
      else m
    { s with mem := m, free_list := new_block }
  else s

/-- The unlink sequence that the source writes out three times (for `next` and
for `prev` in `coalesce_block_doubly`, for `block` in `openalloc_malloc`):
`if (b->prev) b->prev->next = b->next; else free_list = b->next;`
`if (b->next) b->next->prev = b->prev;`. -/
def unlink (s : State) (b : Nat) : State :=
  let s1 : State :=
    if prev s.mem b ≠ 0 then
      { s with mem := set_next s.mem (prev s.mem b) (next s.mem b) }
    else { s with free_list := next s.mem b }
  if next s1.mem b ≠ 0 then
    { s1 with mem := set_prev s1.mem (next s1.mem b) (prev s1.mem b) }
  else s1

/-- The `while (curr < block)` loop of `coalesce_block_doubly`: the value of the
local `prev` when the loop exits, `none` when `fuel` iterations do not suffice. -/
def find_prev : Nat → State → Nat → Nat → Option Nat
  | 0, _, _, _ => none
  | fuel + 1, s, block, curr =>
    if curr < block then
      let temp := add64 (add64 curr HDR) (size s.mem curr)
      if temp = block ∧ free s.mem curr ≠ 0 then some curr
      else find_prev fuel s block temp
    else some 0

/-- The function `coalesce_block_doubly`.  Its final assignment `block = prev`
changes the callee's parameter only, so it has no effect on the state. -/
def coalesce_block_doubly (fuel : Nat) (s : State) (block : Nat) : Option State :=
  if free s.mem block = 0 then some s else
  let nxt := add64 (add64 block HDR) (size s.mem block)
  let s1 : State :=
    if nxt < add64 s.heap_start s.heap_size ∧ free s.mem nxt ≠ 0 then
      let u := unlink s nxt
      let merged := add64 (size u.mem block) (add64 (size u.mem nxt) HDR)
      { u with mem := set_size u.mem block merged }
    else s
  match find_prev fuel s1 block s1.heap_start with
  | none => none
  | some p =>
    if p ≠ 0 then
      let u := unlink s1 p
      let merged := add64 (size u.mem p) (add64 (size u.mem block) HDR)
      some { u with mem := set_size u.mem p merged }
    else some s1

/-- The function `openalloc_init`: the returned `int` and the state after the call. -/
def openalloc_init (s : State) (heap_ptr sz : Nat) : Int × State :=
  if heap_ptr = 0 ∨ sz < OPENALLOC_MIN_BLOCK + HDR then (-1, s)
  else
    let m := set_size s.mem heap_ptr (sub64 sz HDR)
    let m := set_free m heap_ptr 1
    let m := set_next m heap_ptr 0
    let m := set_prev m heap_ptr 0
    (0, { mem := m, free_list := heap_ptr, heap_start := heap_ptr, heap_size := sz })

/-- The `while (block)` loop of `openalloc_malloc`: returned pointer and state,
`none` when `fuel` iterations do not suffice. -/
def malloc_loop : Nat → State → Nat → Nat → Option (Nat × State)
  | 0, _, _, _ => none
  | fuel + 1, s, aligned_size, block =>
    if block = 0 then some (0, s)
    else if free s.mem block ≠ 0 ∧ size s.mem block ≥ aligned_size then
      let s1 := split_block_doubly s block aligned_size
      let s2 : State := { s1 with mem := set_free s1.mem block 0 }
      let s3 := unlink s2 block
      let m := set_next s3.mem block 0
      let m := set_prev m block 0
      some (get_data_doubly block, { s3 with mem := m })
    else malloc_loop fuel s aligned_size (next s.mem block)

/-- The function `openalloc_malloc`. -/
def openalloc_malloc (fuel : Nat) (s : State) (sz : Nat) : Option (Nat × State) :=
  if sz = 0 then some (0, s)
  else malloc_loop fuel s (align_size sz) s.free_list

/-- The function `openalloc_free`. -/
def openalloc_free (fuel : Nat) (s : State) (ptr : Nat) : Option State :=
  if ptr = 0 then some s else
  let block := get_block_doubly ptr
  match coalesce_block_doubly fuel { s with mem := set_free s.mem block 1 } block with
  | none => none
  | some s1 =>
    let m := set_next s1.mem block s1.free_list
    let m := set_prev m block 0
    let m := if s1.free_list ≠ 0 then set_prev m s1.free_list block else m
    some { s1 with mem := m, free_list := block }

/-- The function `openalloc_realloc`. -/
def openalloc_realloc (fuel : Nat) (s : State) (ptr new_size : Nat) :
    Option (Nat × State) :=
  if ptr = 0 then openalloc_malloc fuel s new_size
  else if new_size = 0 then (openalloc_free fuel s ptr).map (fun t => (0, t))
  else
    let old_size := size s.mem (get_block_doubly ptr)
    if new_size ≤ old_size then some (ptr, s)
    else
      match openalloc_malloc fuel s new_size with
      | none => none
      | some (new_ptr, s1) =>
        if new_ptr = 0 then some (0, s1)
        else
          (openalloc_free fuel { s1 with mem := memcpy s1.mem new_ptr ptr old_size } ptr).map
            (fun t => (new_ptr, t))

/-- The function `openalloc_usable_size`. -/
def openalloc_usable_size (s : State) (ptr : Nat) : Nat :=
  if ptr = 0 then 0 else size s.mem (get_block_doubly ptr)

/-- The `while` loop of `openalloc_get_stats`. -/
def stats_loop : Nat → State → Nat → Stats → Option Stats
  | 0, _, _, _ => none
  | fuel + 1, s, block, st =>
    if block < add64 s.heap_start s.heap_size then
      let st1 : Stats :=
        if free s.mem block ≠ 0 then
          { st with
            free_blocks := add64 st.free_blocks 1
            total_freed := add64 st.total_freed (size s.mem block) }
        else
          { st with
            allocated_blocks := add64 st.allocated_blocks 1
            total_allocated := add64 st.total_allocated (size s.mem block) }
      stats_loop fuel s (add64 (add64 block HDR) (size s.mem block)) st1
    else some st

/-- The function `openalloc_get_stats` called with a non-null `stats`. -/
def openalloc_get_stats (fuel : Nat) (s : State) : Option Stats :=
  stats_loop fuel s s.heap_start
    { heap_start := s.heap_start, heap_size := s.heap_size, allocated_blocks := 0,
      free_blocks := 0, total_allocated := 0, total_freed := 0 }

end NoSeg

/-! ## The segregated build (default) -/

namespace Seg

/-- The value of `sizeof(block_header_t)`: `size` at offset 0, `next` at 8, `free`
at 16 and seven bytes of tail padding. -/
def HDR : Nat := 24

/-- The static variables of the build together with the memory.  The array
`free_lists` is indexed by `0 .. NUM_BINS - 1`. -/
structure State where
  mem : Mem
  free_lists : Nat → Nat
  heap_start : Nat
  heap_size : Nat

/-- Load of `b->size`. -/
def size (m : Mem) (b : Nat) : Nat := read64 m b
/-- Load of `b->next`. -/
def next (m : Mem) (b : Nat) : Nat := read64 m (b + 8)
/-- Load of `b->free`. -/
def free (m : Mem) (b : Nat) : Nat := read8 m (b + 16)
/-- Store `b->size = v`. -/
def set_size (m : Mem) (b v : Nat) : Mem := write64 m b v
/-- Store `b->next = v`. -/
def set_next (m : Mem) (b v : Nat) : Mem := write64 m (b + 8) v
/-- Store `b->free = v`. -/
def set_free (m : Mem) (b v : Nat) : Mem := write8 m (b + 16) v

/-- Store `free_lists[bin] = v`. -/
def set_list (fl : Nat → Nat) (bin v : Nat) : Nat → Nat :=
  fun i => if i = bin then v else fl i

/-- The function `get_bin`. -/
def get_bin (sz : Nat) : Nat :=
  if sz ≤ 16 then 0
  else if sz ≤ 32 then 1
  else if sz ≤ 64 then 2
  else if sz ≤ 128 then 3
  else if sz ≤ 256 then 4
  else if sz ≤ 512 then 5
  else if sz ≤ 1024 then 6
  else if sz ≤ 2048 then 7
  else if sz ≤ 4096 then 8
  else 9

/-- The function `get_block`. -/
def get_block (ptr : Nat) : Nat := sub64 ptr HDR

/-- The function `get_data`. -/
def get_data (block : Nat) : Nat := add64 block HDR

/-- The function `openalloc_init`: the returned `int` and the state after the call. -/
def openalloc_init (s : State) (heap_ptr sz : Nat) : Int × State :=
  if heap_ptr = 0 ∨ sz < OPENALLOC_MIN_BLOCK + HDR then (-1, s)
  else
    let fl : Nat → Nat := fun i => if i < NUM_BINS then 0 else s.free_lists i
    let m := set_size s.mem heap_ptr (sub64 sz HDR)
    let m := set_free m heap_ptr 1
    let m := set_next m heap_ptr 0
    (0, { mem := m, free_lists := set_list fl (NUM_BINS - 1) heap_ptr,
          heap_start := heap_ptr, heap_size := sz })

/-- The local `prev` of `openalloc_malloc`, a `block_header_t**`: it points either
at `free_lists[bin]` or at the `next` field of a block. -/
inductive Link where
  | root (bin : Nat)
  | field (block : Nat)

/-- Store `*prev = v`. -/
def Link.store (s : State) (l : Link) (v : Nat) : State :=
  match l with
  | Link.root bin => { s with free_lists := set_list s.free_lists bin v }
  | Link.field b => { s with mem := set_next s.mem b v }

/-- The body of `openalloc_malloc` run for the block that passes the test
`block->free && block->size >= aligned_size`, up to the `return`. -/
def take (s : State) (aligned_size bin : Nat) (prev : Link) (block : Nat) : Nat × State :=
  let original_next := next s.mem block
  let (s1, prev1) : State × Link :=
    if size s.mem block ≥ add64 (add64 aligned_size OPENALLOC_MIN_BLOCK) HDR then
      let new_block := add64 (add64 block HDR) aligned_size
      let m := set_size s.mem new_block (sub64 (sub64 (size s.mem block) aligned_size) HDR)
      let m := set_free m new_block 1
      let m := set_next m new_block original_next
      let m := set_size m block aligned_size
      let new_bin := get_bin (size m new_block)
      if new_bin = bin then
        let m := set_next m new_block (next m block)
        (Link.store { s with mem := m } prev new_block, Link.field new_block)
      else
        let m := set_next m new_block (s.free_lists new_bin)
        ({ s with mem := m, free_lists := set_list s.free_lists new_bin new_block }, prev)
    else (s, prev)
  let s2 : State := { s1 with mem := set_free s1.mem block 0 }
  let s3 := Link.store s2 prev1 original_next
  (get_data block, { s3 with mem := set_next s3.mem block 0 })

/-- Outcome of scanning one free list. -/
inductive Scan where
  | timeout
  | miss
  | hit (p : Nat) (s : State)

/-- The `while (block != NULL)` loop of `openalloc_malloc` for one bin. -/
def list_loop : Nat → State → Nat → Nat → Link → Nat → Scan
  | 0, _, _, _, _, _ => Scan.timeout
  | fuel + 1, s, aligned_size, bin, prev, block =>
    if block = 0 then Scan.miss
    else if free s.mem block ≠ 0 ∧ size s.mem block ≥ aligned_size then
      Scan.hit (take s aligned_size bin prev block).1 (take s aligned_size bin prev block).2
    else list_loop fuel s aligned_size bin (Link.field block) (next s.mem block)

/-- The `for (bin = start_bin; bin < NUM_BINS; bin++)` loop of `openalloc_malloc`,
with `count` bins left to visit: returned pointer and state, `none` when a list
scan runs out of `fuel`. -/
def bin_loop (fuel : Nat) (s : State) (aligned_size : Nat) : Nat → Nat → Option (Nat × State)
  | 0, _ => some (0, s)
  | count + 1, bin =>
    match list_loop fuel s aligned_size bin (Link.root bin) (s.free_lists bin) with
    | Scan.timeout => none
    | Scan.hit p t => some (p, t)
    | Scan.miss => bin_loop fuel s aligned_size count (bin + 1)

/-- The function `openalloc_malloc`. -/
def openalloc_malloc (fuel : Nat) (s : State) (sz : Nat) : Option (Nat × State) :=
  if sz = 0 then some (0, s)
  else
    bin_loop fuel s (align_size sz) (NUM_BINS - get_bin (align_size sz))
      (get_bin (align_size sz))

/-- The function `openalloc_free`. -/
def openalloc_free (s : State) (ptr : Nat) : State :=
  if ptr = 0 then s else
  let block := get_block ptr
  let m := set_free s.mem block 1
  let bin := get_bin (size m block)
  let m := set_next m block (s.free_lists bin)
  { s with mem := m, free_lists := set_list s.free_lists bin block }

/-- The function `openalloc_realloc`. -/
def openalloc_realloc (fuel : Nat) (s : State) (ptr new_size : Nat) :
    Option (Nat × State) :=
  if ptr = 0 then openalloc_malloc fuel s new_size
  else if new_size = 0 then some (0, openalloc_free s ptr)
  else
    let old_size := size s.mem (get_block ptr)
    if new_size ≤ old_size then some (ptr, s)
    else
      match openalloc_malloc fuel s new_size with
      | none => none
      | some (new_ptr, s1) =>
        if new_ptr = 0 then some (0, s1)
        else
          some (new_ptr,
            openalloc_free { s1 with mem := memcpy s1.mem new_ptr ptr old_size } ptr)

/-- The function `openalloc_usable_size`. -/
def openalloc_usable_size (s : State) (ptr : Nat) : Nat :=
  if ptr = 0 then 0 else size s.mem (get_block ptr)

/-- The `while` loop of `openalloc_get_stats`. -/
def stats_loop : Nat → State → Nat → Stats → Option Stats
  | 0, _, _, _ => none
  | fuel + 1, s, block, st =>
    if block < add64 s.heap_start s.heap_size then
      let st1 : Stats :=
        if free s.mem block ≠ 0 then
          { st with
            free_blocks := add64 st.free_blocks 1
            total_freed := add64 st.total_freed (size s.mem block) }
        else
          { st with
            allocated_blocks := add64 st.allocated_blocks 1
            total_allocated := add64 st.total_allocated (size s.mem block) }
      stats_loop fuel s (add64 (add64 block HDR) (size s.mem block)) st1
    else some st

/-- The function `openalloc_get_stats` called with a non-null `stats`. -/
def openalloc_get_stats (fuel : Nat) (s : State) : Option Stats :=
  stats_loop fuel s s.heap_start
    { heap_start := s.heap_start, heap_size := s.heap_size, allocated_blocks := 0,
      free_blocks := 0, total_allocated := 0, total_freed := 0 }

end Seg

/-! ## Callers

A caller holds the pointers it got from the allocator and not yet gave back (the
live pointers).  A call is valid when `free` and `realloc` receive `NULL` or a live
pointer.  `run` returns `none` for a sequence with an invalid call, and when a loop
runs out of fuel. -/

/-- One call of the programmatic surface. -/
inductive Call where
  | malloc (n : Nat)
  | free (p : Nat)
  | realloc (p n : Nat)
deriving DecidableEq

/-- Memory of a zero-initialised static array, as `heap` in `src/test.c`. -/
def zero_mem : Mem := fun _ => 0

namespace NoSeg

/-- The static variables at program start. -/
def boot (m : Mem) : State :=
  { mem := m, free_list := 0, heap_start := 0, heap_size := 0 }

/-- Allocator state and live pointers of the caller. -/
structure Client where
  st : State
  live : List Nat

/-- The caller after a successful `openalloc_init` on `boot m`. -/
def start (m : Mem) (heap_ptr sz : Nat) : Client :=
  { st := (openalloc_init (boot m) heap_ptr sz).2, live := [] }

/-- One valid call: the returned pointer (`0` for `free`) and the caller afterwards. -/
def step (fuel : Nat) (c : Client) : Call → Option (Nat × Client)
  | Call.malloc n =>
    (openalloc_malloc fuel c.st n).map fun r =>
      (r.1, { st := r.2, live := if r.1 = 0 then c.live else r.1 :: c.live })
  | Call.free p =>
    if p = 0 ∨ p ∈ c.live then
      (openalloc_free fuel c.st p).map fun t => (0, { st := t, live := c.live.erase p })
    else none
  | Call.realloc p n =>
    if p = 0 then
      (openalloc_realloc fuel c.st p n).map fun r =>
        (r.1, { st := r.2, live := if r.1 = 0 then c.live else r.1 :: c.live })
    else if p ∈ c.live then
      (openalloc_realloc fuel c.st p n).map fun r =>
        (r.1, { st := r.2,
                live := if n = 0 then c.live.erase p
                  else if n ≤ openalloc_usable_size c.st p ∨ r.1 = 0 then c.live
                  else r.1 :: c.live.erase p })
    else none

/-- A sequence of valid calls: the returned pointers in order (`0` for `free`) and the
caller at the end. -/
def run (fuel : Nat) : Client → List Call → Option (List Nat × Client)
  | c, [] => some ([], c)
  | c, k :: ks =>
    match step fuel c k with
    | none => none
    | some (r, c1) =>
      match run fuel c1 ks with
      | none => none
      | some (rs, c2) => some (r :: rs, c2)

/-- The payload ranges `[p, p + usable_size(p))` and `[q, q + usable_size(q))` share
no byte. -/
def PayloadsDisjoint (s : State) (p q : Nat) : Prop :=
  p + openalloc_usable_size s p ≤ q ∨ q + openalloc_usable_size s q ≤ p

instance (s : State) (p q : Nat) : Decidable (PayloadsDisjoint s p q) :=
  inferInstanceAs (Decidable (_ ∨ _))

/-- The block pointer with which the loop of `openalloc_get_stats` exits. -/
def walk_end : Nat → State → Nat → Option Nat
  | 0, _, _ => none
  | fuel + 1, s, block =>
    if block < add64 s.heap_start s.heap_size then
      walk_end fuel s (add64 (add64 block HDR) (size s.mem block))
    else some block

/-- The blocks that the loop of `openalloc_get_stats` visits, in order. -/
def walk_blocks : Nat → State → Nat → Option (List Nat)
  | 0, _, _ => none
  | fuel + 1, s, block =>
    if block < add64 s.heap_start s.heap_size then
      (walk_blocks fuel s (add64 (add64 block HDR) (size s.mem block))).map (block :: ·)
    else some []

end NoSeg

namespace Seg

/-- The static variables at program start. -/
def boot (m : Mem) : State :=
  { mem := m, free_lists := fun _ => 0, heap_start := 0, heap_size := 0 }

/-- Allocator state and live pointers of the caller. -/
structure Client where
  st : State
  live : List Nat

/-- The caller after a successful `openalloc_init` on `boot m`. -/
def start (m : Mem) (heap_ptr sz : Nat) : Client :=
  { st := (openalloc_init (boot m) heap_ptr sz).2, live := [] }

/-- One valid call: the returned pointer (`0` for `free`) and the caller afterwards. -/
def step (fuel : Nat) (c : Client) : Call → Option (Nat × Client)
  | Call.malloc n =>
    (openalloc_malloc fuel c.st n).map fun r =>
      (r.1, { st := r.2, live := if r.1 = 0 then c.live else r.1 :: c.live })
  | Call.free p =>
    if p = 0 ∨ p ∈ c.live then
      some (0, { st := openalloc_free c.st p, live := c.live.erase p })
    else none
  | Call.realloc p n =>
    if p = 0 then
      (openalloc_realloc fuel c.st p n).map fun r =>
        (r.1, { st := r.2, live := if r.1 = 0 then c.live else r.1 :: c.live })
    else if p ∈ c.live then
      (openalloc_realloc fuel c.st p n).map fun r =>
        (r.1, { st := r.2,
                live := if n = 0 then c.live.erase p
                  else if n ≤ openalloc_usable_size c.st p ∨ r.1 = 0 then c.live
                  else r.1 :: c.live.erase p })
    else none

/-- A sequence of valid calls: the returned pointers in order (`0` for `free`) and the
caller at the end. -/
def run (fuel : Nat) : Client → List Call → Option (List Nat × Client)
  | c, [] => some ([], c)
  | c, k :: ks =>
    match step fuel c k with
    | none => none
    | some (r, c1) =>
      match run fuel c1 ks with
      | none => none
      | some (rs, c2) => some (r :: rs, c2)

/-- The block pointer with which the loop of `openalloc_get_stats` exits. -/
def walk_end : Nat → State → Nat → Option Nat
  | 0, _, _ => none
  | fuel + 1, s, block =>
    if block < add64 s.heap_start s.heap_size then
      walk_end fuel s (add64 (add64 block HDR) (size s.mem block))
    else some block

/-- The blocks that the loop of `openalloc_get_stats` visits, in order. -/
def walk_blocks : Nat → State → Nat → Option (List Nat)
  | 0, _, _ => none
  | fuel + 1, s, block =>
    if block < add64 s.heap_start s.heap_size then
      (walk_blocks fuel s (add64 (add64 block HDR) (size s.mem block))).map (block :: ·)
    else some []

end Seg

/-! ## Further inputs and observers

An arena that the caller filled before `openalloc_init`, the size classes as a list
of bounds, the rounding to a multiple of 8 on the natural numbers, and the nodes of
a free list. -/

/-- Memory in which every byte is 1, as an arena that the caller filled with
`memset(heap, 1, sizeof heap)` before handing it to `openalloc_init`. -/
def ones_mem : Mem := fun _ => 1

/-- The upper bounds of the bounded size classes, in order:
`(0,16], (16,32], ..., (2048,4096]`; the last class `(4096,∞)` has no bound. -/
def class_bounds : List Nat := [16, 32, 64, 128, 256, 512, 1024, 2048, 4096]

/-- The index of the smallest size class whose upper bound is at least `s`, and the
index of the unbounded class when there is none. -/
def smallest_class (s : Nat) : Nat := class_bounds.findIdx (fun b => decide (s ≤ b))

/-- The mathematical rounding of `n` up to a multiple of 8. -/
def align8 (n : Nat) : Nat := (n + 7) / 8 * 8

namespace NoSeg

/-- The nodes that a traversal `for (b = block; b; b = b->next)` of the free list
visits, in order; `none` when `fuel` steps do not reach `NULL`. -/
def list_nodes : Nat → Mem → Nat → Option (List Nat)
  | 0, _, _ => none
  | fuel + 1, m, block =>
    if block = 0 then some []
    else (list_nodes fuel m (next m block)).map (block :: ·)

end NoSeg

namespace Seg

/-- The nodes that a traversal `for (b = block; b; b = b->next)` of a free list
visits, in order; `none` when `fuel` steps do not reach `NULL`. -/
def list_nodes : Nat → Mem → Nat → Option (List Nat)
  | 0, _, _ => none
  | fuel + 1, m, block =>
    if block = 0 then some []
    else (list_nodes fuel m (next m block)).map (block :: ·)

end Seg

/-! ## Invariants

Predicates for the proofs about reachable states: the blocks of the arena, the free
lists as lists of nodes, and the states a caller can reach. -/

namespace Seg

/-- The list segment of a free list: starting at pointer `p`, following the `next`
links `nx` through the nodes `l` in order, the link after the last node is `q`. -/
def LSeg (nx : Nat → Nat) : Nat → List Nat → Nat → Prop
  | p, [], q => p = q
  | p, b :: l, q => p = b ∧ b ≠ 0 ∧ LSeg nx (nx b) l q

/-- The blocks `bs`, in address order, lie back to back from address `a` to
address `e` under the size fields `sz`: each block starts where the payload of its
predecessor ends. -/
def Tiles (sz : Nat → Nat) (e : Nat) : Nat → List Nat → Prop
  | a, [] => a = e
  | a, b :: bs => b = a ∧ Tiles sz e (a + HDR + sz a) bs

/-- The test `block->free && block->size >= aligned_size` of `openalloc_malloc`. -/
def Fit (s : State) (aligned_size b : Nat) : Prop :=
  free s.mem b ≠ 0 ∧ size s.mem b ≥ aligned_size

/-- The local `prev` of `openalloc_malloc` after the nodes `pre` of list `bin`
have been passed over. -/
def linkAfter (bin : Nat) : List Nat → Link
  | [] => Link.root bin
  | [c] => Link.field c
  | _ :: c :: l => linkAfter bin (c :: l)

/-- The block list after block `b` has been split and `nb` created behind it. -/
def insertAfter (b nb : Nat) : List Nat → List Nat
  | [] => []
  | x :: xs => if x = b then x :: nb :: xs else x :: insertAfter b nb xs

/-- The header fields and the static variables of a state, as functions of the
block address and of the bin. -/
structure View where
  sz : Nat → Nat
  nx : Nat → Nat
  fr : Nat → Nat
  fl : Nat → Nat
  hs : Nat
  hz : Nat

/-- The header fields and static variables read from a state. -/
def view (s : State) : View :=
  { sz := size s.mem, nx := next s.mem, fr := free s.mem, fl := s.free_lists,
    hs := s.heap_start, hz := s.heap_size }

/-- The two views have the same static variables and the same header fields on the
blocks `bs`. -/
def VEq (bs : List Nat) (v w : View) : Prop :=
  w.hs = v.hs ∧ w.hz = v.hz ∧ (∀ i, i < NUM_BINS → w.fl i = v.fl i) ∧
  ∀ y ∈ bs, w.sz y = v.sz y ∧ w.nx y = v.nx y ∧ w.fr y = v.fr y

/-- Store `*prev = x` on a view. -/
def vstore (v : View) : Link → Nat → View
  | Link.root j, x => { v with fl := Function.update v.fl j x }
  | Link.field c, x => { v with nx := Function.update v.nx c x }

/-- Load `*prev` on a view. -/
def vload (v : View) : Link → Nat
  | Link.root j => v.fl j
  | Link.field c => v.nx c

/-- Block `b` is cut to size `a`; the rest becomes a block of its own that is
marked allocated. -/
def vsplit (v : View) (b a : Nat) : View :=
  { v with
    sz := Function.update (Function.update v.sz (b + HDR + a) (v.sz b - a - HDR)) b a
    fr := Function.update v.fr (b + HDR + a) 0 }

/-- Block `b`, reached through the link `lk`, leaves its list and is marked
allocated. -/
def vunlink (v : View) (lk : Link) (b : Nat) : View :=
  { vstore { v with fr := Function.update v.fr b 0 } lk (v.nx b) with
    nx := Function.update (vstore { v with fr := Function.update v.fr b 0 } lk (v.nx b)).nx b 0 }

/-- Block `y` is marked free and enters a list at the link `lk`. -/
def vinsert (v : View) (lk : Link) (y : Nat) : View :=
  vstore { v with fr := Function.update v.fr y 1, nx := Function.update v.nx y (vload v lk) } lk y

/-- The invariant of the segregated build, for the live pointers `live` of the
caller, the blocks `bs` of the arena in address order and the nodes `ls i` of each
free list in list order.

* `base_pos`, `fits`, `small`: the arena does not start at `NULL`, does not wrap
  around the address space and is shorter than `2 ^ 63` bytes;
* `tiles`: the blocks `bs` lie back to back from `heap_start` to the end of the arena;
* `chain`: following `next` from `free_lists[i]` visits the nodes `ls i` and ends
  in `NULL`;
* `node_free`: every list node is a block of the arena with `free` set;
* `nodup`, `disj`: no block is twice on a list or on two lists;
* `listed`: every block with `free` set is on a list;
* `binned`: a node of list `i` has a size of class `i`, or it is the only block of
  the arena and sits on the last list, where `openalloc_init` puts it;
* `live_alloc`, `live_nodup`: the live pointers are payload addresses of blocks with
  `free` clear, each held once;
* `mult8`: when the payload of the arena is a multiple of 8, so is every block
  size. -/
structure InvV (v : View) (live bs : List Nat) (ls : Nat → List Nat) : Prop where
  base_pos : 0 < v.hs
  fits : v.hs + v.hz < W
  small : v.hz < 2 ^ 63
  tiles : Tiles v.sz (v.hs + v.hz) v.hs bs
  chain : ∀ i, i < NUM_BINS → LSeg v.nx (v.fl i) (ls i) 0
  node_free : ∀ i, i < NUM_BINS → ∀ b ∈ ls i, b ∈ bs ∧ v.fr b ≠ 0
  nodup : ∀ i, i < NUM_BINS → (ls i).Nodup
  disj : ∀ i j, i < NUM_BINS → j < NUM_BINS → i ≠ j → ∀ b ∈ ls i, b ∉ ls j
  listed : ∀ b ∈ bs, v.fr b ≠ 0 → ∃ i, i < NUM_BINS ∧ b ∈ ls i
  binned : ∀ i, i < NUM_BINS → ∀ b ∈ ls i,
    get_bin (v.sz b) = i ∨ (i = NUM_BINS - 1 ∧ bs = [b])
  live_alloc : ∀ p ∈ live, ∃ b ∈ bs, p = b + HDR ∧ v.fr b = 0
  live_nodup : live.Nodup
  mult8 : 8 ∣ v.hz - HDR → ∀ b ∈ bs, 8 ∣ v.sz b

/-- Some block list and some free lists satisfy the invariant. -/
def Good (c : Client) : Prop := ∃ bs ls, InvV (view c.st) c.live bs ls

end Seg

/-- The size argument of the call is at most `SIZE_MAX - 7`: rounding it up to a
multiple of 8 does not wrap. -/
def Call.roundable : Call → Prop
  | Call.malloc n => n + 8 ≤ W
  | Call.free _ => True
  | Call.realloc _ n => n + 8 ≤ W

namespace Seg

/-- The callers that are reached from a successful `openalloc_init` of the arena
`[heap_ptr, heap_ptr + sz)` in memory `m0` by valid calls with roundable sizes and
by stores of the caller into the payload of a live pointer. -/
inductive Reach (m0 : Mem) (heap_ptr sz : Nat) : Client → Prop
  | init : (openalloc_init (boot m0) heap_ptr sz).1 = 0 →
      Reach m0 heap_ptr sz (start m0 heap_ptr sz)
  | call (fuel : Nat) (c : Client) (k : Call) (r : Nat) (c1 : Client) :
      Reach m0 heap_ptr sz c → k.roundable → step fuel c k = some (r, c1) →
      Reach m0 heap_ptr sz c1
  | store (c : Client) (p i x : Nat) :
      Reach m0 heap_ptr sz c → p ∈ c.live → i < openalloc_usable_size c.st p →
      Reach m0 heap_ptr sz { c with st := { c.st with mem := write8 c.st.mem (p + i) x } }

/-- What a caller learns from a returned `openalloc_malloc(n)`: the invariant holds
for the new state `t`, a `NULL` result leaves the state as it was, and a non-null
result `p` is a new pointer whose usable size is at least `n`, at most `n + 46`, and
at most `n + 39` when the sizes of all blocks are multiples of 8. -/
def MallocPost (s : State) (live : List Nat) (n p : Nat) (t : State) : Prop :=
  (∃ bs ls, InvV (view t) (if p = 0 then live else p :: live) bs ls) ∧
  t.heap_start = s.heap_start ∧ t.heap_size = s.heap_size ∧
  (p = 0 → t = s) ∧
  (p ≠ 0 → p ∉ live ∧ n ≤ openalloc_usable_size t p ∧
    openalloc_usable_size t p ≤ n + 46 ∧
    (8 ∣ s.heap_size - 24 → openalloc_usable_size t p ≤ n + 39))

end Seg

namespace NoSeg

/-- The free list is empty or holds one free block with no neighbours in the list;
the arena does not wrap around the address space. -/
def Tail (s : State) : Prop :=
  s.heap_start + s.heap_size < W ∧
  (s.free_list = 0 ∨
    (0 < s.free_list ∧ next s.mem s.free_list = 0 ∧ prev s.mem s.free_list = 0 ∧
      free s.mem s.free_list ≠ 0 ∧
      s.free_list + HDR + size s.mem s.free_list ≤ s.heap_start + s.heap_size ∧
      (8 ∣ s.heap_size - HDR → 8 ∣ size s.mem s.free_list)))

/-- The states that are reached from a successful `openalloc_init` of the arena
`[heap_ptr, heap_ptr + sz)` in memory `m0` by calls of `openalloc_malloc` with
roundable sizes. -/
inductive MallocReach (m0 : Mem) (heap_ptr sz : Nat) : State → Prop
  | init : (openalloc_init (boot m0) heap_ptr sz).1 = 0 →
      MallocReach m0 heap_ptr sz (openalloc_init (boot m0) heap_ptr sz).2
  | malloc (fuel : Nat) (s : State) (n p : Nat) (t : State) :
      MallocReach m0 heap_ptr sz s → n + 8 ≤ W → openalloc_malloc fuel s n = some (p, t) →
      MallocReach m0 heap_ptr sz t


/-- The blocks `bs`, in address order, lie back to back from address `a` to
address `e` under the size fields `sz`: each block starts where the payload of its
predecessor ends. -/
def Tiles (sz : Nat → Nat) (e : Nat) : Nat → List Nat → Prop
  | a, [] => a = e
  | a, b :: bs => b = a ∧ Tiles sz e (a + HDR + sz a) bs

/-- The invariant of the coalescing build under `openalloc_malloc` calls alone, for
the live pointers `live` of the caller and the blocks `bs` of the arena in address
order.

* `base_pos`, `fits`: the arena does not start at `NULL` and does not wrap around
  the address space;
* `tiles`: the blocks `bs` lie back to back from `heap_start` to the end of the arena;
* `tail`: the free list is empty, or its only node is a free block that ends at
  the end of the arena;
* `alloc`: every other block has `free` clear;
* `live_blocks`: every live pointer is the payload address of a block with `free`
  clear;
* `mult8`: when the payload of the arena is a multiple of 8, so is every block
  size. -/
structure MInv (s : State) (live bs : List Nat) : Prop where
  base_pos : 0 < s.heap_start
  fits : s.heap_start + s.heap_size < W
  tiles : Tiles (size s.mem) (s.heap_start + s.heap_size) s.heap_start bs
  tail : s.free_list = 0 ∨
    (s.free_list ∈ bs ∧
      s.free_list + HDR + size s.mem s.free_list = s.heap_start + s.heap_size ∧
      next s.mem s.free_list = 0 ∧ prev s.mem s.free_list = 0 ∧
      free s.mem s.free_list ≠ 0)
  alloc : ∀ b ∈ bs, b ≠ s.free_list → free s.mem b = 0
  live_blocks : ∀ p ∈ live, ∃ b ∈ bs, p = b + HDR ∧ free s.mem b = 0
  mult8 : 8 ∣ s.heap_size - HDR → ∀ b ∈ bs, 8 ∣ size s.mem b

/-- The callers that are reached from a successful `openalloc_init` of the arena
`[heap_ptr, heap_ptr + sz)` in memory `m0` by calls of `openalloc_malloc` with
roundable sizes. -/
inductive MallocRun (m0 : Mem) (heap_ptr sz : Nat) : Client → Prop
  | init : (openalloc_init (boot m0) heap_ptr sz).1 = 0 →
      MallocRun m0 heap_ptr sz (start m0 heap_ptr sz)
  | malloc (fuel : Nat) (c : Client) (n r : Nat) (c1 : Client) :
      MallocRun m0 heap_ptr sz c → n + 8 ≤ W → step fuel c (Call.malloc n) = some (r, c1) →
      MallocRun m0 heap_ptr sz c1

end NoSeg

/-! ## Memory lemmas -/

/-- A byte store is read back. -/
theorem read8_write8_eq (m : Mem) (a v : Nat) : read8 (write8 m a v) a = v % 256 := by
  simp [read8, write8]

/-- A byte store leaves every other byte as it was. -/
theorem read8_write8_ne (m : Mem) (a v x : Nat) (h : x ≠ a) :
    read8 (write8 m a v) x = read8 m x := by
  simp [read8, write8, h]

/-- A 64-bit store leaves the bytes outside its eight cells as they were. -/
theorem read8_write64_ne (m : Mem) (a v x : Nat) (h : x < a ∨ a + 8 ≤ x) :
    read8 (write64 m a v) x = read8 m x := by
  have : ¬ (a ≤ x ∧ x < a + 8) := by omega
  simp [read8, write64, this]

/-- Byte `i` of a 64-bit store is digit `i` of the value in base 256. -/
theorem read8_write64_in (m : Mem) (a v i : Nat) (hi : i < 8) :
    read8 (write64 m a v) (a + i) = v / 256 ^ i % 256 := by
  have : a ≤ a + i ∧ a + i < a + 8 := by omega
  simp [read8, write64, hi]

/-- A 64-bit store of a value below `2 ^ 64` is read back. -/
theorem read64_write64_eq (m : Mem) (a v : Nat) (hv : v < W) :
    read64 (write64 m a v) a = v := by
  have h0 := read8_write64_in m a v 0 (by omega)
  have h1 := read8_write64_in m a v 1 (by omega)
  have h2 := read8_write64_in m a v 2 (by omega)
  have h3 := read8_write64_in m a v 3 (by omega)
  have h4 := read8_write64_in m a v 4 (by omega)
  have h5 := read8_write64_in m a v 5 (by omega)
  have h6 := read8_write64_in m a v 6 (by omega)
  have h7 := read8_write64_in m a v 7 (by omega)
  simp only [Nat.add_zero] at h0
  unfold read64
  rw [h0, h1, h2, h3, h4, h5, h6, h7]
  unfold W at hv
  norm_num at hv ⊢
  omega

/-- A 64-bit store leaves a disjoint 64-bit field as it was. -/
theorem read64_write64_ne (m : Mem) (a v b : Nat) (h : b + 8 ≤ a ∨ a + 8 ≤ b) :
    read64 (write64 m a v) b = read64 m b := by
  unfold read64
  rw [read8_write64_ne m a v b (by omega), read8_write64_ne m a v (b + 1) (by omega),
    read8_write64_ne m a v (b + 2) (by omega), read8_write64_ne m a v (b + 3) (by omega),
    read8_write64_ne m a v (b + 4) (by omega), read8_write64_ne m a v (b + 5) (by omega),
    read8_write64_ne m a v (b + 6) (by omega), read8_write64_ne m a v (b + 7) (by omega)]

/-- A byte store outside a 64-bit field leaves the field as it was. -/
theorem read64_write8_ne (m : Mem) (x v b : Nat) (h : x < b ∨ b + 8 ≤ x) :
    read64 (write8 m x v) b = read64 m b := by
  unfold read64
  rw [read8_write8_ne m x v b (by omega), read8_write8_ne m x v (b + 1) (by omega),
    read8_write8_ne m x v (b + 2) (by omega), read8_write8_ne m x v (b + 3) (by omega),
    read8_write8_ne m x v (b + 4) (by omega), read8_write8_ne m x v (b + 5) (by omega),
    read8_write8_ne m x v (b + 6) (by omega), read8_write8_ne m x v (b + 7) (by omega)]

/-- Subtraction on `size_t` without borrow is the subtraction of the naturals. -/
theorem sub64_of_le (a b : Nat) (ha : a < W) (hb : b ≤ a) : sub64 a b = a - b := by
  unfold sub64 W at *
  have h1 : a % 2 ^ 64 = a := Nat.mod_eq_of_lt ha
  have h2 : b % 2 ^ 64 = b := Nat.mod_eq_of_lt (by omega)
  rw [h1, h2]
  omega

/-- Addition on `size_t` without carry is the addition of the naturals. -/
theorem add64_of_lt (a b : Nat) (h : a + b < W) : add64 a b = a + b := by
  unfold add64; exact Nat.mod_eq_of_lt h

/-- Coalescing build: the static variables and the header at `region` after an
accepted `openalloc_init`. -/
theorem noseg_init_fields (s : NoSeg.State) (region L : Nat) (hr : region ≠ 0) (hL : L < W)
    (h : 32 + 16 ≤ L) :
    (NoSeg.openalloc_init s region L).2.heap_start = region ∧
    (NoSeg.openalloc_init s region L).2.heap_size = L ∧
    (NoSeg.openalloc_init s region L).2.free_list = region ∧
    NoSeg.size (NoSeg.openalloc_init s region L).2.mem region = L - 32 ∧
    NoSeg.free (NoSeg.openalloc_init s region L).2.mem region = 1 ∧
    NoSeg.next (NoSeg.openalloc_init s region L).2.mem region = 0 ∧
    NoSeg.prev (NoSeg.openalloc_init s region L).2.mem region = 0 := by
  have hc : ¬ (region = 0 ∨ L < OPENALLOC_MIN_BLOCK + NoSeg.HDR) := by
    simp only [OPENALLOC_MIN_BLOCK, NoSeg.HDR]; omega
  have hs : sub64 L NoSeg.HDR = L - 32 := sub64_of_le L 32 hL (by omega)
  have hW : L - 32 < W := by omega
  have h0 : (0 : Nat) < W := by unfold W; norm_num
  unfold NoSeg.openalloc_init
  rw [if_neg hc, hs]
  refine ⟨rfl, rfl, rfl, ?_, ?_, ?_, ?_⟩
  · simp only [NoSeg.size, NoSeg.set_prev, NoSeg.set_next, NoSeg.set_free, NoSeg.set_size]
    rw [read64_write64_ne _ _ _ _ (by omega), read64_write64_ne _ _ _ _ (by omega),
      read64_write8_ne _ _ _ _ (by omega), read64_write64_eq _ _ _ hW]
  · simp only [NoSeg.free, NoSeg.set_prev, NoSeg.set_next, NoSeg.set_free, NoSeg.set_size]
    rw [read8_write64_ne _ _ _ _ (by omega), read8_write64_ne _ _ _ _ (by omega),
      read8_write8_eq]
  · simp only [NoSeg.next, NoSeg.set_prev, NoSeg.set_next, NoSeg.set_free, NoSeg.set_size]
    rw [read64_write64_ne _ _ _ _ (by omega), read64_write64_eq _ _ _ h0]
  · simp only [NoSeg.prev, NoSeg.set_prev, NoSeg.set_next, NoSeg.set_free, NoSeg.set_size]
    rw [read64_write64_eq _ _ _ h0]

/-- Segregated build: the static variables, the ten list roots and the header at
`region` after an accepted `openalloc_init`. -/
theorem seg_init_fields (s : Seg.State) (region L : Nat) (hr : region ≠ 0) (hL : L < W)
    (h : 24 + 16 ≤ L) :
    (Seg.openalloc_init s region L).2.heap_start = region ∧
    (Seg.openalloc_init s region L).2.heap_size = L ∧
    (Seg.openalloc_init s region L).2.free_lists 9 = region ∧
    (∀ i, i < 9 → (Seg.openalloc_init s region L).2.free_lists i = 0) ∧
    Seg.size (Seg.openalloc_init s region L).2.mem region = L - 24 ∧
    Seg.free (Seg.openalloc_init s region L).2.mem region = 1 ∧
    Seg.next (Seg.openalloc_init s region L).2.mem region = 0 := by
  have hc : ¬ (region = 0 ∨ L < OPENALLOC_MIN_BLOCK + Seg.HDR) := by
    simp only [OPENALLOC_MIN_BLOCK, Seg.HDR]; omega
  have hs : sub64 L Seg.HDR = L - 24 := sub64_of_le L 24 hL (by omega)
  have hW : L - 24 < W := by omega
  have h0 : (0 : Nat) < W := by unfold W; norm_num
  unfold Seg.openalloc_init
  rw [if_neg hc, hs]
  refine ⟨rfl, rfl, ?_, ?_, ?_, ?_, ?_⟩
  · simp [Seg.set_list, NUM_BINS]
  · intro i hi
    have h1 : i ≠ 9 := by omega
    have h2 : i < 10 := by omega
    simp [Seg.set_list, NUM_BINS, h1, h2]
  · simp only [Seg.size, Seg.set_next, Seg.set_free, Seg.set_size]
    rw [read64_write64_ne _ _ _ _ (by omega),
      read64_write8_ne _ _ _ _ (by omega), read64_write64_eq _ _ _ hW]
  · simp only [Seg.free, Seg.set_next, Seg.set_free, Seg.set_size]
    rw [read8_write64_ne _ _ _ _ (by omega), read8_write8_eq]
  · simp only [Seg.next, Seg.set_next, Seg.set_free, Seg.set_size]
    rw [read64_write64_eq _ _ _ h0]

/-- Coalescing build: when the header at `heap_start` is free and spans the whole
arena, the walk of `openalloc_get_stats` visits that block only. -/
theorem noseg_stats_single (s : NoSeg.State) (fuel sz : Nat) (hfit : s.heap_start + s.heap_size < W)
    (hsz : NoSeg.size s.mem s.heap_start = sz) (hsum : sz + 32 = s.heap_size)
    (hfree : NoSeg.free s.mem s.heap_start = 1) :
    NoSeg.walk_blocks (fuel + 2) s s.heap_start = some [s.heap_start] ∧
    NoSeg.openalloc_get_stats (fuel + 2) s = some
      { heap_start := s.heap_start, heap_size := s.heap_size, allocated_blocks := 0,
        free_blocks := 1, total_allocated := 0, total_freed := sz } := by
  have e1 : add64 s.heap_start s.heap_size = s.heap_start + s.heap_size := add64_of_lt _ _ hfit
  have e2 : add64 (add64 s.heap_start NoSeg.HDR) sz = s.heap_start + s.heap_size := by
    have : add64 s.heap_start NoSeg.HDR = s.heap_start + 32 :=
      add64_of_lt _ _ (by simp only [NoSeg.HDR]; omega)
    rw [this, add64_of_lt _ _ (by omega)]; omega
  have e3 : add64 0 1 = 1 := by decide
  have e4 : add64 0 sz = sz := by rw [add64_of_lt _ _ (by omega)]; omega
  have hlt : s.heap_start < s.heap_start + s.heap_size := by omega
  constructor
  · simp [NoSeg.walk_blocks, e1, e2, hsz, hlt]
  · simp [NoSeg.openalloc_get_stats, NoSeg.stats_loop, e1, e2, e3, e4, hsz, hfree, hlt]

/-- Segregated build: when the header at `heap_start` is free and spans the whole
arena, the walk of `openalloc_get_stats` visits that block only. -/
theorem seg_stats_single (s : Seg.State) (fuel sz : Nat) (hfit : s.heap_start + s.heap_size < W)
    (hsz : Seg.size s.mem s.heap_start = sz) (hsum : sz + 24 = s.heap_size)
    (hfree : Seg.free s.mem s.heap_start = 1) :
    Seg.walk_blocks (fuel + 2) s s.heap_start = some [s.heap_start] ∧
    Seg.openalloc_get_stats (fuel + 2) s = some
      { heap_start := s.heap_start, heap_size := s.heap_size, allocated_blocks := 0,
        free_blocks := 1, total_allocated := 0, total_freed := sz } := by
  have e1 : add64 s.heap_start s.heap_size = s.heap_start + s.heap_size := add64_of_lt _ _ hfit
  have e2 : add64 (add64 s.heap_start Seg.HDR) sz = s.heap_start + s.heap_size := by
    have : add64 s.heap_start Seg.HDR = s.heap_start + 24 :=
      add64_of_lt _ _ (by simp only [Seg.HDR]; omega)
    rw [this, add64_of_lt _ _ (by omega)]; omega
  have e3 : add64 0 1 = 1 := by decide
  have e4 : add64 0 sz = sz := by rw [add64_of_lt _ _ (by omega)]; omega
  have hlt : s.heap_start < s.heap_start + s.heap_size := by omega
  constructor
  · simp [Seg.walk_blocks, e1, e2, hsz, hlt]
  · simp [Seg.openalloc_get_stats, Seg.stats_loop, e1, e2, e3, e4, hsz, hfree, hlt]

/-- A first-fit scan that stands on a block too small for the request whose `next`
link points back at the block itself never leaves the loop. -/
theorem noseg_malloc_loop_spin (s : NoSeg.State) (aligned_size b : Nat) (hb : b ≠ 0)
    (hsz : NoSeg.size s.mem b < aligned_size) (hn : NoSeg.next s.mem b = b) :
    ∀ fuel, NoSeg.malloc_loop fuel s aligned_size b = none := by
  intro fuel
  induction fuel with
  | zero => rfl
  | succ k ih =>
    have hc : ¬ (NoSeg.free s.mem b ≠ 0 ∧ NoSeg.size s.mem b ≥ aligned_size) := by
      intro h; omega
    unfold NoSeg.malloc_loop
    rw [if_neg hb, if_neg hc, hn]
    exact ih

/-! ## Return value of `openalloc_init` -/

/-- Coalescing build: the return value of `openalloc_init`, and the state after a
refused call. -/
theorem noseg_init_ret (s : NoSeg.State) (region L : Nat) :
    ((NoSeg.openalloc_init s region L).1 = 0 ↔ region ≠ 0 ∧ 32 + 16 ≤ L) ∧
    ((NoSeg.openalloc_init s region L).1 = 0 ∨ (NoSeg.openalloc_init s region L).1 = -1) ∧
    ((NoSeg.openalloc_init s region L).1 = -1 → (NoSeg.openalloc_init s region L).2 = s) := by
  unfold NoSeg.openalloc_init
  simp only [OPENALLOC_MIN_BLOCK, NoSeg.HDR]
  by_cases h : region = 0 ∨ L < 8 * 2 + 32
  · rw [if_pos h]
    refine ⟨?_, ?_, ?_⟩
    · simp; omega
    · simp
    · simp
  · rw [if_neg h]
    refine ⟨?_, ?_, ?_⟩
    · simp; omega
    · simp
    · simp

/-- Segregated build: the return value of `openalloc_init`, and the state after a
refused call. -/
theorem seg_init_ret (s : Seg.State) (region L : Nat) :
    ((Seg.openalloc_init s region L).1 = 0 ↔ region ≠ 0 ∧ 24 + 16 ≤ L) ∧
    ((Seg.openalloc_init s region L).1 = 0 ∨ (Seg.openalloc_init s region L).1 = -1) ∧
    ((Seg.openalloc_init s region L).1 = -1 → (Seg.openalloc_init s region L).2 = s) := by
  unfold Seg.openalloc_init
  simp only [OPENALLOC_MIN_BLOCK, Seg.HDR]
  by_cases h : region = 0 ∨ L < 8 * 2 + 24
  · rw [if_pos h]
    refine ⟨?_, ?_, ?_⟩
    · simp; omega
    · simp
    · simp
  · rw [if_neg h]
    refine ⟨?_, ?_, ?_⟩
    · simp; omega
    · simp
    · simp

/-! ## The invariant of the segregated build -/

section SegInvariant
open Seg

/-- The term `size + OPENALLOC_ALIGN - 1` of `align_size` on `size_t`. -/
theorem sub64_add64_one (n : Nat) : sub64 (add64 n 8) 1 = (n + 7) % W := by
  unfold sub64 add64 W
  omega

/-- Masking with `~7` clears the low three bits. -/
theorem land_mask (x : Nat) (hx : x < 2 ^ 64) : x &&& (2 ^ 64 - 8) = x / 8 * 8 := by
  apply Nat.eq_of_testBit_eq
  intro i
  rw [Nat.testBit_and]
  have h1 : (2:Nat) ^ 64 - 8 = 2 ^ 3 * (2 ^ 61 - 1) := by norm_num
  have h2 : x / 8 * 8 = 2 ^ 3 * (x >>> 3) := by
    rw [Nat.shiftRight_eq_div_pow]; norm_num; ring
  rw [h1, h2, Nat.testBit_mul_pow_two, Nat.testBit_mul_pow_two, Nat.testBit_two_pow_sub_one,
    Nat.testBit_shiftRight]
  by_cases hi : 3 ≤ i
  · simp only [hi, decide_True, Bool.true_and]
    have e : 3 + (i - 3) = i := by omega
    rw [e]
    by_cases h61 : i - 3 < 61
    · simp [h61]
    · have : 64 ≤ i := by omega
      have hlt : x < 2 ^ i := lt_of_lt_of_le hx (Nat.pow_le_pow_right (by norm_num) this)
      simp [h61, Nat.testBit_lt_two_pow hlt]
  · simp [hi]

/-- For a request that does not wrap, `align_size` rounds up to a multiple of 8. -/
theorem align_size_eq (n : Nat) (h : n + 8 ≤ W) : align_size n = (n + 7) / 8 * 8 := by
  unfold align_size OPENALLOC_ALIGN
  rw [sub64_add64_one]
  have h1 : (n + 7) % W = n + 7 := Nat.mod_eq_of_lt (by omega)
  rw [h1]
  have hW : W = 2 ^ 64 := rfl
  rw [hW]
  exact land_mask (n + 7) (by rw [← hW]; omega)

/-- For `n ≤ 2 ^ 64 - 8` the rounded size is a multiple of 8 in `[n, n + 7]`. -/
theorem align_size_bounds (n : Nat) (h : n + 8 ≤ W) :
    n ≤ align_size n ∧ align_size n ≤ n + 7 ∧ 8 ∣ align_size n ∧ align_size n < W := by
  rw [align_size_eq n h]
  have hW : W = 2 ^ 64 := rfl
  refine ⟨by omega, by omega, Nat.dvd_mul_left _ _, ?_⟩
  have : (n + 7) / 8 * 8 ≤ n + 7 := Nat.div_mul_le_self _ _
  omega

/-- A byte load sees only its cell. -/
theorem read8_of_eq (m m' : Mem) (a : Nat) (h : m' a = m a) : read8 m' a = read8 m a := by
  unfold read8; rw [h]

/-- A 64-bit load sees only its eight cells. -/
theorem read64_of_eq (m m' : Mem) (a : Nat) (h : ∀ x, a ≤ x → x < a + 8 → m' x = m x) :
    read64 m' a = read64 m a := by
  unfold read64
  rw [read8_of_eq m m' a (h _ (by omega) (by omega)),
    read8_of_eq m m' (a + 1) (h _ (by omega) (by omega)),
    read8_of_eq m m' (a + 2) (h _ (by omega) (by omega)),
    read8_of_eq m m' (a + 3) (h _ (by omega) (by omega)),
    read8_of_eq m m' (a + 4) (h _ (by omega) (by omega)),
    read8_of_eq m m' (a + 5) (h _ (by omega) (by omega)),
    read8_of_eq m m' (a + 6) (h _ (by omega) (by omega)),
    read8_of_eq m m' (a + 7) (h _ (by omega) (by omega))]

/-- A byte store leaves the other cells as they were. -/
theorem write8_out (m : Mem) (a v x : Nat) (h : x ≠ a) : write8 m a v x = m x := by
  simp [write8, h]

/-- The function `memcpy` leaves the cells outside the destination as they were. -/
theorem memcpy_out (m : Mem) (d s n x : Nat) (h : x < d ∨ d + n ≤ x) : memcpy m d s n x = m x := by
  have : ¬ (d ≤ x ∧ x < d + n) := by omega
  simp [memcpy, this]

/-- A 64-bit load is below `2 ^ 64`. -/
theorem read64_lt (m : Mem) (a : Nat) : read64 m a < W := by
  unfold read64 read8 W
  omega

/-- Header fields of the block at `y` are the same in two memories that agree on
the bytes `[y, y + 17)`. -/
theorem seg_hdr_of_eq (m m' : Mem) (y : Nat) (h : ∀ x, y ≤ x → x < y + 17 → m' x = m x) :
    Seg.size m' y = Seg.size m y ∧ Seg.next m' y = Seg.next m y ∧ Seg.free m' y = Seg.free m y := by
  refine ⟨?_, ?_, ?_⟩
  · exact read64_of_eq m m' y (fun x h1 h2 => h x h1 (by omega))
  · exact read64_of_eq m m' (y + 8) (fun x h1 h2 => h x (by omega) (by omega))
  · exact read8_of_eq m m' (y + 16) (h _ (by omega) (by omega))

/-- A tiling ends at or after its start. -/
theorem seg_tiles_le (sz : Nat → Nat) (e : Nat) : ∀ (bs : List Nat) (a : Nat), Tiles sz e a bs → a ≤ e := by
  intro bs
  induction bs with
  | nil => intro a h; simp only [Tiles] at h; omega
  | cons b bs ih =>
    intro a h
    simp only [Tiles] at h
    have := ih _ h.2
    omega

/-- A block of a tiling lies between the start and the end of the tiling. -/
theorem seg_tiles_mem (sz : Nat → Nat) (e : Nat) : ∀ (bs : List Nat) (a b : Nat), Tiles sz e a bs → b ∈ bs →
    a ≤ b ∧ b + Seg.HDR + sz b ≤ e := by
  intro bs
  induction bs with
  | nil => intro a b _ hb; simp at hb
  | cons x bs ih =>
    intro a b h hb
    simp only [Tiles] at h
    obtain ⟨hx, ht⟩ := h
    rcases List.mem_cons.mp hb with h1 | h1
    · subst h1; subst hx
      exact ⟨le_refl _, seg_tiles_le sz e bs _ ht⟩
    · have := ih _ b ht h1
      omega

/-- Two blocks of a tiling do not overlap. -/
theorem seg_tiles_sep (sz : Nat → Nat) (e : Nat) : ∀ (bs : List Nat) (a x y : Nat), Tiles sz e a bs →
    x ∈ bs → y ∈ bs → x ≠ y →
    x + Seg.HDR + sz x ≤ y ∨ y + Seg.HDR + sz y ≤ x := by
  intro bs
  induction bs with
  | nil => intro a x y _ hx; simp at hx
  | cons z bs ih =>
    intro a x y h hx hy hne
    simp only [Tiles] at h
    obtain ⟨hz, ht⟩ := h
    rcases List.mem_cons.mp hx with h1 | h1 <;> rcases List.mem_cons.mp hy with h2 | h2
    · exact absurd (h1.trans h2.symm) hne
    · left
      have := (seg_tiles_mem sz e bs _ y ht h2).1
      rw [h1, hz]; exact this
    · right
      have := (seg_tiles_mem sz e bs _ x ht h1).1
      rw [h2, hz]; exact this
    · exact ih _ x y ht h1 h2 hne

/-- A tiling reads only the size fields of its blocks. -/
theorem seg_tiles_congr (sz sz' : Nat → Nat) (e : Nat) : ∀ (bs : List Nat) (a : Nat),
    (∀ b ∈ bs, sz' b = sz b) → Tiles sz e a bs → Tiles sz' e a bs := by
  intro bs
  induction bs with
  | nil => intro a _ h; exact h
  | cons x bs ih =>
    intro a hs h
    simp only [Tiles] at h ⊢
    obtain ⟨hx, ht⟩ := h
    refine ⟨hx, ?_⟩
    have e1 : sz' a = sz a := by rw [← hx]; exact hs x (List.mem_cons_self _ _)
    rw [e1]
    exact ih _ (fun b hb => hs b (List.mem_cons_of_mem _ hb)) ht

/-- A tiling has room for the headers of its blocks. -/
theorem seg_tiles_length (sz : Nat → Nat) (e : Nat) : ∀ (bs : List Nat) (a : Nat), Tiles sz e a bs →
    a + Seg.HDR * bs.length ≤ e := by
  intro bs
  induction bs with
  | nil => intro a h; simp only [Tiles] at h; simp; omega
  | cons x bs ih =>
    intro a h
    simp only [Tiles] at h
    have := ih _ h.2
    simp only [List.length_cons]
    have h2 : Seg.HDR * (bs.length + 1) = Seg.HDR * bs.length + Seg.HDR := by ring
    omega

/-- The blocks after a split are the old blocks and the new one. -/
theorem seg_mem_insertAfter (b nb : Nat) : ∀ (bs : List Nat) (y : Nat),
    y ∈ insertAfter b nb bs ↔ y ∈ bs ∨ (y = nb ∧ b ∈ bs) := by
  intro bs
  induction bs with
  | nil => intro y; simp [insertAfter]
  | cons x bs ih =>
    intro y
    simp only [insertAfter]
    by_cases hx : x = b
    · rw [if_pos hx]
      simp only [List.mem_cons]
      constructor
      · rintro (h | h | h)
        · exact Or.inl (Or.inl h)
        · exact Or.inr ⟨h, Or.inl hx.symm⟩
        · exact Or.inl (Or.inr h)
      · rintro ((h | h) | ⟨h, _⟩)
        · exact Or.inl h
        · exact Or.inr (Or.inr h)
        · exact Or.inr (Or.inl h)
    · rw [if_neg hx]
      simp only [List.mem_cons, ih]
      constructor
      · rintro (h | h | ⟨h, h'⟩)
        · exact Or.inl (Or.inl h)
        · exact Or.inl (Or.inr h)
        · exact Or.inr ⟨h, Or.inr h'⟩
      · rintro ((h | h) | ⟨h, h' | h'⟩)
        · exact Or.inl h
        · exact Or.inr (Or.inl h)
        · exact absurd h'.symm hx
        · exact Or.inr (Or.inr ⟨h, h'⟩)

/-- Cutting a block in two keeps the tiling. -/
theorem seg_tiles_split (sz sz' : Nat → Nat) (e b nb s1 s2 : Nat) (hnb : nb = b + Seg.HDR + s1)
    (hb' : sz' b = s1) (hnb' : sz' nb = s2)
    (hsum : s1 + Seg.HDR + s2 = sz b) :
    ∀ (bs : List Nat) (a : Nat), Tiles sz e a bs → b ∈ bs →
    (∀ y ∈ bs, y ≠ b → sz' y = sz y) → Tiles sz' e a (insertAfter b nb bs) := by
  intro bs
  induction bs with
  | nil => intro a _ hb; simp at hb
  | cons x bs ih =>
    intro a h hb hs
    simp only [Tiles] at h
    obtain ⟨hx, ht⟩ := h
    simp only [insertAfter]
    by_cases hxb : x = b
    · rw [if_pos hxb]
      simp only [Tiles]
      have hab : a = b := by rw [← hx, hxb]
      refine ⟨hx, ?_, ?_⟩
      · rw [hab, hb', hnb]
      · have e1 : a + Seg.HDR + sz' a + Seg.HDR + sz' (a + Seg.HDR + sz' a)
            = a + Seg.HDR + sz a := by
          rw [hab, hb', ← hnb, hnb']; omega
        rw [e1]
        apply seg_tiles_congr sz sz' e bs _ _ ht
        intro y hy
        apply hs y (List.mem_cons_of_mem _ hy)
        have := (seg_tiles_mem sz e bs _ y ht hy).1
        simp only [Seg.HDR] at this
        omega
    · rw [if_neg hxb]
      simp only [Tiles]
      refine ⟨hx, ?_⟩
      have e1 : sz' a = sz a := by
        rw [← hx]; exact hs x (List.mem_cons_self _ _) hxb
      rw [e1]
      have hb2 : b ∈ bs := by
        rcases List.mem_cons.mp hb with h1 | h1
        · exact absurd h1.symm hxb
        · exact h1
      exact ih _ ht hb2 (fun y hy => hs y (List.mem_cons_of_mem _ hy))

/-! list segments -/

/-- A list segment reads only the `next` fields of its nodes. -/
theorem seg_lseg_congr (nx nx' : Nat → Nat) : ∀ (l : List Nat) (p q : Nat),
    (∀ b ∈ l, nx' b = nx b) → LSeg nx p l q → LSeg nx' p l q := by
  intro l
  induction l with
  | nil => intro p q _ h; exact h
  | cons x l ih =>
    intro p q hn h
    simp only [LSeg] at h ⊢
    obtain ⟨h1, h2, h3⟩ := h
    refine ⟨h1, h2, ?_⟩
    rw [hn x (List.mem_cons_self _ _)]
    exact ih _ _ (fun b hb => hn b (List.mem_cons_of_mem _ hb)) h3

/-- A list segment over `l1 ++ l2` is a segment over `l1` followed by one over `l2`. -/
theorem seg_lseg_append (nx : Nat → Nat) : ∀ (l1 l2 : List Nat) (p q : Nat),
    LSeg nx p (l1 ++ l2) q ↔ ∃ r, LSeg nx p l1 r ∧ LSeg nx r l2 q := by
  intro l1
  induction l1 with
  | nil =>
    intro l2 p q
    simp only [List.nil_append, LSeg]
    constructor
    · intro h; exact ⟨p, rfl, h⟩
    · rintro ⟨r, h1, h2⟩; rw [h1]; exact h2
  | cons x l1 ih =>
    intro l2 p q
    show LSeg nx p (x :: (l1 ++ l2)) q ↔ _
    simp only [LSeg]
    rw [ih]
    constructor
    · rintro ⟨h1, h2, r, h3, h4⟩; exact ⟨r, ⟨h1, h2, h3⟩, h4⟩
    · rintro ⟨r, ⟨h1, h2, h3⟩, h4⟩; exact ⟨h1, h2, r, h3, h4⟩

/-- After a non-empty run of nodes `prev` points at the `next` field of the last one. -/
theorem seg_linkAfter_snoc (bin c : Nat) : ∀ pre : List Nat,
    linkAfter bin (pre ++ [c]) = Link.field c := by
  intro pre
  induction pre with
  | nil => rfl
  | cons x pre ih =>
    cases pre with
    | nil => rfl
    | cons y pre => 
      simp only [List.cons_append, linkAfter] at ih ⊢
      exact ih

/-- The scan of one list either passes every node (none fits) or stops at the
first node that fits, with `prev` the link that leads to it. -/
theorem seg_list_loop_spec (s : State) (a bin : Nat) : ∀ (l2 pre : List Nat) (fuel blk : Nat),
    LSeg (Seg.next s.mem) blk l2 0 → l2.length < fuel →
    (list_loop fuel s a bin (linkAfter bin pre) blk = Scan.miss ∧ ∀ x ∈ l2, ¬ Fit s a x) ∨
    (∃ l1 b post, l2 = l1 ++ b :: post ∧ (∀ x ∈ l1, ¬ Fit s a x) ∧ Fit s a b ∧
      list_loop fuel s a bin (linkAfter bin pre) blk
        = Scan.hit (take s a bin (linkAfter bin (pre ++ l1)) b).1
            (take s a bin (linkAfter bin (pre ++ l1)) b).2) := by
  intro l2
  induction l2 with
  | nil =>
    intro pre fuel blk h hf
    simp only [LSeg] at h
    left
    cases fuel with
    | zero => simp at hf
    | succ f =>
      refine ⟨?_, by simp⟩
      simp [list_loop, h]
  | cons x l2 ih =>
    intro pre fuel blk h hf
    simp only [LSeg] at h
    obtain ⟨h1, h2, h3⟩ := h
    subst h1
    cases fuel with
    | zero => simp at hf
    | succ f =>
      simp only [List.length_cons] at hf
      by_cases hfit : Fit s a blk
      · right
        refine ⟨[], blk, l2, rfl, by simp, hfit, ?_⟩
        have hfit' : Seg.free s.mem blk ≠ 0 ∧ Seg.size s.mem blk ≥ a := hfit
        simp only [list_loop, if_neg h2, if_pos hfit', List.append_nil]
      · have hfit' : ¬ (Seg.free s.mem blk ≠ 0 ∧ Seg.size s.mem blk ≥ a) := hfit
        have hstep : list_loop (f + 1) s a bin (linkAfter bin pre) blk
            = list_loop f s a bin (linkAfter bin (pre ++ [blk])) (Seg.next s.mem blk) := by
          simp only [list_loop, if_neg h2, if_neg hfit', seg_linkAfter_snoc]
        rcases ih (pre ++ [blk]) f (Seg.next s.mem blk) h3 (by omega) with
          ⟨hm, hall⟩ | ⟨l1, b, post, e1, e2, e3, e4⟩
        · left
          refine ⟨by rw [hstep]; exact hm, ?_⟩
          intro y hy
          rcases List.mem_cons.mp hy with h | h
          · rw [h]; exact hfit
          · exact hall y h
        · right
          refine ⟨blk :: l1, b, post, by rw [e1]; rfl, ?_, e3, ?_⟩
          · intro y hy
            rcases List.mem_cons.mp hy with h | h
            · rw [h]; exact hfit
            · exact e2 y h
          · rw [hstep, e4]
            simp only [List.append_assoc, List.singleton_append]

/-- No block starts strictly inside another block. -/
theorem seg_tiles_inside (sz : Nat → Nat) (e : Nat) (bs : List Nat) (a b x : Nat)
    (h : Tiles sz e a bs) (hb : b ∈ bs) (hx : x ∈ bs) (h1 : b < x) :
    b + Seg.HDR + sz b ≤ x := by
  have := seg_tiles_sep sz e bs a b x h hb hx (by omega)
  omega

/-- The invariant reads only the static variables and the headers of the blocks. -/
theorem seg_inv_congr (v w : View) (live bs : List Nat) (ls : Nat → List Nat)
    (hI : InvV v live bs ls) (hE : VEq bs v w) : InvV w live bs ls := by
  obtain ⟨e1, e2, e3, e4⟩ := hE
  refine ⟨?_, ?_, ?_, ?_, ?_, ?_, hI.nodup, hI.disj, ?_, ?_, ?_, hI.live_nodup, ?_⟩
  · rw [e1]; exact hI.base_pos
  · rw [e1, e2]; exact hI.fits
  · rw [e2]; exact hI.small
  · rw [e1, e2]
    exact seg_tiles_congr v.sz w.sz _ bs _ (fun b hb => (e4 b hb).1) hI.tiles
  · intro i hi
    rw [e3 i hi]
    exact seg_lseg_congr v.nx w.nx (ls i) _ _
      (fun b hb => (e4 b (hI.node_free i hi b hb).1).2.1) (hI.chain i hi)
  · intro i hi b hb
    have := hI.node_free i hi b hb
    refine ⟨this.1, ?_⟩
    rw [(e4 b this.1).2.2]; exact this.2
  · intro b hb hf
    rw [(e4 b hb).2.2] at hf
    exact hI.listed b hb hf
  · intro i hi b hb
    rw [(e4 b (hI.node_free i hi b hb).1).1]
    exact hI.binned i hi b hb
  · intro p hp
    obtain ⟨b, hb, h1, h2⟩ := hI.live_alloc p hp
    exact ⟨b, hb, h1, by rw [(e4 b hb).2.2]; exact h2⟩
  · intro h8 b hb
    rw [e2] at h8
    rw [(e4 b hb).1]
    exact hI.mult8 h8 b hb

/-- A block of the arena lies in the arena and is not `NULL`. -/
theorem seg_inv_block (v : View) (live bs : List Nat) (ls : Nat → List Nat)
    (hI : InvV v live bs ls) (b : Nat) (hb : b ∈ bs) :
    0 < b ∧ v.hs ≤ b ∧ b + Seg.HDR + v.sz b ≤ v.hs + v.hz ∧ b + Seg.HDR + v.sz b < W := by
  have h1 := seg_tiles_mem v.sz _ bs _ b hI.tiles hb
  have h2 := hI.base_pos
  have h3 := hI.fits
  omega

/-- Splitting a block keeps the invariant; the new block is allocated and not live. -/
theorem seg_inv_vsplit (v : View) (live bs : List Nat) (ls : Nat → List Nat)
    (hI : InvV v live bs ls) (b a : Nat) (hb : b ∈ bs) (ha : a + Seg.HDR ≤ v.sz b)
    (h8 : 8 ∣ a) (hfb : v.fr b = 0) :
    InvV (vsplit v b a) live (insertAfter b (b + Seg.HDR + a) bs) ls := by
  have hnb : b + Seg.HDR + a ∉ bs := by
    intro h
    have := seg_tiles_inside v.sz _ bs _ b _ hI.tiles hb h (by simp only [Seg.HDR]; omega)
    simp only [Seg.HDR] at this ha
    omega
  have hne : ∀ y ∈ bs, y ≠ b + Seg.HDR + a := fun y hy h => hnb (h ▸ hy)
  have hbne : b ≠ b + Seg.HDR + a := by simp only [Seg.HDR]; omega
  refine ⟨hI.base_pos, hI.fits, hI.small, ?_, hI.chain, ?_, hI.nodup, hI.disj, ?_, ?_, ?_,
    hI.live_nodup, ?_⟩
  · refine seg_tiles_split v.sz (vsplit v b a).sz _ b (b + Seg.HDR + a) a (v.sz b - a - Seg.HDR)
      rfl ?_ ?_ ?_ bs _ hI.tiles hb ?_
    · simp only [vsplit, Function.update_same]
    · simp only [vsplit]
      rw [Function.update_noteq hbne.symm, Function.update_same]
    · omega
    · intro y hy hyb
      simp only [vsplit]
      rw [Function.update_noteq hyb, Function.update_noteq (hne y hy)]
  · intro i hi y hy
    have := hI.node_free i hi y hy
    refine ⟨(seg_mem_insertAfter _ _ bs y).mpr (Or.inl this.1), ?_⟩
    simp only [vsplit]
    rw [Function.update_noteq (hne y this.1)]
    exact this.2
  · intro y hy hf
    rcases (seg_mem_insertAfter _ _ bs y).mp hy with h | ⟨h, _⟩
    · simp only [vsplit] at hf
      rw [Function.update_noteq (hne y h)] at hf
      exact hI.listed y h hf
    · exfalso
      apply hf
      simp only [vsplit]
      rw [h, Function.update_same]
  · intro i hi y hy
    have hy1 := hI.node_free i hi y hy
    have hyb : y ≠ b := fun h => hy1.2 (h ▸ hfb)
    rcases hI.binned i hi y hy with h | ⟨_, h⟩
    · left
      simp only [vsplit]
      rw [Function.update_noteq hyb, Function.update_noteq (hne y hy1.1)]
      exact h
    · exfalso
      rw [h] at hb
      exact hyb (List.mem_singleton.mp hb).symm
  · intro p hp
    obtain ⟨y, hy, h1, h2⟩ := hI.live_alloc p hp
    refine ⟨y, (seg_mem_insertAfter _ _ bs y).mpr (Or.inl hy), h1, ?_⟩
    simp only [vsplit]
    rw [Function.update_noteq (hne y hy)]
    exact h2
  · intro hd y hy
    have hd' : 8 ∣ v.hz - Seg.HDR := hd
    rcases (seg_mem_insertAfter _ _ bs y).mp hy with h | ⟨h, _⟩
    · by_cases hyb : y = b
      · simp only [vsplit]
        rw [hyb, Function.update_same]
        exact h8
      · simp only [vsplit]
        rw [Function.update_noteq hyb, Function.update_noteq (hne y h)]
        exact hI.mult8 hd' y h
    · simp only [vsplit]
      rw [h, Function.update_noteq hbne.symm, Function.update_same]
      have := hI.mult8 hd' b hb
      simp only [Seg.HDR] at ha ⊢
      omega

/-- A list is empty or ends in a last element. -/
theorem seg_list_last_cases (l : List Nat) : l = [] ∨ ∃ pre c, l = pre ++ [c] := by
  induction l with
  | nil => exact Or.inl rfl
  | cons x l ih =>
    right
    rcases ih with h | ⟨pre, c, h⟩
    · exact ⟨[], x, by rw [h]; rfl⟩
    · exact ⟨x :: pre, c, by rw [h]; rfl⟩

/-- The value found at the link after the nodes `l1` is the end of the segment. -/
theorem seg_vload_linkAfter (v : View) (i : Nat) (l1 : List Nat) (r : Nat)
    (h : LSeg v.nx (v.fl i) l1 r) : vload v (linkAfter i l1) = r := by
  rcases seg_list_last_cases l1 with h1 | ⟨pre, c, h1⟩
  · subst h1
    exact h
  · subst h1
    rw [seg_linkAfter_snoc]
    obtain ⟨r1, _, h3⟩ := (seg_lseg_append v.nx pre [c] _ _).mp h
    simp only [LSeg] at h3
    exact h3.2.2

/-- Storing `x` through the link after the nodes `l1` of list `i` makes the segment
`l1` end in `x`. -/
theorem seg_lseg_vstore (v w : View) (i : Nat) (l1 : List Nat) (r x : Nat)
    (h : LSeg v.nx (v.fl i) l1 r) (hnd : l1.Nodup)
    (h0 : l1 = [] → w.fl i = x)
    (h1 : ∀ pre c, l1 = pre ++ [c] →
      w.fl i = v.fl i ∧ w.nx c = x ∧ ∀ y ∈ pre, w.nx y = v.nx y) :
    LSeg w.nx (w.fl i) l1 x := by
  rcases seg_list_last_cases l1 with h2 | ⟨pre, c, h2⟩
  · subst h2
    exact h0 rfl
  · obtain ⟨e1, e2, e3⟩ := h1 pre c h2
    subst h2
    obtain ⟨r1, h3, h4⟩ := (seg_lseg_append v.nx pre [c] _ _).mp h
    simp only [LSeg] at h4
    obtain ⟨h5, h6, _⟩ := h4
    subst h5
    apply (seg_lseg_append w.nx pre [r1] _ _).mpr
    refine ⟨r1, ?_, ?_⟩
    · rw [e1]
      exact seg_lseg_congr v.nx w.nx pre _ _ e3 h3
    · simp only [LSeg]
      exact ⟨trivial, h6, e2⟩

/-- The unlink step leaves the size fields alone. -/
theorem seg_vunlink_sz (v : View) (lk : Link) (b : Nat) : (vunlink v lk b).sz = v.sz := by
  cases lk <;> rfl

/-- The unlink step clears the free flag of the block. -/
theorem seg_vunlink_fr (v : View) (lk : Link) (b : Nat) :
    (vunlink v lk b).fr = Function.update v.fr b 0 := by
  cases lk <;> rfl

/-- The unlink step leaves `heap_start` and `heap_size` alone. -/
theorem seg_vunlink_hs (v : View) (lk : Link) (b : Nat) :
    (vunlink v lk b).hs = v.hs ∧ (vunlink v lk b).hz = v.hz := by
  cases lk <;> exact ⟨rfl, rfl⟩

/-- The `next` fields after unlinking the head of a list. -/
theorem seg_vunlink_nx_root (v : View) (j b : Nat) :
    (vunlink v (Link.root j) b).nx = Function.update v.nx b 0 := rfl

/-- The list roots after unlinking the head of a list. -/
theorem seg_vunlink_fl_root (v : View) (j b : Nat) :
    (vunlink v (Link.root j) b).fl = Function.update v.fl j (v.nx b) := rfl

/-- The `next` fields after unlinking the successor of `c`. -/
theorem seg_vunlink_nx_field (v : View) (c b : Nat) :
    (vunlink v (Link.field c) b).nx = Function.update (Function.update v.nx c (v.nx b)) b 0 :=
  rfl

/-- The list roots after unlinking the successor of `c`. -/
theorem seg_vunlink_fl_field (v : View) (c b : Nat) :
    (vunlink v (Link.field c) b).fl = v.fl := rfl

/-- Apart from `b` and the last node of `l1`, the `next` fields stay. -/
theorem seg_vunlink_nx_other (v : View) (i : Nat) (l1 : List Nat) (b y : Nat)
    (hb : y ≠ b) (hc : ∀ pre, l1 ≠ pre ++ [y]) :
    (vunlink v (linkAfter i l1) b).nx y = v.nx y := by
  rcases seg_list_last_cases l1 with h2 | ⟨pre, c, h2⟩
  · subst h2
    simp only [linkAfter, seg_vunlink_nx_root]
    rw [Function.update_noteq hb]
  · subst h2
    have : y ≠ c := fun h => hc pre (by rw [h])
    rw [seg_linkAfter_snoc, seg_vunlink_nx_field, Function.update_noteq hb,
      Function.update_noteq this]

/-- The roots of the other lists stay. -/
theorem seg_vunlink_fl_other (v : View) (i : Nat) (l1 : List Nat) (b j : Nat) (hj : j ≠ i) :
    (vunlink v (linkAfter i l1) b).fl j = v.fl j := by
  rcases seg_list_last_cases l1 with h2 | ⟨pre, c, h2⟩
  · subst h2
    simp only [linkAfter, seg_vunlink_fl_root]
    rw [Function.update_noteq hj]
  · subst h2
    rw [seg_linkAfter_snoc, seg_vunlink_fl_field]

/-- Taking a block off its free list keeps the invariant; the block is allocated
and not yet live. -/
theorem seg_inv_vunlink (v : View) (live bs : List Nat) (ls : Nat → List Nat)
    (hI : InvV v live bs ls) (i : Nat) (hi : i < NUM_BINS) (l1 post : List Nat) (b : Nat)
    (hl : ls i = l1 ++ b :: post) :
    InvV (vunlink v (linkAfter i l1) b) live bs (Function.update ls i (l1 ++ post)) := by
  have hnd := hI.nodup i hi
  rw [hl] at hnd
  have hnd2 : (b :: (l1 ++ post)).Nodup := List.nodup_middle.mp hnd
  obtain ⟨hbn, hnd3⟩ := List.nodup_cons.mp hnd2
  have hbl1 : b ∉ l1 := fun h => hbn (List.mem_append_left _ h)
  have hbpost : b ∉ post := fun h => hbn (List.mem_append_right _ h)
  obtain ⟨hl1nd, hpostnd, hdisj⟩ := List.nodup_append.mp hnd3
  have hbi : b ∈ ls i := by rw [hl]; simp
  have hsub : ∀ y, y ∈ l1 ++ post → y ∈ ls i := by
    intro y hy
    rw [hl]
    rcases List.mem_append.mp hy with h | h
    · exact List.mem_append_left _ h
    · exact List.mem_append_right _ (List.mem_cons_of_mem _ h)
  have hsub2 : ∀ j, j < NUM_BINS → ∀ y, y ∈ Function.update ls i (l1 ++ post) j →
      y ∈ ls j ∧ y ≠ b := by
    intro j hj y hy
    by_cases hji : j = i
    · subst hji
      rw [Function.update_same] at hy
      exact ⟨hsub y hy, fun h => hbn (h ▸ hy)⟩
    · rw [Function.update_noteq hji] at hy
      exact ⟨hy, fun h => hI.disj i j hi hj (Ne.symm hji) b hbi (h ▸ hy)⟩
  obtain ⟨r, hs1, hs2⟩ := (seg_lseg_append v.nx l1 (b :: post) _ _).mp (hl ▸ hI.chain i hi)
  simp only [LSeg] at hs2
  obtain ⟨hrb, hb0, hs3⟩ := hs2
  subst hrb
  refine ⟨?_, ?_, ?_, ?_, ?_, ?_, ?_, ?_, ?_, ?_, ?_, hI.live_nodup, ?_⟩
  · rw [(seg_vunlink_hs _ _ _).1]; exact hI.base_pos
  · rw [(seg_vunlink_hs _ _ _).1, (seg_vunlink_hs _ _ _).2]; exact hI.fits
  · rw [(seg_vunlink_hs _ _ _).2]; exact hI.small
  · rw [(seg_vunlink_hs _ _ _).1, (seg_vunlink_hs _ _ _).2, seg_vunlink_sz]; exact hI.tiles
  · intro j hj
    by_cases hji : j = i
    · subst hji
      rw [Function.update_same]
      apply (seg_lseg_append _ l1 post _ _).mpr
      refine ⟨v.nx r, ?_, ?_⟩
      · apply seg_lseg_vstore v _ j l1 r (v.nx r) hs1 hl1nd
        · intro h
          subst h
          simp only [linkAfter, seg_vunlink_fl_root, Function.update_same]
        · intro pre c h
          subst h
          have hcl : c ∈ pre ++ [c] := by simp
          have hcb : c ≠ r := fun h => hbl1 (h ▸ hcl)
          rw [seg_linkAfter_snoc, seg_vunlink_fl_field, seg_vunlink_nx_field]
          refine ⟨rfl, ?_, ?_⟩
          · rw [Function.update_noteq hcb, Function.update_same]
          · intro y hy
            have hyb : y ≠ r := fun h => hbl1 (h ▸ List.mem_append_left _ hy)
            have hyc : y ≠ c := by
              intro h
              have := List.nodup_append.mp hl1nd
              exact this.2.2 hy (by simp [h])
            rw [Function.update_noteq hyb, Function.update_noteq hyc]
      · apply seg_lseg_congr v.nx _ post _ _ _ hs3
        intro y hy
        apply seg_vunlink_nx_other
        · exact fun h => hbpost (h ▸ hy)
        · intro pre h
          have : y ∈ l1 := by rw [h]; simp
          exact hdisj this hy
    · rw [Function.update_noteq hji, seg_vunlink_fl_other v i l1 r j hji]
      apply seg_lseg_congr v.nx _ (ls j) _ _ _ (hI.chain j hj)
      intro y hy
      apply seg_vunlink_nx_other
      · exact fun h => hI.disj i j hi hj (Ne.symm hji) r hbi (h ▸ hy)
      · intro pre h
        have : y ∈ ls i := by rw [hl, h]; simp
        exact hI.disj i j hi hj (Ne.symm hji) y this hy
  · intro j hj y hy
    obtain ⟨h1, h2⟩ := hsub2 j hj y hy
    have := hI.node_free j hj y h1
    refine ⟨this.1, ?_⟩
    rw [seg_vunlink_fr, Function.update_noteq h2]
    exact this.2
  · intro j hj
    by_cases hji : j = i
    · subst hji
      rw [Function.update_same]; exact hnd3
    · rw [Function.update_noteq hji]; exact hI.nodup j hj
  · intro j k hj hk hjk y hy hy2
    exact hI.disj j k hj hk hjk y (hsub2 j hj y hy).1 (hsub2 k hk y hy2).1
  · intro y hy hf
    rw [seg_vunlink_fr] at hf
    by_cases hyb : y = r
    · rw [hyb, Function.update_same] at hf
      exact absurd rfl hf
    · rw [Function.update_noteq hyb] at hf
      obtain ⟨j, hj, hyj⟩ := hI.listed y hy hf
      refine ⟨j, hj, ?_⟩
      by_cases hji : j = i
      · subst hji
        rw [Function.update_same]
        rw [hl] at hyj
        rcases List.mem_append.mp hyj with h | h
        · exact List.mem_append_left _ h
        · rcases List.mem_cons.mp h with h | h
          · exact absurd h hyb
          · exact List.mem_append_right _ h
      · rw [Function.update_noteq hji]; exact hyj
  · intro j hj y hy
    rw [seg_vunlink_sz]
    exact hI.binned j hj y (hsub2 j hj y hy).1
  · intro p hp
    obtain ⟨y, hy, h1, h2⟩ := hI.live_alloc p hp
    refine ⟨y, hy, h1, ?_⟩
    rw [seg_vunlink_fr]
    by_cases hyb : y = r
    · rw [hyb, Function.update_same]
    · rw [Function.update_noteq hyb]; exact h2
  · intro hd y hy
    rw [(seg_vunlink_hs _ _ _).2] at hd
    rw [seg_vunlink_sz]
    exact hI.mult8 hd y hy

/-- The insert step leaves the size fields alone. -/
theorem seg_vinsert_sz (v : View) (lk : Link) (y : Nat) : (vinsert v lk y).sz = v.sz := by
  cases lk <;> rfl

/-- The insert step sets the free flag of the block. -/
theorem seg_vinsert_fr (v : View) (lk : Link) (y : Nat) :
    (vinsert v lk y).fr = Function.update v.fr y 1 := by
  cases lk <;> rfl

/-- The insert step leaves `heap_start` and `heap_size` alone. -/
theorem seg_vinsert_hs (v : View) (lk : Link) (y : Nat) :
    (vinsert v lk y).hs = v.hs ∧ (vinsert v lk y).hz = v.hz := by
  cases lk <;> exact ⟨rfl, rfl⟩

/-- The `next` fields after an insert at the head of a list. -/
theorem seg_vinsert_nx_root (v : View) (j y : Nat) :
    (vinsert v (Link.root j) y).nx = Function.update v.nx y (v.fl j) := rfl

/-- The list roots after an insert at the head of a list. -/
theorem seg_vinsert_fl_root (v : View) (j y : Nat) :
    (vinsert v (Link.root j) y).fl = Function.update v.fl j y := rfl

/-- The `next` fields after an insert behind `c`. -/
theorem seg_vinsert_nx_field (v : View) (c y : Nat) :
    (vinsert v (Link.field c) y).nx
      = Function.update (Function.update v.nx y (v.nx c)) c y := rfl

/-- The list roots after an insert behind `c`. -/
theorem seg_vinsert_fl_field (v : View) (c y : Nat) :
    (vinsert v (Link.field c) y).fl = v.fl := rfl

/-- Apart from the new node and the last node of `l1`, the `next` fields stay. -/
theorem seg_vinsert_nx_other (v : View) (i : Nat) (l1 : List Nat) (y z : Nat)
    (hb : z ≠ y) (hc : ∀ pre, l1 ≠ pre ++ [z]) :
    (vinsert v (linkAfter i l1) y).nx z = v.nx z := by
  rcases seg_list_last_cases l1 with h2 | ⟨pre, c, h2⟩
  · subst h2
    simp only [linkAfter, seg_vinsert_nx_root]
    rw [Function.update_noteq hb]
  · subst h2
    have : z ≠ c := fun h => hc pre (by rw [h])
    rw [seg_linkAfter_snoc, seg_vinsert_nx_field, Function.update_noteq this,
      Function.update_noteq hb]

/-- The new node points at what the link held before. -/
theorem seg_vinsert_nx_self (v : View) (i : Nat) (l1 : List Nat) (y : Nat) (hy : y ∉ l1) :
    (vinsert v (linkAfter i l1) y).nx y = vload v (linkAfter i l1) := by
  rcases seg_list_last_cases l1 with h2 | ⟨pre, c, h2⟩
  · subst h2
    simp only [linkAfter, seg_vinsert_nx_root, vload]
    rw [Function.update_same]
  · subst h2
    have : y ≠ c := fun h => hy (by rw [h]; simp)
    rw [seg_linkAfter_snoc, seg_vinsert_nx_field, Function.update_noteq this,
      Function.update_same]
    rfl

/-- The roots of the other lists stay. -/
theorem seg_vinsert_fl_other (v : View) (i : Nat) (l1 : List Nat) (y j : Nat) (hj : j ≠ i) :
    (vinsert v (linkAfter i l1) y).fl j = v.fl j := by
  rcases seg_list_last_cases l1 with h2 | ⟨pre, c, h2⟩
  · subst h2
    simp only [linkAfter, seg_vinsert_fl_root]
    rw [Function.update_noteq hj]
  · subst h2
    rw [seg_linkAfter_snoc, seg_vinsert_fl_field]

/-- Putting an allocated block that is not live into a free list keeps the
invariant. -/
theorem seg_inv_vinsert (v : View) (live bs : List Nat) (ls : Nat → List Nat)
    (hI : InvV v live bs ls) (i : Nat) (hi : i < NUM_BINS) (l1 post : List Nat) (y : Nat)
    (hl : ls i = l1 ++ post) (hy : y ∈ bs) (hfy : v.fr y = 0) (hlive : y + Seg.HDR ∉ live)
    (hbin : get_bin (v.sz y) = i) :
    InvV (vinsert v (linkAfter i l1) y) live bs (Function.update ls i (l1 ++ y :: post)) := by
  have hyl : ∀ j, j < NUM_BINS → y ∉ ls j := fun j hj h => (hI.node_free j hj y h).2 hfy
  have hnd := hI.nodup i hi
  rw [hl] at hnd
  obtain ⟨hl1nd, hpostnd, hdisj⟩ := List.nodup_append.mp hnd
  have hyl1 : y ∉ l1 := fun h => hyl i hi (by rw [hl]; exact List.mem_append_left _ h)
  have hypost : y ∉ post := fun h => hyl i hi (by rw [hl]; exact List.mem_append_right _ h)
  have hsub2 : ∀ j, j < NUM_BINS → ∀ z, z ∈ Function.update ls i (l1 ++ y :: post) j →
      z = y ∨ z ∈ ls j := by
    intro j hj z hz
    by_cases hji : j = i
    · subst hji
      rw [Function.update_same] at hz
      rw [hl]
      rcases List.mem_append.mp hz with h | h
      · exact Or.inr (List.mem_append_left _ h)
      · rcases List.mem_cons.mp h with h | h
        · exact Or.inl h
        · exact Or.inr (List.mem_append_right _ h)
    · rw [Function.update_noteq hji] at hz
      exact Or.inr hz
  have hsub3 : ∀ j, j < NUM_BINS → ∀ z, z ∈ ls j → z ∈ Function.update ls i (l1 ++ y :: post) j := by
    intro j hj z hz
    by_cases hji : j = i
    · subst hji
      rw [Function.update_same]
      rw [hl] at hz
      rcases List.mem_append.mp hz with h | h
      · exact List.mem_append_left _ h
      · exact List.mem_append_right _ (List.mem_cons_of_mem _ h)
    · rw [Function.update_noteq hji]
      exact hz
  have hyi : ∀ j, j < NUM_BINS → y ∈ Function.update ls i (l1 ++ y :: post) j → j = i := by
    intro j hj h
    by_contra hji
    rw [Function.update_noteq hji] at h
    exact hyl j hj h
  obtain ⟨r, hs1, hs2⟩ := (seg_lseg_append v.nx l1 post _ _).mp (hl ▸ hI.chain i hi)
  have hld := seg_vload_linkAfter v i l1 r hs1
  have hy0 : y ≠ 0 := by
    have := (seg_inv_block v live bs ls hI y hy).1
    omega
  refine ⟨?_, ?_, ?_, ?_, ?_, ?_, ?_, ?_, ?_, ?_, ?_, hI.live_nodup, ?_⟩
  · rw [(seg_vinsert_hs _ _ _).1]; exact hI.base_pos
  · rw [(seg_vinsert_hs _ _ _).1, (seg_vinsert_hs _ _ _).2]; exact hI.fits
  · rw [(seg_vinsert_hs _ _ _).2]; exact hI.small
  · rw [(seg_vinsert_hs _ _ _).1, (seg_vinsert_hs _ _ _).2, seg_vinsert_sz]; exact hI.tiles
  · intro j hj
    by_cases hji : j = i
    · subst hji
      rw [Function.update_same]
      apply (seg_lseg_append _ l1 (y :: post) _ _).mpr
      refine ⟨y, ?_, ?_⟩
      · apply seg_lseg_vstore v _ j l1 r y hs1 hl1nd
        · intro h
          subst h
          simp only [linkAfter, seg_vinsert_fl_root, Function.update_same]
        · intro pre c h
          subst h
          rw [seg_linkAfter_snoc, seg_vinsert_fl_field, seg_vinsert_nx_field]
          refine ⟨rfl, ?_, ?_⟩
          · rw [Function.update_same]
          · intro z hz
            have hzy : z ≠ y := fun h => hyl1 (h ▸ List.mem_append_left _ hz)
            have hzc : z ≠ c := by
              intro h
              have := List.nodup_append.mp hl1nd
              exact this.2.2 hz (by simp [h])
            rw [Function.update_noteq hzc, Function.update_noteq hzy]
      · simp only [LSeg]
        refine ⟨trivial, hy0, ?_⟩
        rw [seg_vinsert_nx_self v j l1 y hyl1, hld]
        apply seg_lseg_congr v.nx _ post _ _ _ hs2
        intro z hz
        apply seg_vinsert_nx_other
        · exact fun h => hypost (h ▸ hz)
        · intro pre h
          have : z ∈ l1 := by rw [h]; simp
          exact hdisj this hz
    · rw [Function.update_noteq hji, seg_vinsert_fl_other v i l1 y j hji]
      apply seg_lseg_congr v.nx _ (ls j) _ _ _ (hI.chain j hj)
      intro z hz
      apply seg_vinsert_nx_other
      · exact fun h => hyl j hj (h ▸ hz)
      · intro pre h
        have : z ∈ ls i := by rw [hl, h]; simp
        exact hI.disj i j hi hj (Ne.symm hji) z this hz
  · intro j hj z hz
    rw [seg_vinsert_fr]
    rcases hsub2 j hj z hz with h | h
    · rw [h, Function.update_same]
      exact ⟨hy, by decide⟩
    · have := hI.node_free j hj z h
      have hzy : z ≠ y := fun h2 => hyl j hj (h2 ▸ h)
      rw [Function.update_noteq hzy]
      exact this
  · intro j hj
    by_cases hji : j = i
    · subst hji
      rw [Function.update_same]
      apply List.nodup_middle.mpr
      apply List.nodup_cons.mpr
      refine ⟨?_, hnd⟩
      intro h
      rcases List.mem_append.mp h with h | h
      · exact hyl1 h
      · exact hypost h
    · rw [Function.update_noteq hji]; exact hI.nodup j hj
  · intro j k hj hk hjk z hz hz2
    rcases hsub2 j hj z hz with h | h
    · rw [h] at hz hz2
      exact hjk ((hyi j hj hz).trans (hyi k hk hz2).symm)
    · rcases hsub2 k hk z hz2 with h2 | h2
      · rw [h2] at h
        exact hyl j hj h
      · exact hI.disj j k hj hk hjk z h h2
  · intro z hz hf
    by_cases hzy : z = y
    · refine ⟨i, hi, ?_⟩
      rw [Function.update_same, hzy]
      simp
    · rw [seg_vinsert_fr, Function.update_noteq hzy] at hf
      obtain ⟨j, hj, hzj⟩ := hI.listed z hz hf
      exact ⟨j, hj, hsub3 j hj z hzj⟩
  · intro j hj z hz
    rw [seg_vinsert_sz]
    rcases hsub2 j hj z hz with h | h
    · left
      rw [h] at hz ⊢
      rw [hyi j hj hz]
      exact hbin
    · exact hI.binned j hj z h
  · intro p hp
    obtain ⟨z, hz, h1, h2⟩ := hI.live_alloc p hp
    refine ⟨z, hz, h1, ?_⟩
    have hzy : z ≠ y := by
      intro h
      apply hlive
      rw [← h, ← h1]
      exact hp
    rw [seg_vinsert_fr, Function.update_noteq hzy]
    exact h2
  · intro hd z hz
    rw [(seg_vinsert_hs _ _ _).2] at hd
    rw [seg_vinsert_sz]
    exact hI.mult8 hd z hz

/-- A returned pointer becomes live. -/
theorem seg_inv_live_cons (v : View) (live bs : List Nat) (ls : Nat → List Nat)
    (hI : InvV v live bs ls) (b : Nat) (hb : b ∈ bs) (hf : v.fr b = 0)
    (hn : b + Seg.HDR ∉ live) : InvV v ((b + Seg.HDR) :: live) bs ls := by
  refine ⟨hI.base_pos, hI.fits, hI.small, hI.tiles, hI.chain, hI.node_free, hI.nodup, hI.disj,
    hI.listed, hI.binned, ?_, ?_, hI.mult8⟩
  · intro p hp
    rcases List.mem_cons.mp hp with h | h
    · exact ⟨b, hb, h, hf⟩
    · exact hI.live_alloc p h
  · exact List.nodup_cons.mpr ⟨hn, hI.live_nodup⟩

/-- A pointer given back is no longer live. -/
theorem seg_inv_live_erase (v : View) (live bs : List Nat) (ls : Nat → List Nat)
    (hI : InvV v live bs ls) (p : Nat) : InvV v (live.erase p) bs ls := by
  refine ⟨hI.base_pos, hI.fits, hI.small, hI.tiles, hI.chain, hI.node_free, hI.nodup, hI.disj,
    hI.listed, hI.binned, ?_, ?_, hI.mult8⟩
  · intro q hq
    exact hI.live_alloc q (List.mem_of_mem_erase hq)
  · exact hI.live_nodup.erase p

/-- The value of `2 ^ 64`. -/
theorem W_eq : W = 18446744073709551616 := rfl

/-- The function `get_bin` returns a valid class. -/
theorem seg_get_bin_lt (n : Nat) : get_bin n < NUM_BINS := by
  unfold get_bin NUM_BINS
  split_ifs <;> omega

/-- The pointer that the body of `openalloc_malloc` returns. -/
theorem seg_take_fst (s : State) (a bin : Nat) (lk : Link) (b : Nat) :
    (take s a bin lk b).1 = get_data b := by
  unfold take
  split_ifs <;> rfl

/-- The state after `take` when the block is handed out whole. -/
theorem seg_take_nosplit (s : State) (a bin : Nat) (lk : Link) (b : Nat)
    (h : ¬ Seg.size s.mem b ≥ add64 (add64 a OPENALLOC_MIN_BLOCK) Seg.HDR) :
    (take s a bin lk b).2 =
      { (Link.store { s with mem := set_free s.mem b 0 } lk (Seg.next s.mem b)) with
        mem := set_next (Link.store { s with mem := set_free s.mem b 0 } lk
          (Seg.next s.mem b)).mem b 0 } := by
  unfold take
  simp only [if_neg h]

/-- The state after `take` when the block is split and the remainder stays in the
list that is being scanned. -/
theorem seg_take_same (s : State) (a bin : Nat) (lk : Link) (b nb s2 : Nat)
    (h : Seg.size s.mem b ≥ add64 (add64 a OPENALLOC_MIN_BLOCK) Seg.HDR)
    (hnb : add64 (add64 b Seg.HDR) a = nb)
    (hs2 : sub64 (sub64 (Seg.size s.mem b) a) Seg.HDR = s2)
    (hsep : b + 24 ≤ nb) (hs2W : s2 < W) (hbin : get_bin s2 = bin) :
    (take s a bin lk b).2 =
      { mem := set_next (set_next (set_free (Link.store
            { s with mem := set_next (set_size (set_next (set_free (set_size s.mem nb s2) nb 1)
                nb (Seg.next s.mem b)) b a) nb (Seg.next s.mem b) } lk nb).mem b 0)
            nb (Seg.next s.mem b)) b 0,
        free_lists := (Link.store
            { s with mem := set_next (set_size (set_next (set_free (set_size s.mem nb s2) nb 1)
                nb (Seg.next s.mem b)) b a) nb (Seg.next s.mem b) } lk nb).free_lists,
        heap_start := s.heap_start, heap_size := s.heap_size } := by
  have hread : Seg.size (set_size (set_next (set_free (set_size s.mem nb s2) nb 1)
      nb (Seg.next s.mem b)) b a) nb = s2 := by
    simp only [Seg.size, set_size, set_next, set_free]
    rw [read64_write64_ne _ _ _ _ (by omega), read64_write64_ne _ _ _ _ (by omega),
      read64_write8_ne _ _ _ _ (by omega), read64_write64_eq _ _ _ hs2W]
  have hnext : Seg.next (set_size (set_next (set_free (set_size s.mem nb s2) nb 1)
      nb (Seg.next s.mem b)) b a) b = Seg.next s.mem b := by
    simp only [Seg.next, set_size, set_next, set_free]
    rw [read64_write64_ne _ _ _ _ (by omega), read64_write64_ne _ _ _ _ (by omega),
      read64_write8_ne _ _ _ _ (by omega), read64_write64_ne _ _ _ _ (by omega)]
  unfold take
  rw [hnb, hs2]
  simp only [if_pos h, hread, hbin, if_true, hnext]
  cases lk <;> rfl

/-- The state after `take` when the block is split and the remainder goes to the
head of another list. -/
theorem seg_take_diff (s : State) (a bin : Nat) (lk : Link) (b nb s2 : Nat)
    (h : Seg.size s.mem b ≥ add64 (add64 a OPENALLOC_MIN_BLOCK) Seg.HDR)
    (hnb : add64 (add64 b Seg.HDR) a = nb)
    (hs2 : sub64 (sub64 (Seg.size s.mem b) a) Seg.HDR = s2)
    (hsep : b + 24 ≤ nb) (hs2W : s2 < W) (hbin : get_bin s2 ≠ bin) :
    (take s a bin lk b).2 =
      { (Link.store
          { s with
            mem := set_free (set_next (set_size (set_next (set_free (set_size s.mem nb s2) nb 1)
                nb (Seg.next s.mem b)) b a) nb (s.free_lists (get_bin s2))) b 0,
            free_lists := set_list s.free_lists (get_bin s2) nb } lk (Seg.next s.mem b)) with
        mem := set_next (Link.store
          { s with
            mem := set_free (set_next (set_size (set_next (set_free (set_size s.mem nb s2) nb 1)
                nb (Seg.next s.mem b)) b a) nb (s.free_lists (get_bin s2))) b 0,
            free_lists := set_list s.free_lists (get_bin s2) nb } lk (Seg.next s.mem b)).mem
          b 0 } := by
  have hread : Seg.size (set_size (set_next (set_free (set_size s.mem nb s2) nb 1)
      nb (Seg.next s.mem b)) b a) nb = s2 := by
    simp only [Seg.size, set_size, set_next, set_free]
    rw [read64_write64_ne _ _ _ _ (by omega), read64_write64_ne _ _ _ _ (by omega),
      read64_write8_ne _ _ _ _ (by omega), read64_write64_eq _ _ _ hs2W]
  unfold take
  rw [hnb, hs2]
  simp only [if_pos h, hread, if_neg hbin]

/-- Handing out a whole block is the unlink step on the view. -/
theorem seg_take_nosplit_veq (s : State) (bs : List Nat) (a bin : Nat) (lk : Link) (b : Nat)
    (hb : b ∈ bs)
    (hsep : ∀ x ∈ bs, ∀ y ∈ bs, x ≠ y → x + 24 ≤ y ∨ y + 24 ≤ x)
    (hlk : ∀ c, lk = Link.field c → c ∈ bs ∧ c ≠ b)
    (h : ¬ Seg.size s.mem b ≥ add64 (add64 a OPENALLOC_MIN_BLOCK) Seg.HDR) :
    VEq bs (vunlink (view s) lk b) (view (take s a bin lk b).2) := by
  rw [seg_take_nosplit s a bin lk b h]
  have hW := W_eq
  have hnW := read64_lt s.mem (b + 8)
  cases lk with
  | root j =>
    refine ⟨rfl, rfl, ?_, ?_⟩
    · intro i _
      simp only [view, Link.store, seg_vunlink_fl_root, set_list, Function.update_apply]
    · intro y hy
      by_cases hyb : y = b
      · subst hyb
        simp only [view, Link.store, seg_vunlink_sz, seg_vunlink_nx_root, seg_vunlink_fr,
          Function.update_same, Seg.size, Seg.next, Seg.free, set_next, set_free]
        simp (disch := omega) only [read64_write64_ne, read64_write8_ne, read8_write64_ne,
          read8_write8_ne, read64_write64_eq, read8_write8_eq, and_self]
      · have := hsep y hy b hb hyb
        simp only [view, Link.store, seg_vunlink_sz, seg_vunlink_nx_root, seg_vunlink_fr,
          Function.update_noteq hyb, Seg.size, Seg.next, Seg.free, set_next, set_free]
        simp (disch := omega) only [read64_write64_ne, read64_write8_ne, read8_write64_ne,
          read8_write8_ne, read64_write64_eq, read8_write8_eq, and_self]
  | field c =>
    obtain ⟨hc, hcb⟩ := hlk c rfl
    have hcs := hsep c hc b hb hcb
    refine ⟨rfl, rfl, ?_, ?_⟩
    · intro i _
      simp only [view, Link.store, seg_vunlink_fl_field]
    · intro y hy
      by_cases hyb : y = b
      · subst hyb
        simp only [view, Link.store, seg_vunlink_sz, seg_vunlink_nx_field, seg_vunlink_fr,
          Function.update_same, Seg.size, Seg.next, Seg.free, set_next, set_free]
        simp (disch := omega) only [read64_write64_ne, read64_write8_ne, read8_write64_ne,
          read8_write8_ne, read64_write64_eq, read8_write8_eq, and_self]
      · have := hsep y hy b hb hyb
        by_cases hyc : y = c
        · subst hyc
          simp only [view, Link.store, seg_vunlink_sz, seg_vunlink_nx_field, seg_vunlink_fr,
            Function.update_noteq hyb, Function.update_same, Seg.size, Seg.next, Seg.free,
            set_next, set_free]
          simp (disch := omega) only [read64_write64_ne, read64_write8_ne, read8_write64_ne,
            read8_write8_ne, read64_write64_eq, read8_write8_eq, and_self]
        · have := hsep y hy c hc hyc
          simp only [view, Link.store, seg_vunlink_sz, seg_vunlink_nx_field, seg_vunlink_fr,
            Function.update_noteq hyb, Function.update_noteq hyc, Seg.size, Seg.next, Seg.free,
            set_next, set_free]
          simp (disch := omega) only [read64_write64_ne, read64_write8_ne, read8_write64_ne,
            read8_write8_ne, read64_write64_eq, read8_write8_eq, and_self]

/-- Splitting a block whose remainder stays in the scanned list is: unlink, split,
insert the remainder at the same link. -/
theorem seg_take_same_veq (s : State) (bs bs1 : List Nat) (a bin : Nat) (lk : Link) (b : Nat)
    (hb : b ∈ bs)
    (hsep : ∀ x ∈ bs, ∀ y ∈ bs, x ≠ y →
      x + 24 + Seg.size s.mem x ≤ y ∨ y + 24 + Seg.size s.mem y ≤ x)
    (hlk : ∀ c, lk = Link.field c → c ∈ bs ∧ c ≠ b)
    (hfl : ∀ i, i < NUM_BINS → s.free_lists i < W)
    (hbW : b + 24 + Seg.size s.mem b < W) (ha : a + 40 ≤ Seg.size s.mem b)
    (hbin : get_bin (Seg.size s.mem b - a - 24) = bin)
    (hbs : ∀ y ∈ bs1, y ∈ bs ∨ y = b + 24 + a) :
    VEq bs1 (vinsert (vsplit (vunlink (view s) lk b) b a) lk (b + Seg.HDR + a))
      (view (take s a bin lk b).2) := by
  have hW := W_eq
  have hnW := read64_lt s.mem (b + 8)
  have hszW := read64_lt s.mem b
  have e1 : add64 (add64 a OPENALLOC_MIN_BLOCK) Seg.HDR = a + 40 := by
    simp only [add64, W, OPENALLOC_MIN_BLOCK, Seg.HDR, Seg.size] at ha hbW ⊢
    omega
  have e2 : add64 (add64 b Seg.HDR) a = b + 24 + a := by
    simp only [add64, W, Seg.HDR, Seg.size] at ha hbW ⊢
    omega
  have e3 : sub64 (sub64 (Seg.size s.mem b) a) Seg.HDR = Seg.size s.mem b - a - 24 := by
    simp only [sub64, W, Seg.HDR, Seg.size] at ha hbW ⊢
    omega
  rw [seg_take_same s a bin lk b (b + 24 + a) (Seg.size s.mem b - a - 24) (by rw [e1]; exact ha) e2 e3
    (by omega) (by simp only [Seg.size] at ha hbW ⊢; omega) hbin]
  have hsb : ∀ y ∈ bs, y ≠ b → y + 24 ≤ b ∨ b + 24 + Seg.size s.mem b ≤ y := by
    intro y hy hyb
    have := hsep y hy b hb hyb
    omega
  simp only [Seg.size] at ha hbW hsb
  have hbn : b ≠ b + 24 + a := by omega
  cases lk with
  | root j =>
    have hfn := hfl _ (seg_get_bin_lt (read64 s.mem b - a - 24))
    refine ⟨rfl, rfl, ?_, ?_⟩
    · intro i _
      simp only [view, Link.store, seg_vunlink_fl_root, seg_vunlink_fl_field,
        seg_vinsert_fl_root, seg_vinsert_fl_field, seg_vunlink_nx_root, seg_vunlink_nx_field,
        seg_vinsert_nx_root, seg_vinsert_nx_field, vsplit, vload, set_list,
        Function.update_apply, Seg.HDR]
      by_cases hij : i = j
      · simp [hij, Seg.HDR, Seg.size, hbn]
      · simp [hij, Seg.HDR, Seg.size, hbn]
    · intro y hy
      rcases hbs y hy with hy1 | hy1
      · by_cases hyb : y = b
        · subst hyb
          simp only [view, Link.store, seg_vunlink_sz, seg_vunlink_fr, seg_vunlink_nx_root,
            seg_vunlink_nx_field, seg_vunlink_fl_root, seg_vunlink_fl_field, seg_vinsert_sz,
            seg_vinsert_fr, seg_vinsert_nx_root, seg_vinsert_nx_field, seg_vinsert_fl_root,
            seg_vinsert_fl_field, vsplit, vload, set_next, set_free, set_size, Seg.HDR]
          simp (disch := omega) only [Function.update_same, Function.update_noteq]
          simp only [Seg.size, Seg.next, Seg.free]
          simp (disch := omega) only [read64_write64_ne, read64_write8_ne, read8_write64_ne,
            read8_write8_ne, read64_write64_eq, read8_write8_eq, Function.update_same,
            Function.update_noteq, and_self]
        · have := hsb y hy1 hyb
          simp only [view, Link.store, seg_vunlink_sz, seg_vunlink_fr, seg_vunlink_nx_root,
            seg_vunlink_nx_field, seg_vunlink_fl_root, seg_vunlink_fl_field, seg_vinsert_sz,
            seg_vinsert_fr, seg_vinsert_nx_root, seg_vinsert_nx_field, seg_vinsert_fl_root,
            seg_vinsert_fl_field, vsplit, vload, set_next, set_free, set_size, Seg.HDR]
          simp (disch := omega) only [Function.update_same, Function.update_noteq]
          simp only [Seg.size, Seg.next, Seg.free]
          simp (disch := omega) only [read64_write64_ne, read64_write8_ne, read8_write64_ne,
            read8_write8_ne, read64_write64_eq, read8_write8_eq, Function.update_same,
            Function.update_noteq, and_self]
      · subst hy1
        simp only [view, Link.store, seg_vunlink_sz, seg_vunlink_fr, seg_vunlink_nx_root,
          seg_vunlink_nx_field, seg_vunlink_fl_root, seg_vunlink_fl_field, seg_vinsert_sz,
          seg_vinsert_fr, seg_vinsert_nx_root, seg_vinsert_nx_field, seg_vinsert_fl_root,
          seg_vinsert_fl_field, vsplit, vload, set_next, set_free, set_size, Seg.HDR]
        simp (disch := omega) only [Function.update_same, Function.update_noteq]
        simp only [Seg.size, Seg.next, Seg.free]
        simp (disch := omega) only [read64_write64_ne, read64_write8_ne, read8_write64_ne,
          read8_write8_ne, read64_write64_eq, read8_write8_eq, Function.update_same,
          Function.update_noteq, and_self]
  | field c =>
    obtain ⟨hc, hcb⟩ := hlk c rfl
    have hcs := hsb c hc hcb
    have hfn := hfl _ (seg_get_bin_lt (read64 s.mem b - a - 24))
    refine ⟨rfl, rfl, ?_, ?_⟩
    · intro i _
      simp only [view, Link.store, seg_vunlink_fl_root, seg_vunlink_fl_field,
        seg_vinsert_fl_root, seg_vinsert_fl_field, seg_vunlink_nx_root, seg_vunlink_nx_field,
        seg_vinsert_nx_root, seg_vinsert_nx_field, vsplit, vload, set_list,
        Function.update_apply, Seg.HDR]
    · intro y hy
      rcases hbs y hy with hy1 | hy1
      · by_cases hyb : y = b
        · subst hyb
          simp only [view, Link.store, seg_vunlink_sz, seg_vunlink_fr, seg_vunlink_nx_root,
            seg_vunlink_nx_field, seg_vunlink_fl_root, seg_vunlink_fl_field, seg_vinsert_sz,
            seg_vinsert_fr, seg_vinsert_nx_root, seg_vinsert_nx_field, seg_vinsert_fl_root,
            seg_vinsert_fl_field, vsplit, vload, set_next, set_free, set_size, Seg.HDR]
          simp (disch := omega) only [Function.update_same, Function.update_noteq]
          simp only [Seg.size, Seg.next, Seg.free]
          simp (disch := omega) only [read64_write64_ne, read64_write8_ne, read8_write64_ne,
            read8_write8_ne, read64_write64_eq, read8_write8_eq, Function.update_same,
            Function.update_noteq, and_self]
        · have := hsb y hy1 hyb
          by_cases hyc : y = c
          · subst hyc
            simp only [view, Link.store, seg_vunlink_sz, seg_vunlink_fr, seg_vunlink_nx_root,
              seg_vunlink_nx_field, seg_vunlink_fl_root, seg_vunlink_fl_field, seg_vinsert_sz,
              seg_vinsert_fr, seg_vinsert_nx_root, seg_vinsert_nx_field, seg_vinsert_fl_root,
              seg_vinsert_fl_field, vsplit, vload, set_next, set_free, set_size, Seg.HDR]
            simp (disch := omega) only [Function.update_same, Function.update_noteq]
            simp only [Seg.size, Seg.next, Seg.free]
            simp (disch := omega) only [read64_write64_ne, read64_write8_ne, read8_write64_ne,
              read8_write8_ne, read64_write64_eq, read8_write8_eq, Function.update_same,
              Function.update_noteq, and_self]
          · have := hsep y hy1 c hc hyc
            simp only [view, Link.store, seg_vunlink_sz, seg_vunlink_fr, seg_vunlink_nx_root,
              seg_vunlink_nx_field, seg_vunlink_fl_root, seg_vunlink_fl_field, seg_vinsert_sz,
              seg_vinsert_fr, seg_vinsert_nx_root, seg_vinsert_nx_field, seg_vinsert_fl_root,
              seg_vinsert_fl_field, vsplit, vload, set_next, set_free, set_size, Seg.HDR]
            simp (disch := omega) only [Function.update_same, Function.update_noteq]
            simp only [Seg.size, Seg.next, Seg.free]
            simp (disch := omega) only [read64_write64_ne, read64_write8_ne, read8_write64_ne,
              read8_write8_ne, read64_write64_eq, read8_write8_eq, Function.update_same,
              Function.update_noteq, and_self]
      · subst hy1
        simp only [view, Link.store, seg_vunlink_sz, seg_vunlink_fr, seg_vunlink_nx_root,
          seg_vunlink_nx_field, seg_vunlink_fl_root, seg_vunlink_fl_field, seg_vinsert_sz,
          seg_vinsert_fr, seg_vinsert_nx_root, seg_vinsert_nx_field, seg_vinsert_fl_root,
          seg_vinsert_fl_field, vsplit, vload, set_next, set_free, set_size, Seg.HDR]
        simp (disch := omega) only [Function.update_same, Function.update_noteq]
        simp only [Seg.size, Seg.next, Seg.free]
        simp (disch := omega) only [read64_write64_ne, read64_write8_ne, read8_write64_ne,
          read8_write8_ne, read64_write64_eq, read8_write8_eq, Function.update_same,
          Function.update_noteq, and_self]

/-- Splitting a block whose remainder goes to another list is: unlink, split, push
the remainder on its list. -/
theorem seg_take_diff_veq (s : State) (bs bs1 : List Nat) (a bin : Nat) (lk : Link) (b : Nat)
    (hb : b ∈ bs)
    (hsep : ∀ x ∈ bs, ∀ y ∈ bs, x ≠ y →
      x + 24 + Seg.size s.mem x ≤ y ∨ y + 24 + Seg.size s.mem y ≤ x)
    (hlk : ∀ c, lk = Link.field c → c ∈ bs ∧ c ≠ b)
    (hfl : ∀ i, i < NUM_BINS → s.free_lists i < W)
    (hbW : b + 24 + Seg.size s.mem b < W) (ha : a + 40 ≤ Seg.size s.mem b)
    (hbin : get_bin (Seg.size s.mem b - a - 24) ≠ bin)
    (hroot : ∀ j, lk = Link.root j → j = bin)
    (hbs : ∀ y ∈ bs1, y ∈ bs ∨ y = b + 24 + a) :
    VEq bs1 (vinsert (vsplit (vunlink (view s) lk b) b a)
        (Link.root (get_bin (Seg.size s.mem b - a - 24))) (b + Seg.HDR + a))
      (view (take s a bin lk b).2) := by
  have hW := W_eq
  have hnW := read64_lt s.mem (b + 8)
  have hszW := read64_lt s.mem b
  have e1 : add64 (add64 a OPENALLOC_MIN_BLOCK) Seg.HDR = a + 40 := by
    simp only [add64, W, OPENALLOC_MIN_BLOCK, Seg.HDR, Seg.size] at ha hbW ⊢
    omega
  have e2 : add64 (add64 b Seg.HDR) a = b + 24 + a := by
    simp only [add64, W, Seg.HDR, Seg.size] at ha hbW ⊢
    omega
  have e3 : sub64 (sub64 (Seg.size s.mem b) a) Seg.HDR = Seg.size s.mem b - a - 24 := by
    simp only [sub64, W, Seg.HDR, Seg.size] at ha hbW ⊢
    omega
  rw [seg_take_diff s a bin lk b (b + 24 + a) (Seg.size s.mem b - a - 24) (by rw [e1]; exact ha) e2 e3
    (by omega) (by simp only [Seg.size] at ha hbW ⊢; omega) hbin]
  have hsb : ∀ y ∈ bs, y ≠ b → y + 24 ≤ b ∨ b + 24 + Seg.size s.mem b ≤ y := by
    intro y hy hyb
    have := hsep y hy b hb hyb
    omega
  simp only [Seg.size] at ha hbW hsb
  have hbn : b ≠ b + 24 + a := by omega
  cases lk with
  | root j =>
    have hfn := hfl _ (seg_get_bin_lt (read64 s.mem b - a - 24))
    have hjn : j ≠ get_bin (read64 s.mem b - a - 24) := by
      have := hroot j rfl
      simp only [Seg.size] at hbin
      rw [this]
      exact fun h => hbin h.symm
    refine ⟨rfl, rfl, ?_, ?_⟩
    · intro i _
      simp only [view, Link.store, seg_vunlink_fl_root, seg_vunlink_fl_field,
        seg_vinsert_fl_root, seg_vinsert_fl_field, seg_vunlink_nx_root, seg_vunlink_nx_field,
        seg_vinsert_nx_root, seg_vinsert_nx_field, vsplit, vload, set_list,
        Function.update_apply, Seg.HDR]
      by_cases hij : i = j
      · simp [hij, Seg.HDR, Seg.size, hbn, hjn]
      · simp [hij, Seg.HDR, Seg.size, hbn]
    · intro y hy
      rcases hbs y hy with hy1 | hy1
      · by_cases hyb : y = b
        · subst hyb
          simp only [view, Link.store, seg_vunlink_sz, seg_vunlink_fr, seg_vunlink_nx_root,
            seg_vunlink_nx_field, seg_vunlink_fl_root, seg_vunlink_fl_field, seg_vinsert_sz,
            seg_vinsert_fr, seg_vinsert_nx_root, seg_vinsert_nx_field, seg_vinsert_fl_root,
            seg_vinsert_fl_field, vsplit, vload, set_next, set_free, set_size, Seg.HDR]
          simp (disch := omega) only [Function.update_same, Function.update_noteq]
          simp only [Seg.size, Seg.next, Seg.free]
          simp (disch := omega) only [read64_write64_ne, read64_write8_ne, read8_write64_ne,
            read8_write8_ne, read64_write64_eq, read8_write8_eq, Function.update_same,
            Function.update_noteq, and_self]
        · have := hsb y hy1 hyb
          simp only [view, Link.store, seg_vunlink_sz, seg_vunlink_fr, seg_vunlink_nx_root,
            seg_vunlink_nx_field, seg_vunlink_fl_root, seg_vunlink_fl_field, seg_vinsert_sz,
            seg_vinsert_fr, seg_vinsert_nx_root, seg_vinsert_nx_field, seg_vinsert_fl_root,
            seg_vinsert_fl_field, vsplit, vload, set_next, set_free, set_size, Seg.HDR]
          simp (disch := omega) only [Function.update_same, Function.update_noteq]
          simp only [Seg.size, Seg.next, Seg.free]
          simp (disch := omega) only [read64_write64_ne, read64_write8_ne, read8_write64_ne,
            read8_write8_ne, read64_write64_eq, read8_write8_eq, Function.update_same,
            Function.update_noteq, and_self]
      · subst hy1
        simp only [view, Link.store, seg_vunlink_sz, seg_vunlink_fr, seg_vunlink_nx_root,
          seg_vunlink_nx_field, seg_vunlink_fl_root, seg_vunlink_fl_field, seg_vinsert_sz,
          seg_vinsert_fr, seg_vinsert_nx_root, seg_vinsert_nx_field, seg_vinsert_fl_root,
          seg_vinsert_fl_field, vsplit, vload, set_next, set_free, set_size, Seg.HDR]
        simp (disch := omega) only [Function.update_same, Function.update_noteq]
        simp only [Seg.size, Seg.next, Seg.free]
        simp (disch := omega) only [read64_write64_ne, read64_write8_ne, read8_write64_ne,
          read8_write8_ne, read64_write64_eq, read8_write8_eq, Function.update_same,
          Function.update_noteq, and_self]
  | field c =>
    obtain ⟨hc, hcb⟩ := hlk c rfl
    have hcs := hsb c hc hcb
    have hfn := hfl _ (seg_get_bin_lt (read64 s.mem b - a - 24))
    refine ⟨rfl, rfl, ?_, ?_⟩
    · intro i _
      simp only [view, Link.store, seg_vunlink_fl_root, seg_vunlink_fl_field,
        seg_vinsert_fl_root, seg_vinsert_fl_field, seg_vunlink_nx_root, seg_vunlink_nx_field,
        seg_vinsert_nx_root, seg_vinsert_nx_field, vsplit, vload, set_list,
        Function.update_apply, Seg.HDR]
    · intro y hy
      rcases hbs y hy with hy1 | hy1
      · by_cases hyb : y = b
        · subst hyb
          simp only [view, Link.store, seg_vunlink_sz, seg_vunlink_fr, seg_vunlink_nx_root,
            seg_vunlink_nx_field, seg_vunlink_fl_root, seg_vunlink_fl_field, seg_vinsert_sz,
            seg_vinsert_fr, seg_vinsert_nx_root, seg_vinsert_nx_field, seg_vinsert_fl_root,
            seg_vinsert_fl_field, vsplit, vload, set_next, set_free, set_size, Seg.HDR]
          simp (disch := omega) only [Function.update_same, Function.update_noteq]
          simp only [Seg.size, Seg.next, Seg.free]
          simp (disch := omega) only [read64_write64_ne, read64_write8_ne, read8_write64_ne,
            read8_write8_ne, read64_write64_eq, read8_write8_eq, Function.update_same,
            Function.update_noteq, and_self]
        · have := hsb y hy1 hyb
          by_cases hyc : y = c
          · subst hyc
            simp only [view, Link.store, seg_vunlink_sz, seg_vunlink_fr, seg_vunlink_nx_root,
              seg_vunlink_nx_field, seg_vunlink_fl_root, seg_vunlink_fl_field, seg_vinsert_sz,
              seg_vinsert_fr, seg_vinsert_nx_root, seg_vinsert_nx_field, seg_vinsert_fl_root,
              seg_vinsert_fl_field, vsplit, vload, set_next, set_free, set_size, Seg.HDR]
            simp (disch := omega) only [Function.update_same, Function.update_noteq]
            simp only [Seg.size, Seg.next, Seg.free]
            simp (disch := omega) only [read64_write64_ne, read64_write8_ne, read8_write64_ne,
              read8_write8_ne, read64_write64_eq, read8_write8_eq, Function.update_same,
              Function.update_noteq, and_self]
          · have := hsep y hy1 c hc hyc
            simp only [view, Link.store, seg_vunlink_sz, seg_vunlink_fr, seg_vunlink_nx_root,
              seg_vunlink_nx_field, seg_vunlink_fl_root, seg_vunlink_fl_field, seg_vinsert_sz,
              seg_vinsert_fr, seg_vinsert_nx_root, seg_vinsert_nx_field, seg_vinsert_fl_root,
              seg_vinsert_fl_field, vsplit, vload, set_next, set_free, set_size, Seg.HDR]
            simp (disch := omega) only [Function.update_same, Function.update_noteq]
            simp only [Seg.size, Seg.next, Seg.free]
            simp (disch := omega) only [read64_write64_ne, read64_write8_ne, read8_write64_ne,
              read8_write8_ne, read64_write64_eq, read8_write8_eq, Function.update_same,
              Function.update_noteq, and_self]
      · subst hy1
        simp only [view, Link.store, seg_vunlink_sz, seg_vunlink_fr, seg_vunlink_nx_root,
          seg_vunlink_nx_field, seg_vunlink_fl_root, seg_vunlink_fl_field, seg_vinsert_sz,
          seg_vinsert_fr, seg_vinsert_nx_root, seg_vinsert_nx_field, seg_vinsert_fl_root,
          seg_vinsert_fl_field, vsplit, vload, set_next, set_free, set_size, Seg.HDR]
        simp (disch := omega) only [Function.update_same, Function.update_noteq]
        simp only [Seg.size, Seg.next, Seg.free]
        simp (disch := omega) only [read64_write64_ne, read64_write8_ne, read8_write64_ne,
          read8_write8_ne, read64_write64_eq, read8_write8_eq, Function.update_same,
          Function.update_noteq, and_self]

/-- A link into the `next` field of `c` comes after a list prefix that holds `c`. -/
theorem seg_linkAfter_field (bin c : Nat) (l1 : List Nat) (h : linkAfter bin l1 = Link.field c) :
    c ∈ l1 := by
  rcases seg_list_last_cases l1 with h2 | ⟨pre, d, h2⟩
  · subst h2
    simp only [linkAfter] at h
    cases h
  · subst h2
    rw [seg_linkAfter_snoc] at h
    cases h
    simp

/-- A link at the root of list `j` is the link of the scan of list `j`. -/
theorem seg_linkAfter_root (bin j : Nat) (l1 : List Nat) (h : linkAfter bin l1 = Link.root j) :
    j = bin := by
  rcases seg_list_last_cases l1 with h2 | ⟨pre, d, h2⟩
  · subst h2
    simp only [linkAfter] at h
    cases h
    rfl
  · subst h2
    rw [seg_linkAfter_snoc] at h
    cases h

/-- The roots of the free lists are pointers. -/
theorem seg_inv_fl_lt (v : View) (live bs : List Nat) (ls : Nat → List Nat)
    (hI : InvV v live bs ls) (i : Nat) (hi : i < NUM_BINS) : v.fl i < W := by
  have h := hI.chain i hi
  cases hl : ls i with
  | nil =>
    rw [hl] at h
    simp only [LSeg] at h
    rw [h, W_eq]
    omega
  | cons x l =>
    rw [hl] at h
    simp only [LSeg] at h
    have hx : x ∈ ls i := by rw [hl]; simp
    have := (seg_inv_block v live bs ls hI x (hI.node_free i hi x hx).1).2.2.2
    omega

/-- The body of `openalloc_malloc` for a block found on a free list keeps the
invariant; the block keeps its size or is cut to the rounded request. -/
theorem seg_take_inv (s : State) (live bs : List Nat) (ls : Nat → List Nat)
    (hI : InvV (view s) live bs ls) (a bin : Nat) (hbin : bin < NUM_BINS)
    (l1 post : List Nat) (b : Nat) (hl : ls bin = l1 ++ b :: post)
    (hfit : a ≤ Seg.size s.mem b) (h8 : 8 ∣ a) :
    (∃ bs1 ls1, InvV (view (take s a bin (linkAfter bin l1) b).2) ((b + 24) :: live) bs1 ls1) ∧
    Seg.size (take s a bin (linkAfter bin l1) b).2.mem b
      = (if a + 40 ≤ Seg.size s.mem b then a else Seg.size s.mem b) := by
  have hbl : b ∈ ls bin := by rw [hl]; simp
  obtain ⟨hb, hfb⟩ := hI.node_free bin hbin b hbl
  have hblk := seg_inv_block _ live bs ls hI b hb
  have hsmall := hI.small
  have hW := W_eq
  have hbW : b + 24 + Seg.size s.mem b < W := hblk.2.2.2
  have hsep : ∀ x ∈ bs, ∀ y ∈ bs, x ≠ y →
      x + 24 + Seg.size s.mem x ≤ y ∨ y + 24 + Seg.size s.mem y ≤ x :=
    fun x hx y hy hxy => seg_tiles_sep _ _ bs _ x y hI.tiles hx hy hxy
  have hnd := hI.nodup bin hbin
  rw [hl] at hnd
  have hbl1 : b ∉ l1 := by
    have := List.nodup_middle.mp hnd
    exact fun h => (List.nodup_cons.mp this).1 (List.mem_append_left _ h)
  have hlk : ∀ c, linkAfter bin l1 = Link.field c → c ∈ bs ∧ c ≠ b := by
    intro c hc
    have h1 := seg_linkAfter_field bin c l1 hc
    have h2 : c ∈ ls bin := by rw [hl]; exact List.mem_append_left _ h1
    exact ⟨(hI.node_free bin hbin c h2).1, fun h => hbl1 (h ▸ h1)⟩
  have hfl : ∀ i, i < NUM_BINS → s.free_lists i < W :=
    fun i hi => seg_inv_fl_lt _ live bs ls hI i hi
  have hlive : b + Seg.HDR ∉ live := by
    intro h
    obtain ⟨y, hy, h1, h2⟩ := hI.live_alloc _ h
    have : y = b := by omega
    rw [this] at h2
    exact hfb h2
  have hsz : (view s).sz b = Seg.size s.mem b := rfl
  have hhz : (view s).hz = s.heap_size := rfl
  have e1 : add64 (add64 a OPENALLOC_MIN_BLOCK) Seg.HDR = a + 40 := by
    simp only [add64, W, OPENALLOC_MIN_BLOCK, Seg.HDR] at hblk hsmall ⊢
    omega
  by_cases hsp : a + 40 ≤ Seg.size s.mem b
  · rw [if_pos hsp]
    have I0 := seg_inv_vunlink _ live _ ls hI bin hbin l1 post b hl
    have I1 := seg_inv_vsplit _ live bs _ I0 b a hb
      (by rw [seg_vunlink_sz, hsz]; simp only [Seg.HDR]; omega) h8
      (by rw [seg_vunlink_fr, Function.update_same])
    have hnbin : b + Seg.HDR + a ∈ insertAfter b (b + Seg.HDR + a) bs :=
      (seg_mem_insertAfter _ _ bs _).mpr (Or.inr ⟨rfl, hb⟩)
    have hbin1 : b ∈ insertAfter b (b + Seg.HDR + a) bs :=
      (seg_mem_insertAfter _ _ bs _).mpr (Or.inl hb)
    have hbnb : b ≠ b + Seg.HDR + a := by simp only [Seg.HDR]; omega
    have hnbbs : b + Seg.HDR + a ∉ bs := by
      intro h
      have := seg_tiles_inside _ _ bs _ b _ hI.tiles hb h (by simp only [Seg.HDR]; omega)
      simp only [Seg.HDR] at this
      rw [hsz] at this
      omega
    have hnblive : b + Seg.HDR + a + Seg.HDR ∉ live := by
      intro h
      obtain ⟨y, hy, h1, _⟩ := hI.live_alloc _ h
      have : y = b + Seg.HDR + a := by omega
      exact hnbbs (this ▸ hy)
    have hbs1 : ∀ y ∈ insertAfter b (b + Seg.HDR + a) bs, y ∈ bs ∨ y = b + 24 + a := by
      intro y hy
      rcases (seg_mem_insertAfter _ _ bs _).mp hy with h | h
      · exact Or.inl h
      · exact Or.inr h.1
    have hfrnb : (vsplit (vunlink (view s) (linkAfter bin l1) b) b a).fr (b + Seg.HDR + a) = 0 := by
      simp only [vsplit]
      rw [Function.update_same]
    have hsznb : (vsplit (vunlink (view s) (linkAfter bin l1) b) b a).sz (b + Seg.HDR + a)
        = Seg.size s.mem b - a - 24 := by
      simp only [vsplit]
      rw [Function.update_noteq hbnb.symm, Function.update_same, seg_vunlink_sz]
      rfl
    have hfrb : (vsplit (vunlink (view s) (linkAfter bin l1) b) b a).fr b = 0 := by
      simp only [vsplit]
      rw [Function.update_noteq hbnb, seg_vunlink_fr, Function.update_same]
    by_cases hb2 : get_bin (Seg.size s.mem b - a - 24) = bin
    · have I2 := seg_inv_vinsert _ live _ _ I1 bin hbin l1 post (b + Seg.HDR + a)
        (by rw [Function.update_same]) hnbin hfrnb hnblive (by rw [hsznb]; exact hb2)
      have I4 := seg_inv_live_cons _ live _ _ I2 b hbin1
        (by rw [seg_vinsert_fr, Function.update_noteq hbnb]; exact hfrb) hlive
      have hE := seg_take_same_veq s bs _ a bin (linkAfter bin l1) b hb hsep hlk hfl
        hbW hsp hb2 hbs1
      refine ⟨⟨_, _, seg_inv_congr _ _ _ _ _ I4 hE⟩, ?_⟩
      have := (hE.2.2.2 b hbin1).1
      rw [seg_vinsert_sz] at this
      simp only [vsplit, Function.update_same] at this
      exact this
    · have I2 := seg_inv_vinsert _ live _ _ I1 (get_bin (Seg.size s.mem b - a - 24))
        (seg_get_bin_lt _) [] (ls (get_bin (Seg.size s.mem b - a - 24))) (b + Seg.HDR + a)
        (by rw [Function.update_noteq hb2]; rfl) hnbin hfrnb hnblive (by rw [hsznb])
      have I4 := seg_inv_live_cons _ live _ _ I2 b hbin1
        (by rw [seg_vinsert_fr, Function.update_noteq hbnb]; exact hfrb) hlive
      have hE := seg_take_diff_veq s bs _ a bin (linkAfter bin l1) b hb hsep hlk hfl
        hbW hsp hb2 (fun j hj => seg_linkAfter_root bin j l1 hj) hbs1
      refine ⟨⟨_, _, seg_inv_congr _ _ _ _ _ I4 hE⟩, ?_⟩
      have := (hE.2.2.2 b hbin1).1
      rw [seg_vinsert_sz] at this
      simp only [vsplit, Function.update_same] at this
      exact this
  · rw [if_neg hsp]
    have I2 := seg_inv_vunlink _ live _ ls hI bin hbin l1 post b hl
    have I4 := seg_inv_live_cons _ live _ _ I2 b hb
      (by rw [seg_vunlink_fr, Function.update_same]) hlive
    have hE := seg_take_nosplit_veq s bs a bin (linkAfter bin l1) b hb
      (fun x hx y hy hxy => by have := hsep x hx y hy hxy; omega) hlk
      (by rw [e1]; omega)
    refine ⟨⟨_, _, seg_inv_congr _ _ _ _ _ I4 hE⟩, ?_⟩
    have := (hE.2.2.2 b hb).1
    rw [seg_vunlink_sz] at this
    exact this

/-- A list scan that ends keeps its result under more fuel. -/
theorem seg_list_loop_mono (s : State) (a bin k : Nat) : ∀ (fuel : Nat) (lk : Link) (blk : Nat),
    list_loop fuel s a bin lk blk ≠ Scan.timeout →
    list_loop (fuel + k) s a bin lk blk = list_loop fuel s a bin lk blk := by
  intro fuel
  induction fuel with
  | zero => intro lk blk h; simp only [list_loop] at h; exact absurd rfl h
  | succ f ih =>
    intro lk blk h
    have e : f + 1 + k = (f + k) + 1 := by omega
    rw [e]
    simp only [list_loop] at h ⊢
    by_cases h0 : blk = 0
    · simp only [if_pos h0]
    · simp only [if_neg h0] at h ⊢
      by_cases h1 : Seg.free s.mem blk ≠ 0 ∧ Seg.size s.mem blk ≥ a
      · simp only [if_pos h1]
      · simp only [if_neg h1] at h ⊢
        exact ih _ _ h

/-- A bin scan that returns keeps its result under more fuel. -/
theorem seg_bin_loop_mono (s : State) (a fuel k : Nat) (r : Nat × State) :
    ∀ (count bin : Nat), bin_loop fuel s a count bin = some r →
    bin_loop (fuel + k) s a count bin = some r := by
  intro count
  induction count with
  | zero => intro bin h; simp only [bin_loop] at h ⊢; exact h
  | succ c ih =>
    intro bin h
    simp only [bin_loop] at h ⊢
    cases hs : list_loop fuel s a bin (Link.root bin) (s.free_lists bin) with
    | timeout => rw [hs] at h; cases h
    | miss =>
      rw [hs] at h
      rw [seg_list_loop_mono s a bin k fuel _ _ (by rw [hs]; exact fun h => by cases h), hs]
      exact ih _ h
    | hit p t =>
      rw [hs] at h
      rw [seg_list_loop_mono s a bin k fuel _ _ (by rw [hs]; exact fun h => by cases h), hs]
      exact h

/-- A call of `openalloc_malloc` that returns keeps its result under more fuel. -/
theorem seg_malloc_mono (s : State) (n fuel k : Nat) (r : Nat × State)
    (h : Seg.openalloc_malloc fuel s n = some r) :
    Seg.openalloc_malloc (fuel + k) s n = some r := by
  unfold Seg.openalloc_malloc at h ⊢
  by_cases h0 : n = 0
  · simp only [if_pos h0] at h ⊢; exact h
  · simp only [if_neg h0] at h ⊢
    exact seg_bin_loop_mono s _ fuel k r _ _ h

/-- The nodes of a free list are at most as many as the bytes of the arena. -/
theorem seg_inv_list_length (v : View) (live bs : List Nat) (ls : Nat → List Nat)
    (hI : InvV v live bs ls) (i : Nat) (hi : i < NUM_BINS) : (ls i).length ≤ v.hz := by
  have h1 : (ls i).length ≤ bs.length :=
    ((hI.nodup i hi).subperm (fun x hx => (hI.node_free i hi x hx).1)).length_le
  have h2 := seg_tiles_length v.sz _ bs _ hI.tiles
  simp only [Seg.HDR] at h2
  omega

/-- The scan of the bins from `bin` on: either no node of these lists passes the
test and `NULL` is returned with the state as it was, or the first node that
passes the test is taken. -/
theorem seg_bin_loop_spec (s : State) (live bs : List Nat) (ls : Nat → List Nat)
    (hI : InvV (view s) live bs ls) (a fuel : Nat) (hfuel : s.heap_size < fuel) :
    ∀ (count bin : Nat), bin + count = NUM_BINS →
    (bin_loop fuel s a count bin = some (0, s) ∧
      ∀ j, bin ≤ j → j < NUM_BINS → ∀ x ∈ ls j, ¬ Fit s a x) ∨
    (∃ j l1 b post, bin ≤ j ∧ j < NUM_BINS ∧ ls j = l1 ++ b :: post ∧ Fit s a b ∧
      (∀ x ∈ l1, ¬ Fit s a x) ∧ (∀ k, bin ≤ k → k < j → ∀ x ∈ ls k, ¬ Fit s a x) ∧
      bin_loop fuel s a count bin
        = some ((take s a j (linkAfter j l1) b).1, (take s a j (linkAfter j l1) b).2)) := by
  intro count
  induction count with
  | zero =>
    intro bin hb
    left
    refine ⟨rfl, ?_⟩
    intro j h1 h2
    omega
  | succ c ih =>
    intro bin hb
    have hbin : bin < NUM_BINS := by omega
    have hlen := seg_inv_list_length _ live bs ls hI bin hbin
    have hhz : (view s).hz = s.heap_size := rfl
    rcases seg_list_loop_spec s a bin (ls bin) [] fuel (s.free_lists bin) (hI.chain bin hbin)
      (by omega) with ⟨h1, h2⟩ | ⟨l1, b, post, h1, h2, h3, h4⟩
    · rcases ih (bin + 1) (by omega) with ⟨h5, h6⟩ | ⟨j, l1, b, post, h5, h6, h7, h8, h9, h10, h11⟩
      · left
        refine ⟨?_, ?_⟩
        · simp only [bin_loop]
          simp only [linkAfter] at h1
          rw [h1]
          exact h5
        · intro j hj1 hj2
          by_cases hj : j = bin
          · rw [hj]; exact h2
          · exact h6 j (by omega) hj2
      · right
        refine ⟨j, l1, b, post, by omega, h6, h7, h8, h9, ?_, ?_⟩
        · intro k hk1 hk2
          by_cases hk : k = bin
          · rw [hk]; exact h2
          · exact h10 k (by omega) hk2
        · simp only [bin_loop]
          simp only [linkAfter] at h1
          rw [h1]
          exact h11
    · right
      refine ⟨bin, l1, b, post, le_refl _, hbin, h1, h3, h2, ?_, ?_⟩
      · intro k hk1 hk2; omega
      · simp only [bin_loop]
        simp only [linkAfter, List.nil_append] at h4
        rw [h4]

/-- A store through `prev` leaves `heap_start` and `heap_size` alone. -/
theorem seg_store_heap (s : State) (lk : Link) (v : Nat) :
    (Link.store s lk v).heap_start = s.heap_start ∧
    (Link.store s lk v).heap_size = s.heap_size := by
  cases lk <;> exact ⟨rfl, rfl⟩

/-- The body of `openalloc_malloc` leaves `heap_start` and `heap_size` alone. -/
theorem seg_take_heap (s : State) (a bin : Nat) (lk : Link) (b : Nat) :
    (take s a bin lk b).2.heap_start = s.heap_start ∧
    (take s a bin lk b).2.heap_size = s.heap_size := by
  unfold take
  by_cases h : Seg.size s.mem b ≥ add64 (add64 a OPENALLOC_MIN_BLOCK) Seg.HDR
  · simp only [if_pos h]
    split_ifs with hb
    · simp only [seg_store_heap, and_self]
    · simp only [seg_store_heap, and_self]
  · simp only [if_neg h, seg_store_heap, and_self]

/-- With fuel above the arena length `openalloc_malloc` returns, and what it returns
satisfies `MallocPost`. -/
theorem seg_malloc_big (s : State) (live bs : List Nat) (ls : Nat → List Nat)
    (hI : InvV (view s) live bs ls) (n : Nat) (hn : n + 8 ≤ W) (fuel : Nat)
    (hfuel : s.heap_size < fuel) :
    ∃ p t, Seg.openalloc_malloc fuel s n = some (p, t) ∧ MallocPost s live n p t := by
  by_cases h0 : n = 0
  · refine ⟨0, s, ?_, ?_⟩
    · unfold Seg.openalloc_malloc; rw [if_pos h0]
    · exact ⟨⟨bs, ls, by rw [if_pos rfl]; exact hI⟩, rfl, rfl, fun _ => rfl,
        fun h => absurd rfl h⟩
  · obtain ⟨ha1, ha2, ha3, ha4⟩ := align_size_bounds n hn
    have hmal : Seg.openalloc_malloc fuel s n
        = bin_loop fuel s (align_size n) (NUM_BINS - get_bin (align_size n))
            (get_bin (align_size n)) := by
      unfold Seg.openalloc_malloc; rw [if_neg h0]
    have hgb := seg_get_bin_lt (align_size n)
    rcases seg_bin_loop_spec s live bs ls hI (align_size n) fuel hfuel
      (NUM_BINS - get_bin (align_size n)) (get_bin (align_size n)) (by omega) with
      ⟨h1, _⟩ | ⟨j, l1, b, post, _, hj, hl, hfit, _, _, h1⟩
    · refine ⟨0, s, by rw [hmal, h1], ?_⟩
      exact ⟨⟨bs, ls, by rw [if_pos rfl]; exact hI⟩, rfl, rfl, fun _ => rfl,
        fun h => absurd rfl h⟩
    · refine ⟨_, _, by rw [hmal, h1], ?_⟩
      have hbl : b ∈ ls j := by rw [hl]; simp
      obtain ⟨hb, hfb⟩ := hI.node_free j hj b hbl
      have hblk := seg_inv_block _ live bs ls hI b hb
      have hW := W_eq
      have hp : (take s (align_size n) j (linkAfter j l1) b).1 = b + 24 := by
        rw [seg_take_fst]
        simp only [get_data, add64, W, Seg.HDR] at hblk ⊢
        omega
      have hgb2 : get_block (b + 24) = b := by
        simp only [get_block, sub64, W, Seg.HDR] at hblk ⊢
        omega
      obtain ⟨⟨bs1, ls1, hI1⟩, hsz⟩ := seg_take_inv s live bs ls hI (align_size n) j hj l1 post b
        hl hfit.2 ha3
      have hlive : b + 24 ∉ live := by
        intro h
        obtain ⟨y, hy, e1, e2⟩ := hI.live_alloc _ h
        have : y = b := by simp only [Seg.HDR] at e1; omega
        rw [this] at e2
        exact hfb e2
      rw [hp]
      have hp0 : b + 24 ≠ 0 := by omega
      refine ⟨⟨bs1, ls1, by rw [if_neg hp0]; exact hI1⟩, (seg_take_heap _ _ _ _ _).1,
        (seg_take_heap _ _ _ _ _).2, fun h => absurd h hp0, fun _ => ?_⟩
      have hus : Seg.openalloc_usable_size (take s (align_size n) j (linkAfter j l1) b).2 (b + 24)
          = if align_size n + 40 ≤ Seg.size s.mem b then align_size n else Seg.size s.mem b := by
        unfold Seg.openalloc_usable_size
        rw [if_neg hp0, hgb2, hsz]
      rw [hus]
      have hfs : align_size n ≤ Seg.size s.mem b := hfit.2
      refine ⟨hlive, ?_, ?_, ?_⟩
      · split_ifs <;> omega
      · split_ifs <;> omega
      · intro h8
        have h8b : 8 ∣ Seg.size s.mem b := hI.mult8 h8 b hb
        split_ifs <;> omega

/-- Every returned call of `openalloc_malloc` satisfies `MallocPost`. -/
theorem seg_malloc_inv (s : State) (live bs : List Nat) (ls : Nat → List Nat)
    (hI : InvV (view s) live bs ls) (n : Nat) (hn : n + 8 ≤ W) (fuel p : Nat) (t : State)
    (h : Seg.openalloc_malloc fuel s n = some (p, t)) : MallocPost s live n p t := by
  obtain ⟨p1, t1, h1, h2⟩ := seg_malloc_big s live bs ls hI n hn (fuel + (s.heap_size + 1))
    (by omega)
  have := seg_malloc_mono s n fuel (s.heap_size + 1) _ h
  rw [this] at h1
  cases h1
  exact h2

/-- A change of memory outside the first seventeen bytes of every block leaves the
view of the blocks as it was. -/
theorem seg_veq_frame (s : State) (m1 : Mem) (bs : List Nat)
    (h : ∀ y ∈ bs, ∀ x, y ≤ x → x < y + 17 → m1 x = s.mem x) :
    VEq bs (view s) (view { s with mem := m1 }) := by
  refine ⟨rfl, rfl, fun _ _ => rfl, ?_⟩
  intro y hy
  exact seg_hdr_of_eq s.mem m1 y (h y hy)

/-- The function `openalloc_free` on the payload pointer of block `b` is the insert
step at the root of the list for the size of `b`. -/
theorem seg_free_veq (s : State) (bs : List Nat) (b : Nat) (hb : b ∈ bs)
    (hsep : ∀ x ∈ bs, ∀ y ∈ bs, x ≠ y → x + 24 ≤ y ∨ y + 24 ≤ x)
    (hbW : b + 24 < W) (hfl : ∀ i, i < NUM_BINS → s.free_lists i < W) :
    VEq bs (vinsert (view s) (Link.root (get_bin (Seg.size s.mem b))) b)
      (view (Seg.openalloc_free s (b + 24))) := by
  have hW := W_eq
  have hp0 : b + 24 ≠ 0 := by omega
  have hgb : get_block (b + 24) = b := by
    simp only [get_block, sub64, W, Seg.HDR] at hbW ⊢
    omega
  have hsz : Seg.size (set_free s.mem b 1) b = Seg.size s.mem b := by
    simp only [Seg.size, set_free]
    rw [read64_write8_ne _ _ _ _ (by omega)]
  have hfn := hfl _ (seg_get_bin_lt (Seg.size s.mem b))
  simp only [Seg.size] at hfn
  unfold Seg.openalloc_free
  rw [if_neg hp0]
  simp only [hgb, hsz]
  refine ⟨rfl, rfl, ?_, ?_⟩
  · intro i _
    simp only [view, seg_vinsert_fl_root, set_list, Function.update_apply]
  · intro y hy
    by_cases hyb : y = b
    · subst hyb
      simp only [view, seg_vinsert_sz, seg_vinsert_fr, seg_vinsert_nx_root, set_next, set_free]
      simp (disch := omega) only [Function.update_same, Function.update_noteq]
      simp only [Seg.size, Seg.next, Seg.free]
      simp (disch := omega) only [read64_write64_ne, read64_write8_ne, read8_write64_ne,
        read8_write8_ne, read64_write64_eq, read8_write8_eq, and_self]
    · have := hsep y hy b hb hyb
      simp only [view, seg_vinsert_sz, seg_vinsert_fr, seg_vinsert_nx_root, set_next, set_free]
      simp (disch := omega) only [Function.update_same, Function.update_noteq]
      simp only [Seg.size, Seg.next, Seg.free]
      simp (disch := omega) only [read64_write64_ne, read64_write8_ne, read8_write64_ne,
        read8_write8_ne, read64_write64_eq, read8_write8_eq, and_self]

/-- The function `openalloc_free` on a live pointer keeps the invariant; the pointer
is no longer live. -/
theorem seg_free_inv (s : State) (live bs : List Nat) (ls : Nat → List Nat)
    (hI : InvV (view s) live bs ls) (p : Nat) (hp : p ∈ live) :
    (∃ ls1, InvV (view (Seg.openalloc_free s p)) (live.erase p) bs ls1) ∧
    (Seg.openalloc_free s p).heap_start = s.heap_start ∧
    (Seg.openalloc_free s p).heap_size = s.heap_size := by
  obtain ⟨b, hb, e1, e2⟩ := hI.live_alloc p hp
  simp only [Seg.HDR] at e1
  subst e1
  have hblk := seg_inv_block _ live bs ls hI b hb
  have hW := W_eq
  have hbW : b + 24 < W := by
    have := hblk.2.2.2
    simp only [Seg.HDR] at this
    omega
  have I1 := seg_inv_live_erase _ live bs ls hI (b + 24)
  have hne : b + Seg.HDR ∉ live.erase (b + 24) := by
    intro h
    exact ((hI.live_nodup.mem_erase_iff).mp h).1 rfl
  have I2 := seg_inv_vinsert _ _ bs ls I1 (get_bin (Seg.size s.mem b)) (seg_get_bin_lt _) []
    (ls (get_bin (Seg.size s.mem b))) b rfl hb e2 hne rfl
  have hE := seg_free_veq s bs b hb
    (fun x hx y hy hxy => by
      have := seg_tiles_sep _ _ bs _ x y hI.tiles hx hy hxy
      simp only [Seg.HDR] at this
      omega)
    hbW (fun i hi => seg_inv_fl_lt _ live bs ls hI i hi)
  refine ⟨⟨_, seg_inv_congr _ _ _ _ _ I2 hE⟩, ?_, ?_⟩
  · unfold Seg.openalloc_free
    split_ifs <;> rfl
  · unfold Seg.openalloc_free
    split_ifs <;> rfl

/-- A live pointer is the payload address of an allocated block, and its usable
size is the size of that block. -/
theorem seg_inv_live (s : State) (live bs : List Nat) (ls : Nat → List Nat)
    (hI : InvV (view s) live bs ls) (p : Nat) (hp : p ∈ live) :
    ∃ b ∈ bs, p = b + 24 ∧ p ≠ 0 ∧ Seg.free s.mem b = 0 ∧
      Seg.openalloc_usable_size s p = Seg.size s.mem b ∧
      Seg.size s.mem (get_block p) = Seg.size s.mem b := by
  obtain ⟨b, hb, e1, e2⟩ := hI.live_alloc p hp
  simp only [Seg.HDR] at e1
  subst e1
  have hblk := seg_inv_block _ live bs ls hI b hb
  have hW := W_eq
  have hgb : get_block (b + 24) = b := by
    simp only [get_block, sub64, W, Seg.HDR] at hblk ⊢
    omega
  refine ⟨b, hb, rfl, by omega, e2, ?_, by rw [hgb]⟩
  unfold Seg.openalloc_usable_size
  rw [if_neg (by omega), hgb]

/-- Stores into the payload of a live pointer keep the invariant. -/
theorem seg_payload_frame (s : State) (live bs : List Nat) (ls : Nat → List Nat)
    (hI : InvV (view s) live bs ls) (q : Nat) (hq : q ∈ live) (m1 : Mem)
    (h : ∀ x, x < q ∨ q + Seg.openalloc_usable_size s q ≤ x → m1 x = s.mem x) :
    InvV (view { s with mem := m1 }) live bs ls := by
  obtain ⟨b, hb, e1, _, _, e2, _⟩ := seg_inv_live s live bs ls hI q hq
  apply seg_inv_congr _ _ _ _ _ hI
  apply seg_veq_frame
  intro y hy x h1 h2
  apply h
  rw [e2, e1]
  by_cases hyb : y = b
  · left; omega
  · have := seg_tiles_sep _ _ bs _ y b hI.tiles hy hb hyb
    simp only [Seg.HDR] at this
    change y + 24 + Seg.size s.mem y ≤ b ∨ b + 24 + Seg.size s.mem b ≤ y at this
    omega

/-- Every returned call of `openalloc_realloc` on a live pointer keeps the
invariant, for the live pointers as the caller updates them. -/
theorem seg_realloc_inv (s : State) (live bs : List Nat) (ls : Nat → List Nat)
    (hI : InvV (view s) live bs ls) (p n : Nat) (hn : n + 8 ≤ W) (hp : p ∈ live)
    (fuel q : Nat) (t : State) (h : Seg.openalloc_realloc fuel s p n = some (q, t)) :
    (∃ bs1 ls1, InvV (view t)
      (if n = 0 then live.erase p
        else if n ≤ Seg.openalloc_usable_size s p ∨ q = 0 then live
        else q :: live.erase p) bs1 ls1) ∧
    t.heap_start = s.heap_start ∧ t.heap_size = s.heap_size := by
  obtain ⟨b, hb, e1, hp0, hfb, hus, hgs⟩ := seg_inv_live s live bs ls hI p hp
  unfold Seg.openalloc_realloc at h
  rw [if_neg hp0] at h
  by_cases hn0 : n = 0
  · rw [if_pos hn0] at h
    cases h
    rw [if_pos hn0]
    obtain ⟨⟨ls1, h1⟩, h2, h3⟩ := seg_free_inv s live bs ls hI p hp
    exact ⟨⟨bs, ls1, h1⟩, h2, h3⟩
  · rw [if_neg hn0] at h
    rw [if_neg hn0]
    simp only [hgs] at h
    by_cases hle : n ≤ Seg.size s.mem b
    · rw [if_pos hle] at h
      cases h
      rw [if_pos (Or.inl (by rw [hus]; exact hle))]
      exact ⟨⟨bs, ls, hI⟩, rfl, rfl⟩
    · rw [if_neg hle] at h
      cases hm : Seg.openalloc_malloc fuel s n with
      | none => rw [hm] at h; cases h
      | some r =>
        obtain ⟨q1, s1⟩ := r
        rw [hm] at h
        simp only at h
        obtain ⟨⟨bs1, ls1, hI1⟩, hh1, hh2, hz, hnz⟩ := seg_malloc_inv s live bs ls hI n hn fuel q1 s1 hm
        by_cases hq0 : q1 = 0
        · rw [if_pos hq0] at h
          cases h
          rw [if_pos (Or.inr rfl)]
          rw [if_pos hq0] at hI1
          exact ⟨⟨bs1, ls1, hI1⟩, hh1, hh2⟩
        · rw [if_neg hq0] at h
          cases h
          rw [if_neg hq0] at hI1
          obtain ⟨hql, hq1, _, _⟩ := hnz hq0
          have hqp : q ≠ p := fun e => hql (e ▸ hp)
          rw [if_neg (by rw [hus]; intro h; rcases h with h | h; exact hle h; exact hq0 h)]
          have hI2 : InvV (view { s1 with mem := memcpy s1.mem q p (Seg.size s.mem b) })
              (q :: live) bs1 ls1 := by
            apply seg_payload_frame s1 (q :: live) bs1 ls1 hI1 q (List.mem_cons_self _ _)
            intro x hx
            apply memcpy_out
            omega
          obtain ⟨⟨ls2, h1⟩, h2, h3⟩ := seg_free_inv _ (q :: live) bs1 ls1 hI2 p
            (List.mem_cons_of_mem _ hp)
          have he : (q :: live).erase p = q :: live.erase p := by
            simp [List.erase_cons, hqp]
          rw [he] at h1
          refine ⟨⟨bs1, ls2, h1⟩, ?_, ?_⟩
          · rw [h2]; exact hh1
          · rw [h3]; exact hh2

/-- A state with one free block that covers the arena and sits on the last list
satisfies the invariant. -/
theorem seg_single_inv (t : State) (region L : Nat) (hr : region ≠ 0)
    (hfit : region + L < W) (hL : L < 2 ^ 63)
    (h1 : t.heap_start = region) (h2 : t.heap_size = L) (h3 : t.free_lists 9 = region)
    (h4 : ∀ i, i < 9 → t.free_lists i = 0) (h5 : Seg.size t.mem region = L - 24)
    (h6 : Seg.free t.mem region = 1) (h7 : Seg.next t.mem region = 0) (h40 : 40 ≤ L) :
    InvV (view t) [] [region] (fun i => if i = 9 then [region] else []) := by
  have hW := W_eq
  refine ⟨?_, ?_, ?_, ?_, ?_, ?_, ?_, ?_, ?_, ?_, ?_, ?_, ?_⟩
  · simp only [view]
    rw [h1]; omega
  · simp only [view]
    rw [h1, h2]; exact hfit
  · simp only [view]
    rw [h2]; exact hL
  · simp only [view]
    rw [h1, h2]
    simp only [Tiles, h5, Seg.HDR]
    refine ⟨trivial, ?_⟩
    omega
  · intro i hi
    simp only [view]
    by_cases h9 : i = 9
    · subst h9
      simp only [if_true, LSeg, h3, h7]
      exact ⟨trivial, hr, trivial⟩
    · simp only [if_neg h9, LSeg]
      exact h4 i (by simp only [NUM_BINS] at hi; omega)
  · intro i hi b hb
    by_cases h9 : i = 9
    · simp only [if_pos h9, List.mem_singleton] at hb
      rw [hb]
      refine ⟨List.mem_singleton.mpr rfl, ?_⟩
      simp only [view]
      rw [h6]; omega
    · simp only [if_neg h9, List.not_mem_nil] at hb
  · intro i hi
    by_cases h9 : i = 9
    · simp only [if_pos h9, List.nodup_singleton]
    · simp only [if_neg h9, List.nodup_nil]
  · intro i j hi hj hij b hb hb2
    by_cases h9 : i = 9
    · have : ¬ j = 9 := fun h => hij (h9.trans h.symm)
      simp only [if_neg this, List.not_mem_nil] at hb2
    · simp only [if_neg h9, List.not_mem_nil] at hb
  · intro b hb _
    exact ⟨9, by simp only [NUM_BINS]; omega, by simp only [if_true]; exact hb⟩
  · intro i hi b hb
    by_cases h9 : i = 9
    · simp only [if_pos h9, List.mem_singleton] at hb
      right
      exact ⟨h9, by rw [hb]⟩
    · simp only [if_neg h9, List.not_mem_nil] at hb
  · intro p hp
    simp only [List.not_mem_nil] at hp
  · exact List.nodup_nil
  · intro h8 b hb
    simp only [List.mem_singleton] at hb
    rw [hb]
    simp only [view, Seg.HDR] at h8 ⊢
    rw [h5]
    rw [h2] at h8
    exact h8

/-- An accepted `openalloc_init` establishes the invariant: one free block on the
last list. -/
theorem seg_init_inv (s : State) (region L : Nat) (hr : region ≠ 0) (h40 : 40 ≤ L)
    (hfit : region + L < W) (hL : L < 2 ^ 63) :
    InvV (view (Seg.openalloc_init s region L).2) [] [region]
      (fun i => if i = 9 then [region] else []) := by
  have hW := W_eq
  obtain ⟨h1, h2, h3, h4, h5, h6, h7⟩ := seg_init_fields s region L hr (by omega) (by omega)
  exact seg_single_inv _ region L hr hfit hL h1 h2 h3 h4 h5 h6 h7 h40

/-- One valid call with a roundable size keeps the invariant and the arena. -/
theorem seg_step_good (c : Client) (hG : Good c) (k : Call) (hk : k.roundable)
    (fuel r : Nat) (c1 : Client) (h : Seg.step fuel c k = some (r, c1)) :
    Good c1 ∧ c1.st.heap_start = c.st.heap_start ∧ c1.st.heap_size = c.st.heap_size := by
  obtain ⟨bs, ls, hI⟩ := hG
  cases k with
  | malloc n =>
    simp only [Seg.step] at h
    cases hm : Seg.openalloc_malloc fuel c.st n with
    | none => rw [hm] at h; cases h
    | some r1 =>
      obtain ⟨p, t⟩ := r1
      rw [hm] at h
      simp only [Option.map_some'] at h
      obtain ⟨hI1, h1, h2, _, _⟩ := seg_malloc_inv c.st c.live bs ls hI n hk fuel p t hm
      cases h
      exact ⟨hI1, h1, h2⟩
  | free p =>
    simp only [Seg.step] at h
    by_cases hp : p = 0 ∨ p ∈ c.live
    · rw [if_pos hp] at h
      cases h
      rcases hp with hp | hp
      · subst hp
        refine ⟨⟨bs, ls, ?_⟩, rfl, rfl⟩
        exact seg_inv_live_erase _ _ bs ls hI 0
      · obtain ⟨⟨ls1, h1⟩, h2, h3⟩ := seg_free_inv c.st c.live bs ls hI p hp
        exact ⟨⟨bs, ls1, h1⟩, h2, h3⟩
    · rw [if_neg hp] at h
      cases h
  | realloc p n =>
    simp only [Seg.step] at h
    by_cases hp0 : p = 0
    · rw [if_pos hp0] at h
      subst hp0
      have hre : Seg.openalloc_realloc fuel c.st 0 n = Seg.openalloc_malloc fuel c.st n := by
        unfold Seg.openalloc_realloc; rw [if_pos rfl]
      rw [hre] at h
      cases hm : Seg.openalloc_malloc fuel c.st n with
      | none => rw [hm] at h; cases h
      | some r1 =>
        obtain ⟨q, t⟩ := r1
        rw [hm] at h
        simp only [Option.map_some'] at h
        obtain ⟨hI1, h1, h2, _, _⟩ := seg_malloc_inv c.st c.live bs ls hI n hk fuel q t hm
        cases h
        exact ⟨hI1, h1, h2⟩
    · rw [if_neg hp0] at h
      by_cases hp : p ∈ c.live
      · rw [if_pos hp] at h
        cases hm : Seg.openalloc_realloc fuel c.st p n with
        | none => rw [hm] at h; cases h
        | some r1 =>
          obtain ⟨q, t⟩ := r1
          rw [hm] at h
          simp only [Option.map_some'] at h
          obtain ⟨hI1, h1, h2⟩ := seg_realloc_inv c.st c.live bs ls hI p n hk hp fuel q t hm
          cases h
          exact ⟨hI1, h1, h2⟩
      · rw [if_neg hp] at h
        cases h

/-- Every reachable caller of an arena that does not wrap around the address space
and is shorter than `2 ^ 63` bytes satisfies the invariant. -/
theorem seg_reach_good (m0 : Mem) (region L : Nat) (hfit : region + L < W) (hL : L < 2 ^ 63)
    (c : Client) (h : Reach m0 region L c) :
    Good c ∧ c.st.heap_start = region ∧ c.st.heap_size = L := by
  induction h with
  | init h0 =>
    have hc : ¬ (region = 0 ∨ L < OPENALLOC_MIN_BLOCK + Seg.HDR) := by
      intro hc
      unfold Seg.openalloc_init at h0
      rw [if_pos hc] at h0
      cases h0
    simp only [OPENALLOC_MIN_BLOCK, Seg.HDR] at hc
    have hr : region ≠ 0 := fun h => hc (Or.inl h)
    have h40 : 40 ≤ L := by omega
    have hW := W_eq
    obtain ⟨h1, h2, _⟩ := seg_init_fields (boot m0) region L hr (by omega) (by omega)
    exact ⟨⟨_, _, seg_init_inv (boot m0) region L hr h40 hfit hL⟩, h1, h2⟩
  | call fuel c k r c1 _ hk hs ih =>
    obtain ⟨h1, h2, h3⟩ := seg_step_good c ih.1 k hk fuel r c1 hs
    exact ⟨h1, by rw [h2]; exact ih.2.1, by rw [h3]; exact ih.2.2⟩
  | store c p i x _ hp hi ih =>
    obtain ⟨⟨bs, ls, hI⟩, h2, h3⟩ := ih
    refine ⟨⟨bs, ls, ?_⟩, h2, h3⟩
    apply seg_payload_frame c.st c.live bs ls hI p hp
    intro y hy
    apply write8_out
    omega

/-- The ten outcomes of `get_bin` with their size ranges. -/
theorem seg_get_bin_cases (s : Nat) :
    (get_bin s = 0 ∧ s ≤ 16) ∨ (get_bin s = 1 ∧ 16 < s ∧ s ≤ 32) ∨
    (get_bin s = 2 ∧ 32 < s ∧ s ≤ 64) ∨ (get_bin s = 3 ∧ 64 < s ∧ s ≤ 128) ∨
    (get_bin s = 4 ∧ 128 < s ∧ s ≤ 256) ∨ (get_bin s = 5 ∧ 256 < s ∧ s ≤ 512) ∨
    (get_bin s = 6 ∧ 512 < s ∧ s ≤ 1024) ∨ (get_bin s = 7 ∧ 1024 < s ∧ s ≤ 2048) ∨
    (get_bin s = 8 ∧ 2048 < s ∧ s ≤ 4096) ∨ (get_bin s = 9 ∧ 4096 < s) := by
  unfold get_bin
  split_ifs <;> omega

/-- The function `get_bin` is monotone. -/
theorem seg_get_bin_mono (s t : Nat) (h : s ≤ t) : get_bin s ≤ get_bin t := by
  have h1 := seg_get_bin_cases s
  have h2 := seg_get_bin_cases t
  omega

/-- The function `get_bin` as the search through the class bounds. -/
theorem seg_get_bin_findIdx (s : Nat) : get_bin s = smallest_class s := by
  unfold get_bin smallest_class class_bounds
  simp only [List.findIdx_cons, List.findIdx_nil]
  split_ifs <;> simp [*]

/-- A size is above the bound of class `j` exactly when `get_bin` maps it to a later
class. -/
theorem seg_get_bin_above (s j : Nat) (hj : j < 9) :
    class_bounds.getD j 0 < s ↔ j < get_bin s := by
  have h : j = 0 ∨ j = 1 ∨ j = 2 ∨ j = 3 ∨ j = 4 ∨ j = 5 ∨ j = 6 ∨ j = 7 ∨ j = 8 := by omega
  have h1 := seg_get_bin_cases s
  rcases h with rfl | rfl | rfl | rfl | rfl | rfl | rfl | rfl | rfl <;>
    simp only [class_bounds, List.getD_cons_zero, List.getD_cons_succ] <;> omega

/-- The class of a size is the first one whose bound is not below the size. -/
theorem seg_get_bin_iff (s i : Nat) (hi : i < 9) :
    get_bin s = i ↔ s ≤ class_bounds.getD i 0 ∧ ∀ j, j < i → class_bounds.getD j 0 < s := by
  have h1 := seg_get_bin_above s i hi
  constructor
  · intro hg
    refine ⟨by omega, ?_⟩
    intro j hj
    exact (seg_get_bin_above s j (by omega)).mpr (by omega)
  · rintro ⟨h2, h3⟩
    have h4 : get_bin s ≤ i := by omega
    rcases Nat.eq_zero_or_pos i with h0 | h0
    · omega
    · have := (seg_get_bin_above s (i - 1) (by omega)).mp (h3 (i - 1) (by omega))
      omega

/-- The arena walk of a tiled arena visits the blocks of the tiling. -/
theorem seg_walk_of_tiles (s : State) (heW : s.heap_start + s.heap_size < W) :
    ∀ (bs : List Nat) (a : Nat),
    Tiles (Seg.size s.mem) (s.heap_start + s.heap_size) a bs →
    ∀ fuel, bs.length < fuel → Seg.walk_blocks fuel s a = some bs := by
  have he : add64 s.heap_start s.heap_size = s.heap_start + s.heap_size := by
    simp only [add64]; exact Nat.mod_eq_of_lt heW
  intro bs
  induction bs with
  | nil =>
    intro a h fuel hf
    simp only [Tiles] at h
    obtain ⟨f, rfl⟩ : ∃ f, fuel = f + 1 := ⟨fuel - 1, by simp at hf; omega⟩
    simp only [Seg.walk_blocks, he]
    rw [if_neg (by omega)]
  | cons b bs ih =>
    intro a h fuel hf
    simp only [Tiles] at h
    obtain ⟨hb, ht⟩ := h
    have hle := seg_tiles_le _ _ _ _ ht
    obtain ⟨f, rfl⟩ : ∃ f, fuel = f + 1 := ⟨fuel - 1, by simp at hf; omega⟩
    have e1 : add64 (add64 a Seg.HDR) (Seg.size s.mem a) = a + Seg.HDR + Seg.size s.mem a := by
      simp only [add64]
      rw [Nat.mod_eq_of_lt (a := a + Seg.HDR) (by omega), Nat.mod_eq_of_lt (by omega)]
    have hlt : a < s.heap_start + s.heap_size := by simp only [Seg.HDR] at hle; omega
    simp only [Seg.walk_blocks, he, e1]
    rw [if_pos hlt, ih _ ht f (by simp at hf; omega), hb]
    rfl

/-- The traversal of a free list visits the nodes of its list segment. -/
theorem seg_nodes_of_lseg (m : Mem) : ∀ (l : List Nat) (p : Nat),
    LSeg (Seg.next m) p l 0 → ∀ fuel, l.length < fuel → Seg.list_nodes fuel m p = some l := by
  intro l
  induction l with
  | nil =>
    intro p h fuel hf
    simp only [LSeg] at h
    obtain ⟨f, rfl⟩ : ∃ f, fuel = f + 1 := ⟨fuel - 1, by simp at hf; omega⟩
    simp only [Seg.list_nodes]
    rw [if_pos h]
  | cons b l ih =>
    intro p h fuel hf
    simp only [LSeg] at h
    obtain ⟨h1, h2, h3⟩ := h
    obtain ⟨f, rfl⟩ : ∃ f, fuel = f + 1 := ⟨fuel - 1, by simp at hf; omega⟩
    simp only [Seg.list_nodes]
    rw [if_neg (by omega), h1, ih _ h3 f (by simp at hf; omega)]
    rfl

/-- Under the invariant the arena has fewer blocks than bytes. -/
theorem seg_inv_blocks_length (s : State) (live bs : List Nat) (ls : Nat → List Nat)
    (hI : InvV (view s) live bs ls) : Seg.HDR * bs.length ≤ s.heap_size := by
  have := seg_tiles_length _ _ _ _ hI.tiles
  simp only [view] at this
  omega

/-- Under the invariant the arena walk visits the blocks of the invariant. -/
theorem seg_inv_walk (s : State) (live bs : List Nat) (ls : Nat → List Nat)
    (hI : InvV (view s) live bs ls) (fuel : Nat) (hf : s.heap_size < fuel) :
    Seg.walk_blocks fuel s s.heap_start = some bs := by
  have h1 := seg_inv_blocks_length s live bs ls hI
  exact seg_walk_of_tiles s hI.fits bs _ hI.tiles fuel (by simp only [Seg.HDR] at h1; omega)

/-- Under the invariant the traversal of each free list visits the nodes of the
invariant. -/
theorem seg_inv_nodes (s : State) (live bs : List Nat) (ls : Nat → List Nat)
    (hI : InvV (view s) live bs ls) (fuel : Nat) (hf : s.heap_size < fuel) (i : Nat)
    (hi : i < NUM_BINS) : Seg.list_nodes fuel s.mem (s.free_lists i) = some (ls i) := by
  have h1 := seg_inv_blocks_length s live bs ls hI
  have h2 : (ls i).length ≤ bs.length :=
    ((hI.nodup i hi).subperm (fun b hb => (hI.node_free i hi b hb).1)).length_le
  exact seg_nodes_of_lseg s.mem (ls i) _ (hI.chain i hi) fuel
    (by simp only [Seg.HDR] at h1; omega)

/-- Under the invariant a free block of the arena is once on one free list and on no
other, and that list is the list of its size class unless the block is the only
block of the arena and sits on the last list. -/
theorem seg_inv_free_listed (s : State) (live bs : List Nat) (ls : Nat → List Nat)
    (hI : InvV (view s) live bs ls) (b : Nat) (hb : b ∈ bs) (hfr : Seg.free s.mem b ≠ 0) :
    ∃ i, i < NUM_BINS ∧ (ls i).count b = 1 ∧ (∀ j, j < NUM_BINS → j ≠ i → b ∉ ls j) ∧
      (i = get_bin (Seg.size s.mem b) ∨ (i = NUM_BINS - 1 ∧ bs = [b])) := by
  obtain ⟨i, hi, hbi⟩ := hI.listed b hb hfr
  refine ⟨i, hi, List.count_eq_one_of_mem (hI.nodup i hi) hbi, ?_, ?_⟩
  · intro j hj hji hbj
    exact hI.disj i j hi hj (fun h => hji h.symm) b hbi hbj
  · rcases hI.binned i hi b hbi with h | h
    · left; exact h.symm
    · right; exact h

/-- Under the invariant, in an arena whose payload is a multiple of 8, the size of
every block and the usable size of every live pointer are multiples of 8. -/
theorem seg_inv_mult8 (s : State) (live bs : List Nat) (ls : Nat → List Nat)
    (hI : InvV (view s) live bs ls) (h8 : 8 ∣ s.heap_size - Seg.HDR) :
    (∀ b ∈ bs, 8 ∣ Seg.size s.mem b) ∧ ∀ p ∈ live, 8 ∣ Seg.openalloc_usable_size s p := by
  have hm := hI.mult8 h8
  refine ⟨hm, ?_⟩
  intro p hp
  obtain ⟨b, hb, hpb, _⟩ := hI.live_alloc p hp
  have h1 := (seg_tiles_mem _ _ _ _ b hI.tiles hb).2
  have h2 := hI.fits
  have hW := W_eq
  simp only [view, Seg.HDR] at h1 h2 hpb
  have hgb : get_block p = b := by
    simp only [get_block, sub64, Seg.HDR, W]; omega
  unfold Seg.openalloc_usable_size
  rw [if_neg (by omega), hgb]
  exact hm b hb

/-- The scan of `openalloc_malloc` passes over empty lists. -/
theorem seg_bin_loop_skip (s : State) (a f : Nat) : ∀ (count bin : Nat),
    (∀ j, bin ≤ j → j < bin + count → s.free_lists j = 0) →
    bin_loop (f + 1) s a (count + 1) bin = bin_loop (f + 1) s a 1 (bin + count) := by
  intro count
  induction count with
  | zero => intro bin _; rfl
  | succ c ih =>
    intro bin h
    have h0 : s.free_lists bin = 0 := h bin (Nat.le_refl _) (by omega)
    have e : bin + (c + 1) = (bin + 1) + c := by omega
    rw [e, ← ih (bin + 1) (fun j hj1 hj2 => h j (by omega) (by omega))]
    conv => lhs; unfold bin_loop
    simp only [h0, list_loop]
    rfl

/-- With every list from `bin` on empty `openalloc_malloc` finds nothing. -/
theorem seg_bin_loop_empty (s : State) (a f : Nat) : ∀ (count bin : Nat),
    (∀ j, bin ≤ j → j < bin + count → s.free_lists j = 0) →
    bin_loop (f + 1) s a count bin = some (0, s) := by
  intro count
  induction count with
  | zero => intro bin _; rfl
  | succ c ih =>
    intro bin h
    have h0 : s.free_lists bin = 0 := h bin (Nat.le_refl _) (by omega)
    rw [← ih (bin + 1) (fun j hj1 hj2 => h j (by omega) (by omega))]
    conv => lhs; unfold bin_loop
    simp only [h0, list_loop]
    rfl

/-- Segregated build: a request that the single free block of the arena fits without
room for a split takes the whole block, and the same request then fails. -/
theorem seg_malloc_whole (s : State) (region L n f : Nat) (hr : region ≠ 0)
    (hfit : region + L < W) (hL : L < 2 ^ 63)
    (h1 : s.heap_start = region) (h2 : s.heap_size = L) (h3 : s.free_lists 9 = region)
    (h4 : ∀ i, i < 9 → s.free_lists i = 0) (h5 : Seg.size s.mem region = L - 24)
    (h6 : Seg.free s.mem region = 1) (h7 : Seg.next s.mem region = 0)
    (hn : 0 < n) (hlo : align8 n + 24 ≤ L) (hhi : L < align8 n + 2 * 24 + 16) :
    ∃ t, Seg.openalloc_malloc (f + 1) s n = some (region + 24, t) ∧
      Seg.openalloc_usable_size t (region + 24) = L - 24 ∧
      Seg.free t.mem region = 0 ∧
      Seg.walk_blocks (f + 2) t t.heap_start = some [region] ∧
      Seg.openalloc_malloc (f + 1) t n = some (0, t) := by
  have hW := W_eq
  have hn8 : n ≤ align8 n := by unfold align8; omega
  have ha : align_size n = align8 n := align_size_eq n (by omega)
  have hg : get_bin (align8 n) < NUM_BINS := seg_get_bin_lt _
  simp only [NUM_BINS] at hg
  have hns : ¬ Seg.size s.mem region ≥ add64 (add64 (align8 n) OPENALLOC_MIN_BLOCK) Seg.HDR := by
    rw [h5]
    simp only [add64, OPENALLOC_MIN_BLOCK, Seg.HDR, W]
    omega
  have hfitb : Seg.free s.mem region ≠ 0 ∧ Seg.size s.mem region ≥ align8 n := by
    rw [h5, h6]; exact ⟨by omega, by omega⟩
  have hgd : get_data region = region + 24 := by
    simp only [get_data, add64, Seg.HDR, W]; omega
  have hgb : get_block (region + 24) = region := by
    simp only [get_block, sub64, Seg.HDR, W]; omega
  have ht : (take s (align8 n) 9 (Link.root 9) region).2 =
      { mem := set_next (set_free s.mem region 0) region 0,
        free_lists := set_list s.free_lists 9 0,
        heap_start := s.heap_start, heap_size := s.heap_size } := by
    rw [seg_take_nosplit s (align8 n) 9 (Link.root 9) region hns, h7]
    rfl
  have hm1 : Seg.openalloc_malloc (f + 1) s n = some (region + 24,
      (take s (align8 n) 9 (Link.root 9) region).2) := by
    unfold Seg.openalloc_malloc
    rw [if_neg (by omega), ha]
    have e : NUM_BINS - get_bin (align8 n) = (9 - get_bin (align8 n)) + 1 := by
      simp only [NUM_BINS]; omega
    rw [e, seg_bin_loop_skip s (align8 n) f _ _
      (fun j hj1 hj2 => h4 j (by omega))]
    have e2 : get_bin (align8 n) + (9 - get_bin (align8 n)) = 9 := by omega
    rw [e2]
    unfold bin_loop
    simp only [h3, list_loop, if_neg hr, if_pos hfitb, seg_take_fst, hgd]
  refine ⟨_, hm1, ?_, ?_, ?_, ?_⟩
  · unfold Seg.openalloc_usable_size
    rw [if_neg (by omega), hgb, ht]
    simp only [Seg.size, set_next, set_free] at h5 ⊢
    simp (disch := omega) only [read64_write64_ne, read64_write8_ne]
    exact h5
  · rw [ht]
    simp only [Seg.free, set_next, set_free]
    simp (disch := omega) only [read8_write64_ne, read8_write8_eq]
  · rw [ht]
    have hs5 : Seg.size (set_next (set_free s.mem region 0) region 0) region = L - 24 := by
      simp only [Seg.size, set_next, set_free] at h5 ⊢
      simp (disch := omega) only [read64_write64_ne, read64_write8_ne]
      exact h5
    have e1 : add64 region L = region + L := by
      simp only [add64]; exact Nat.mod_eq_of_lt hfit
    have e2 : add64 (add64 region Seg.HDR) (L - 24) = region + L := by
      simp only [add64, Seg.HDR, W]; omega
    simp only [Seg.walk_blocks, h1, h2, hs5, e1, e2]
    rw [if_pos (by omega), if_neg (by omega)]
    rfl
  · rw [ht]
    unfold Seg.openalloc_malloc
    rw [if_neg (by omega)]
    apply seg_bin_loop_empty
    intro j hj1 hj2
    show set_list s.free_lists 9 0 j = 0
    unfold set_list
    by_cases hj : j = 9
    · rw [if_pos hj]
    · rw [if_neg hj]
      exact h4 j (by simp only [NUM_BINS] at hj2; have := seg_get_bin_lt (align_size n); simp only [NUM_BINS] at this; omega)

/-- The header address of a pointer is below `2 ^ 64`. -/
theorem seg_get_block_lt (p : Nat) : get_block p < W := by
  unfold get_block sub64
  exact Nat.mod_lt _ (by rw [W_eq]; omega)

/-- The state after `openalloc_free(p)` for a non-null `p`. -/
theorem seg_free_eq (s : State) (p : Nat) (hp : p ≠ 0) :
    Seg.openalloc_free s p =
      { s with
        mem := set_next (set_free s.mem (get_block p) 1) (get_block p)
          (s.free_lists (get_bin (Seg.size s.mem (get_block p))))
        free_lists := set_list s.free_lists (get_bin (Seg.size s.mem (get_block p)))
          (get_block p) } := by
  have hsz : Seg.size (set_free s.mem (get_block p) 1) (get_block p)
      = Seg.size s.mem (get_block p) := by
    simp only [Seg.size, set_free]
    rw [read64_write8_ne _ _ _ _ (by omega)]
  unfold Seg.openalloc_free
  rw [if_neg hp]
  simp only [hsz]

/-- After `openalloc_free(p)` the block of `p` is the head of the list of its class,
with `free` set and its size unchanged. -/
theorem seg_free_head (s : State) (p : Nat) (hp : p ≠ 0) :
    (Seg.openalloc_free s p).free_lists (get_bin (Seg.size s.mem (get_block p)))
      = get_block p ∧
    Seg.free (Seg.openalloc_free s p).mem (get_block p) = 1 ∧
    Seg.size (Seg.openalloc_free s p).mem (get_block p) = Seg.size s.mem (get_block p) ∧
    (s.free_lists (get_bin (Seg.size s.mem (get_block p))) < W →
      Seg.next (Seg.openalloc_free s p).mem (get_block p)
        = s.free_lists (get_bin (Seg.size s.mem (get_block p)))) := by
  rw [seg_free_eq s p hp]
  refine ⟨?_, ?_, ?_, ?_⟩
  · simp only [set_list, if_true]
  · simp only [Seg.free, set_next, set_free]
    rw [read8_write64_ne _ _ _ _ (by omega), read8_write8_eq]
  · simp only [Seg.size, set_next, set_free]
    rw [read64_write64_ne _ _ _ _ (by omega), read64_write8_ne _ _ _ _ (by omega)]
  · intro hv
    simp only [Seg.next, set_next]
    rw [read64_write64_eq _ _ _ hv]

/-- A traversal that starts at a non-null block whose `next` link points to the
block itself does not end. -/
theorem seg_list_nodes_self (m : Mem) (b : Nat) (hb : b ≠ 0) (h : Seg.next m b = b) :
    ∀ fuel, Seg.list_nodes fuel m b = none := by
  intro fuel
  induction fuel with
  | zero => rfl
  | succ f ih =>
    simp only [Seg.list_nodes]
    rw [if_neg hb, h, ih]
    rfl

/-- Segregated build: `openalloc_free(p)` twice leaves the block of `p` at the head
of the list of its class as its own successor. -/
theorem seg_double_free (s : State) (p : Nat) (hp : p ≠ 0) :
    (Seg.openalloc_free (Seg.openalloc_free s p) p).free_lists
      (get_bin (Seg.size s.mem (get_block p))) = get_block p ∧
    Seg.next (Seg.openalloc_free (Seg.openalloc_free s p) p).mem (get_block p)
      = get_block p ∧
    Seg.free (Seg.openalloc_free (Seg.openalloc_free s p) p).mem (get_block p) = 1 ∧
    Seg.size (Seg.openalloc_free (Seg.openalloc_free s p) p).mem (get_block p)
      = Seg.size s.mem (get_block p) := by
  obtain ⟨h1, h2, h3, h4⟩ := seg_free_head s p hp
  obtain ⟨k1, k2, k3, k4⟩ := seg_free_head (Seg.openalloc_free s p) p hp
  rw [h3] at k1 k4
  rw [h1] at k4
  exact ⟨k1, k4 (seg_get_block_lt p), k2, by rw [k3, h3]⟩

/-- The scan of one list returns the payload address of a non-null block (an
address below `2 ^ 64`) with `free` set, when it returns a block at all. -/
theorem seg_list_loop_hit (s : State) (a bin : Nat) : ∀ (fuel : Nat) (lk : Link)
    (blk p : Nat) (t : State), blk < W → list_loop fuel s a bin lk blk = Scan.hit p t →
    ∃ b, b ≠ 0 ∧ b < W ∧ Seg.free s.mem b ≠ 0 ∧ p = get_data b := by
  intro fuel
  induction fuel with
  | zero => intro lk blk p t _ h; simp only [list_loop] at h; cases h
  | succ f ih =>
    intro lk blk p t hblk h
    simp only [list_loop] at h
    by_cases h0 : blk = 0
    · rw [if_pos h0] at h; cases h
    · rw [if_neg h0] at h
      by_cases hf : Seg.free s.mem blk ≠ 0 ∧ Seg.size s.mem blk ≥ a
      · rw [if_pos hf] at h
        injection h with h1 h2
        exact ⟨blk, h0, hblk, hf.1, by rw [← h1, seg_take_fst]⟩
      · rw [if_neg hf] at h
        exact ih _ _ _ _ (read64_lt _ _) h

/-- Segregated build: when the scan of `openalloc_malloc` returns `NULL`, the state
is the one it started from. -/
theorem seg_bin_loop_null (s : State) (a fuel : Nat)
    (hfl : ∀ i, i < NUM_BINS → s.free_lists i < W)
    (hlast : Seg.free s.mem (W - Seg.HDR) = 0) :
    ∀ (count bin : Nat) (t : State), bin + count ≤ NUM_BINS →
    bin_loop fuel s a count bin = some (0, t) → t = s := by
  have hW := W_eq
  intro count
  induction count with
  | zero =>
    intro bin t _ h
    simp only [bin_loop] at h
    injection h with h
    injection h with _ h2
    exact h2.symm
  | succ c ih =>
    intro bin t hb h
    unfold bin_loop at h
    cases hl : list_loop fuel s a bin (Link.root bin) (s.free_lists bin) with
    | timeout => rw [hl] at h; cases h
    | miss =>
      rw [hl] at h
      exact ih (bin + 1) t (by omega) h
    | hit p u =>
      rw [hl] at h
      injection h with h
      injection h with h1 h2
      obtain ⟨b, hb0, hbW, hfr, hpb⟩ :=
        seg_list_loop_hit s a bin fuel _ _ _ _ (hfl bin (by omega)) hl
      exfalso
      rw [h1] at hpb
      have : b = W - Seg.HDR := by
        simp only [get_data, add64, Seg.HDR, W] at hpb ⊢
        omega
      rw [this] at hfr
      exact hfr hlast

/-- Segregated build, arena with a payload above 4096 bytes: under the invariant
every node of list `i` has a size of class `i`, and the rest of a split goes to a
class that is not above the class of the block. -/
theorem seg_inv_binned_large (s : State) (live bs : List Nat) (ls : Nat → List Nat)
    (hI : InvV (view s) live bs ls) (hL : 4096 < s.heap_size - Seg.HDR) :
    (∀ i, i < NUM_BINS → ∀ b ∈ ls i, get_bin (Seg.size s.mem b) = i) ∧
    (∀ i, i < NUM_BINS → ∀ b ∈ ls i, ∀ a, a + Seg.HDR ≤ Seg.size s.mem b →
      get_bin (Seg.size s.mem b - a - Seg.HDR) ≤ i) := by
  have hbin : ∀ i, i < NUM_BINS → ∀ b ∈ ls i, get_bin (Seg.size s.mem b) = i := by
    intro i hi b hb
    rcases hI.binned i hi b hb with h | ⟨h1, h2⟩
    · exact h
    · have ht := hI.tiles
      rw [h2] at ht
      simp only [Tiles, view] at ht
      obtain ⟨hb1, hb2⟩ := ht
      have h3 : 4096 < Seg.size s.mem b := by
        rw [hb1]
        omega
      have := seg_get_bin_cases (Seg.size s.mem b)
      simp only [NUM_BINS] at h1
      omega
  refine ⟨hbin, ?_⟩
  intro i hi b hb a _
  rw [← hbin i hi b hb]
  exact seg_get_bin_mono _ _ (by omega)

end SegInvariant

/-! ## The coalescing build under `openalloc_malloc` calls alone -/

section NoSegMalloc
open NoSeg

/-- A scan of the free list that ends keeps its result under more fuel. -/
theorem noseg_malloc_loop_mono (s : NoSeg.State) (a k : Nat) (r : Nat × NoSeg.State) :
    ∀ (fuel blk : Nat), NoSeg.malloc_loop fuel s a blk = some r →
    NoSeg.malloc_loop (fuel + k) s a blk = some r := by
  intro fuel
  induction fuel with
  | zero => intro blk h; simp only [NoSeg.malloc_loop] at h; cases h
  | succ f ih =>
    intro blk h
    have e : f + 1 + k = (f + k) + 1 := by omega
    rw [e]
    simp only [NoSeg.malloc_loop] at h ⊢
    by_cases h0 : blk = 0
    · simp only [if_pos h0] at h ⊢; exact h
    · simp only [if_neg h0] at h ⊢
      by_cases h1 : NoSeg.free s.mem blk ≠ 0 ∧ NoSeg.size s.mem blk ≥ a
      · simp only [if_pos h1] at h ⊢; exact h
      · simp only [if_neg h1] at h ⊢
        exact ih _ h

/-- The body of the loop of `openalloc_malloc` for a block that passes the test. -/
theorem noseg_malloc_loop_hit (s : NoSeg.State) (a b f : Nat) (hb : b ≠ 0)
    (hfit : NoSeg.free s.mem b ≠ 0 ∧ NoSeg.size s.mem b ≥ a) :
    NoSeg.malloc_loop (f + 1) s a b = some (get_data_doubly b,
      { (unlink { (split_block_doubly s b a) with
            mem := NoSeg.set_free (split_block_doubly s b a).mem b 0 } b) with
        mem := NoSeg.set_prev (NoSeg.set_next (unlink { (split_block_doubly s b a) with
            mem := NoSeg.set_free (split_block_doubly s b a).mem b 0 } b).mem b 0) b 0 }) := by
  simp only [NoSeg.malloc_loop, if_neg hb, if_pos hfit]

/-- The state after `split_block_doubly` when the block is split and the free list
is not empty. -/
theorem noseg_split_eq (s : NoSeg.State) (b a : Nat)
    (hc : sub64 (NoSeg.size s.mem b) a ≥ OPENALLOC_MIN_BLOCK + NoSeg.HDR)
    (hfl : s.free_list ≠ 0) :
    split_block_doubly s b a =
      { s with
        mem := NoSeg.set_prev (NoSeg.set_next (NoSeg.set_size (NoSeg.set_prev (NoSeg.set_next
          (NoSeg.set_free (NoSeg.set_size s.mem (add64 (add64 b NoSeg.HDR) a)
            (sub64 (sub64 (NoSeg.size s.mem b) a) NoSeg.HDR)) (add64 (add64 b NoSeg.HDR) a) 1)
          (add64 (add64 b NoSeg.HDR) a) 0) (add64 (add64 b NoSeg.HDR) a) 0) b a)
          (add64 (add64 b NoSeg.HDR) a) s.free_list) s.free_list (add64 (add64 b NoSeg.HDR) a),
        free_list := add64 (add64 b NoSeg.HDR) a } := by
  unfold split_block_doubly
  simp only [if_pos hc, if_pos hfl]

/-- The state after `split_block_doubly` when the block is not split. -/
theorem noseg_split_none (s : NoSeg.State) (b a : Nat)
    (hc : ¬ sub64 (NoSeg.size s.mem b) a ≥ OPENALLOC_MIN_BLOCK + NoSeg.HDR) :
    split_block_doubly s b a = s := by
  unfold split_block_doubly
  simp only [if_neg hc]

/-- Unlinking the only node of the free list empties the list. -/
theorem noseg_unlink_only (s : NoSeg.State) (b : Nat) (hp : NoSeg.prev s.mem b = 0)
    (hn : NoSeg.next s.mem b = 0) : unlink s b = { s with free_list := 0 } := by
  unfold unlink
  simp only [hp, hn, ne_eq, not_true_eq_false, if_false]

/-- Unlinking the last node of the free list clears the `next` link of its
predecessor. -/
theorem noseg_unlink_last (s : NoSeg.State) (b c : Nat) (hp : NoSeg.prev s.mem b = c)
    (hc : c ≠ 0) (hn : NoSeg.next s.mem b = 0)
    (hn2 : NoSeg.next (NoSeg.set_next s.mem c 0) b = 0) :
    unlink s b = { s with mem := NoSeg.set_next s.mem c 0 } := by
  unfold unlink
  simp only [hp, hn, if_pos hc, hn2, ne_eq, not_true_eq_false, if_false]

/-- Coalescing build: `openalloc_malloc` takes the only node `b` of the free list
and splits it. -/
theorem noseg_take_split (s : NoSeg.State) (a b f : Nat) (hb0 : b ≠ 0) (hfl : s.free_list = b)
    (hfr : NoSeg.free s.mem b ≠ 0) (hbW : b + 32 + read64 s.mem b < W)
    (ha : a + 48 ≤ read64 s.mem b) (hnx : read64 s.mem (b + 8) = 0) :
    NoSeg.malloc_loop (f + 1) s a b = some (b + 32,
      { mem := NoSeg.set_prev (NoSeg.set_next (NoSeg.set_next (NoSeg.set_free
            (NoSeg.set_prev (NoSeg.set_next (NoSeg.set_size (NoSeg.set_prev (NoSeg.set_next
              (NoSeg.set_free (NoSeg.set_size s.mem (b + 32 + a) (read64 s.mem b - a - 32))
                (b + 32 + a) 1) (b + 32 + a) 0) (b + 32 + a) 0) b a) (b + 32 + a) b) b (b + 32 + a)) b 0) (b + 32 + a) 0) b 0) b 0,
        free_list := b + 32 + a, heap_start := s.heap_start, heap_size := s.heap_size }) := by
  have hW := W_eq
  have hsz : NoSeg.size s.mem b = read64 s.mem b := rfl
  have e1 : sub64 (NoSeg.size s.mem b) a = read64 s.mem b - a := by
    rw [hsz]; simp only [sub64, W]; omega
  have e2 : add64 (add64 b NoSeg.HDR) a = b + 32 + a := by
    simp only [add64, NoSeg.HDR, W]; omega
  have e3 : sub64 (sub64 (NoSeg.size s.mem b) a) NoSeg.HDR = read64 s.mem b - a - 32 := by
    rw [hsz]; simp only [sub64, NoSeg.HDR, W]; omega
  have e4 : get_data_doubly b = b + 32 := by
    simp only [get_data_doubly, add64, NoSeg.HDR, W]; omega
  have hc : sub64 (NoSeg.size s.mem b) a ≥ OPENALLOC_MIN_BLOCK + NoSeg.HDR := by
    rw [e1]; simp only [OPENALLOC_MIN_BLOCK, NoSeg.HDR]; omega
  rw [noseg_malloc_loop_hit s a b f hb0 ⟨hfr, by rw [hsz]; omega⟩,
    noseg_split_eq s b a hc (by rw [hfl]; exact hb0), e2, e3, e4, hfl]
  rw [noseg_unlink_last _ b (b + 32 + a)]
  · simp only [NoSeg.prev, NoSeg.set_free, NoSeg.set_prev, NoSeg.set_next, NoSeg.set_size]
    simp (disch := omega) only [read64_write64_ne, read64_write8_ne, read8_write64_ne,
      read8_write8_ne, read64_write64_eq, read8_write8_eq]
  · omega
  · simp only [NoSeg.next, NoSeg.set_free, NoSeg.set_prev, NoSeg.set_next, NoSeg.set_size]
    simp (disch := omega) only [read64_write64_ne, read64_write8_ne, read8_write64_ne,
      read8_write8_ne, read64_write64_eq, read8_write8_eq]
    exact hnx
  · simp only [NoSeg.next, NoSeg.set_free, NoSeg.set_prev, NoSeg.set_next, NoSeg.set_size]
    simp (disch := omega) only [read64_write64_ne, read64_write8_ne, read8_write64_ne,
      read8_write8_ne, read64_write64_eq, read8_write8_eq]
    exact hnx

/-- Coalescing build: `openalloc_malloc` takes the only node `b` of the free list
whole. -/
theorem noseg_take_whole (s : NoSeg.State) (a b f : Nat) (hb0 : b ≠ 0)
    (hfr : NoSeg.free s.mem b ≠ 0) (hbW : b + 32 + read64 s.mem b < W)
    (ha1 : a ≤ read64 s.mem b) (ha : ¬ a + 48 ≤ read64 s.mem b)
    (hnx : read64 s.mem (b + 8) = 0) (hpv : read64 s.mem (b + 16) = 0) :
    NoSeg.malloc_loop (f + 1) s a b = some (b + 32,
      { mem := NoSeg.set_prev (NoSeg.set_next (NoSeg.set_free s.mem b 0) b 0) b 0,
        free_list := 0, heap_start := s.heap_start, heap_size := s.heap_size }) := by
  have hW := W_eq
  have hsz : NoSeg.size s.mem b = read64 s.mem b := rfl
  have e1 : sub64 (NoSeg.size s.mem b) a = read64 s.mem b - a := by
    rw [hsz]; simp only [sub64, W]; omega
  have e4 : get_data_doubly b = b + 32 := by
    simp only [get_data_doubly, add64, NoSeg.HDR, W]; omega
  have hc : ¬ sub64 (NoSeg.size s.mem b) a ≥ OPENALLOC_MIN_BLOCK + NoSeg.HDR := by
    rw [e1]; simp only [OPENALLOC_MIN_BLOCK, NoSeg.HDR]; omega
  rw [noseg_malloc_loop_hit s a b f hb0 ⟨hfr, by rw [hsz]; omega⟩,
    noseg_split_none s b a hc, e4]
  rw [noseg_unlink_only _ b]
  · simp only [NoSeg.prev, NoSeg.set_free]
    simp (disch := omega) only [read64_write64_ne, read64_write8_ne, read8_write64_ne,
      read8_write8_ne, read64_write64_eq, read8_write8_eq]
    exact hpv
  · simp only [NoSeg.next, NoSeg.set_free]
    simp (disch := omega) only [read64_write64_ne, read64_write8_ne, read8_write64_ne,
      read8_write8_ne, read64_write64_eq, read8_write8_eq]
    exact hnx

/-- Coalescing build: on a state whose free list is empty or one block,
`openalloc_malloc` returns with fuel 2, keeps that shape, and a non-null result has
a usable size of at least `n`, at most `n + 54`, and at most `n + 47` when the size
of the free block is a multiple of 8. -/
theorem noseg_malloc_tail (s : NoSeg.State) (hT : Tail s) (n : Nat) (hn : n + 8 ≤ W)
    (fuel : Nat) (hf : 2 ≤ fuel) :
    ∃ p t, NoSeg.openalloc_malloc fuel s n = some (p, t) ∧ Tail t ∧
      t.heap_start = s.heap_start ∧ t.heap_size = s.heap_size ∧
      (p ≠ 0 → n ≤ NoSeg.openalloc_usable_size t p ∧
        NoSeg.openalloc_usable_size t p ≤ n + 54 ∧
        (8 ∣ s.heap_size - 32 → NoSeg.openalloc_usable_size t p ≤ n + 47)) := by
  obtain ⟨f, rfl⟩ : ∃ f, fuel = f + 2 := ⟨fuel - 2, by omega⟩
  have hW := W_eq
  by_cases h0 : n = 0
  · refine ⟨0, s, ?_, hT, rfl, rfl, fun h => absurd rfl h⟩
    unfold NoSeg.openalloc_malloc; rw [if_pos h0]
  · obtain ⟨ha1, ha2, ha3, ha4⟩ := align_size_bounds n hn
    unfold NoSeg.openalloc_malloc
    rw [if_neg h0]
    obtain ⟨hfit, hfl⟩ := hT
    rcases hfl with hfl | ⟨hp, hnx, hpv, hfr, hend, h8⟩
    · refine ⟨0, s, ?_, ⟨hfit, Or.inl hfl⟩, rfl, rfl, fun h => absurd rfl h⟩
      simp only [NoSeg.malloc_loop, hfl, if_true]
    · have hp0 : s.free_list ≠ 0 := by omega
      by_cases hfits : NoSeg.free s.mem s.free_list ≠ 0 ∧
          NoSeg.size s.mem s.free_list ≥ align_size n
      · obtain ⟨_, hfa⟩ := hfits
        have hszW := read64_lt s.mem s.free_list
        have hsz : NoSeg.size s.mem s.free_list = read64 s.mem s.free_list := rfl
        simp only [NoSeg.HDR] at hend h8
        rw [hsz] at hfa hend h8
        have e5 : get_block_doubly (s.free_list + 32) = s.free_list := by
          simp only [get_block_doubly, sub64, NoSeg.HDR, W]
          omega
        have hus : ∀ t : NoSeg.State,
            NoSeg.openalloc_usable_size t (s.free_list + 32) = read64 t.mem s.free_list := by
          intro t
          unfold NoSeg.openalloc_usable_size
          rw [if_neg (by omega), e5]
          rfl
        by_cases hs : align_size n + 48 ≤ read64 s.mem s.free_list
        · have hml := noseg_take_split s (align_size n) s.free_list (f + 1) hp0 rfl hfr
            (by omega) hs hnx
          refine ⟨_, _, hml, ⟨hfit, Or.inr ⟨by show 0 < s.free_list + 32 + align_size n; omega,
            ?_, ?_, ?_, ?_, ?_⟩⟩, rfl, rfl, fun _ => ?_⟩
          · simp only [NoSeg.next, NoSeg.set_free, NoSeg.set_prev, NoSeg.set_next, NoSeg.set_size]
            simp (disch := omega) only [read64_write64_ne, read64_write8_ne, read8_write64_ne,
              read8_write8_ne, read64_write64_eq, read8_write8_eq]
          · simp only [NoSeg.prev, NoSeg.set_free, NoSeg.set_prev, NoSeg.set_next, NoSeg.set_size]
            simp (disch := omega) only [read64_write64_ne, read64_write8_ne, read8_write64_ne,
              read8_write8_ne, read64_write64_eq, read8_write8_eq]
          · simp only [NoSeg.free, NoSeg.set_free, NoSeg.set_prev, NoSeg.set_next, NoSeg.set_size]
            simp (disch := omega) only [read64_write64_ne, read64_write8_ne, read8_write64_ne,
              read8_write8_ne, read64_write64_eq, read8_write8_eq]
            decide
          · simp only [NoSeg.size, NoSeg.set_free, NoSeg.set_prev, NoSeg.set_next, NoSeg.set_size,
              NoSeg.HDR]
            simp (disch := omega) only [read64_write64_ne, read64_write8_ne, read8_write64_ne,
              read8_write8_ne, read64_write64_eq, read8_write8_eq]
            omega
          · intro hd
            simp only [NoSeg.size, NoSeg.set_free, NoSeg.set_prev, NoSeg.set_next, NoSeg.set_size,
              NoSeg.HDR] at hd ⊢
            simp (disch := omega) only [read64_write64_ne, read64_write8_ne, read8_write64_ne,
              read8_write8_ne, read64_write64_eq, read8_write8_eq]
            have := h8 hd
            omega
          · rw [hus]
            simp only [NoSeg.set_free, NoSeg.set_prev, NoSeg.set_next, NoSeg.set_size]
            simp (disch := omega) only [read64_write64_ne, read64_write8_ne, read8_write64_ne,
              read8_write8_ne, read64_write64_eq, read8_write8_eq]
            omega
        · have hml := noseg_take_whole s (align_size n) s.free_list (f + 1) hp0 hfr
            (by omega) hfa hs hnx hpv
          refine ⟨_, _, hml, ⟨hfit, Or.inl rfl⟩, rfl, rfl, fun _ => ?_⟩
          rw [hus]
          simp only [NoSeg.set_free, NoSeg.set_prev, NoSeg.set_next, NoSeg.set_size]
          simp (disch := omega) only [read64_write64_ne, read64_write8_ne, read8_write64_ne,
            read8_write8_ne, read64_write64_eq, read8_write8_eq]
          refine ⟨by omega, by omega, ?_⟩
          intro hd
          have := h8 hd
          omega
      · refine ⟨0, s, ?_, ⟨hfit, Or.inr ⟨hp, hnx, hpv, hfr, hend, h8⟩⟩, rfl, rfl,
          fun h => absurd rfl h⟩
        simp only [NoSeg.malloc_loop, if_neg hp0, if_neg hfits, hnx, if_true]

/-- Coalescing build: what holds for one returned `openalloc_malloc` holds for
every fuel with which the call returns. -/
theorem noseg_malloc_tail_any (s : NoSeg.State) (hT : Tail s) (n : Nat) (hn : n + 8 ≤ W)
    (fuel p : Nat) (t : NoSeg.State) (h : NoSeg.openalloc_malloc fuel s n = some (p, t)) :
    Tail t ∧ t.heap_start = s.heap_start ∧ t.heap_size = s.heap_size ∧
      (p ≠ 0 → n ≤ NoSeg.openalloc_usable_size t p ∧
        NoSeg.openalloc_usable_size t p ≤ n + 54 ∧
        (8 ∣ s.heap_size - 32 → NoSeg.openalloc_usable_size t p ≤ n + 47)) := by
  obtain ⟨p1, t1, h1, h2⟩ := noseg_malloc_tail s hT n hn (fuel + 2) (by omega)
  have h3 : NoSeg.openalloc_malloc (fuel + 2) s n = some (p, t) := by
    unfold NoSeg.openalloc_malloc at h ⊢
    by_cases h0 : n = 0
    · simp only [if_pos h0] at h ⊢; exact h
    · simp only [if_neg h0] at h ⊢
      exact noseg_malloc_loop_mono s _ 2 _ fuel _ h
  rw [h3] at h1
  cases h1
  exact h2

/-- Coalescing build: in every state reached from an accepted `openalloc_init` by
`openalloc_malloc` calls the free list is empty or one block. -/
theorem noseg_reach_tail (m0 : Mem) (region L : Nat) (hfit : region + L < W)
    (s : NoSeg.State) (h : MallocReach m0 region L s) :
    Tail s ∧ s.heap_start = region ∧ s.heap_size = L := by
  induction h with
  | init h0 =>
    have hc : ¬ (region = 0 ∨ L < OPENALLOC_MIN_BLOCK + NoSeg.HDR) := by
      intro hc
      unfold NoSeg.openalloc_init at h0
      rw [if_pos hc] at h0
      cases h0
    simp only [OPENALLOC_MIN_BLOCK, NoSeg.HDR] at hc
    have hr : region ≠ 0 := fun h => hc (Or.inl h)
    have hW := W_eq
    obtain ⟨h1, h2, h3, h4, h5, h6, h7⟩ :=
      noseg_init_fields (NoSeg.boot m0) region L hr (by omega) (by omega)
    refine ⟨⟨by rw [h1, h2]; exact hfit, Or.inr ?_⟩, h1, h2⟩
    rw [h3, h4, h5, h6, h7, h1, h2]
    refine ⟨by omega, rfl, rfl, by decide, ?_, fun h => h⟩
    simp only [NoSeg.HDR]
    omega
  | malloc fuel s n p t _ hn hm ih =>
    obtain ⟨h1, h2, h3, _⟩ := noseg_malloc_tail_any s ih.1 n hn fuel p t hm
    exact ⟨h1, by rw [h2]; exact ih.2.1, by rw [h3]; exact ih.2.2⟩

/-- Coalescing build: a request that the single free block of the arena fits without
room for a split takes the whole block, and the same request then fails. -/
theorem noseg_malloc_whole (s : NoSeg.State) (region L n f : Nat) (hr : region ≠ 0)
    (hfit : region + L < W)
    (h1 : s.heap_start = region) (h2 : s.heap_size = L) (h3 : s.free_list = region)
    (h5 : NoSeg.size s.mem region = L - 32) (h6 : NoSeg.free s.mem region = 1)
    (h7 : NoSeg.next s.mem region = 0) (h8 : NoSeg.prev s.mem region = 0)
    (hn : 0 < n) (hlo : align8 n + 32 ≤ L) (hhi : L < align8 n + 2 * 32 + 16) :
    ∃ t, NoSeg.openalloc_malloc (f + 1) s n = some (region + 32, t) ∧
      NoSeg.openalloc_usable_size t (region + 32) = L - 32 ∧
      NoSeg.free t.mem region = 0 ∧
      NoSeg.walk_blocks (f + 2) t t.heap_start = some [region] ∧
      NoSeg.openalloc_malloc (f + 1) t n = some (0, t) := by
  have hW := W_eq
  have hn8 : n ≤ align8 n := by unfold align8; omega
  have ha : align_size n = align8 n := align_size_eq n (by omega)
  have h5r : read64 s.mem region = L - 32 := h5
  have hgb : get_block_doubly (region + 32) = region := by
    simp only [get_block_doubly, sub64, NoSeg.HDR, W]; omega
  have hm1 : NoSeg.openalloc_malloc (f + 1) s n = some (region + 32,
      { mem := NoSeg.set_prev (NoSeg.set_next (NoSeg.set_free s.mem region 0) region 0) region 0,
        free_list := 0, heap_start := s.heap_start, heap_size := s.heap_size }) := by
    unfold NoSeg.openalloc_malloc
    rw [if_neg (by omega), ha, h3]
    exact noseg_take_whole s (align8 n) region f hr (by rw [h6]; omega) (by rw [h5r]; omega)
      (by rw [h5r]; omega) (by rw [h5r]; omega) h7 h8
  have hs5 : NoSeg.size (NoSeg.set_prev (NoSeg.set_next (NoSeg.set_free s.mem region 0)
      region 0) region 0) region = L - 32 := by
    simp only [NoSeg.size, NoSeg.set_prev, NoSeg.set_next, NoSeg.set_free] at h5 ⊢
    simp (disch := omega) only [read64_write64_ne, read64_write8_ne]
    exact h5
  refine ⟨_, hm1, ?_, ?_, ?_, ?_⟩
  · unfold NoSeg.openalloc_usable_size
    rw [if_neg (by omega), hgb]
    exact hs5
  · simp only [NoSeg.free, NoSeg.set_prev, NoSeg.set_next, NoSeg.set_free]
    simp (disch := omega) only [read8_write64_ne, read8_write8_eq]
  · have e1 : add64 region L = region + L := by
      simp only [add64]; exact Nat.mod_eq_of_lt hfit
    have e2 : add64 (add64 region NoSeg.HDR) (L - 32) = region + L := by
      simp only [add64, NoSeg.HDR, W]; omega
    simp only [NoSeg.walk_blocks, h1, h2, hs5, e1, e2]
    rw [if_pos (by omega), if_neg (by omega)]
    rfl
  · unfold NoSeg.openalloc_malloc
    rw [if_neg (by omega)]
    simp only [NoSeg.malloc_loop, if_true]

/-- The tiling of the coalescing build is the tiling of the segregated build with
the 8 more header bytes counted in the size. -/
theorem noseg_tiles_iff (sz : Nat → Nat) (e : Nat) : ∀ (bs : List Nat) (a : Nat),
    NoSeg.Tiles sz e a bs ↔ Seg.Tiles (fun b => sz b + 8) e a bs := by
  intro bs
  induction bs with
  | nil => intro a; rfl
  | cons b bs ih =>
    intro a
    simp only [NoSeg.Tiles, Seg.Tiles]
    have e1 : a + NoSeg.HDR + sz a = a + Seg.HDR + (sz a + 8) := by
      simp only [NoSeg.HDR, Seg.HDR]; omega
    rw [e1, ih]

/-- The arena walk of a tiled arena visits the blocks of the tiling. -/
theorem noseg_walk_of_tiles (s : NoSeg.State) (heW : s.heap_start + s.heap_size < W) :
    ∀ (bs : List Nat) (a : Nat),
    NoSeg.Tiles (NoSeg.size s.mem) (s.heap_start + s.heap_size) a bs →
    ∀ fuel, bs.length < fuel → NoSeg.walk_blocks fuel s a = some bs := by
  have he : add64 s.heap_start s.heap_size = s.heap_start + s.heap_size := by
    simp only [add64]; exact Nat.mod_eq_of_lt heW
  intro bs
  induction bs with
  | nil =>
    intro a h fuel hf
    simp only [NoSeg.Tiles] at h
    obtain ⟨f, rfl⟩ : ∃ f, fuel = f + 1 := ⟨fuel - 1, by simp at hf; omega⟩
    simp only [NoSeg.walk_blocks, he]
    rw [if_neg (by omega)]
  | cons b bs ih =>
    intro a h fuel hf
    simp only [NoSeg.Tiles] at h
    obtain ⟨hb, ht⟩ := h
    have hle := seg_tiles_le _ _ _ _ ((noseg_tiles_iff _ _ _ _).mp ht)
    obtain ⟨f, rfl⟩ : ∃ f, fuel = f + 1 := ⟨fuel - 1, by simp at hf; omega⟩
    have e1 : add64 (add64 a NoSeg.HDR) (NoSeg.size s.mem a)
        = a + NoSeg.HDR + NoSeg.size s.mem a := by
      simp only [add64]
      rw [Nat.mod_eq_of_lt (a := a + NoSeg.HDR) (by omega), Nat.mod_eq_of_lt (by omega)]
    have hlt : a < s.heap_start + s.heap_size := by simp only [NoSeg.HDR] at hle; omega
    simp only [NoSeg.walk_blocks, he, e1]
    rw [if_pos hlt, ih _ ht f (by simp at hf; omega), hb]
    rfl

/-- Under the invariant the arena walk visits the blocks of the invariant, and in an
arena whose payload is a multiple of 8 the size of every block and the usable size
of every live pointer are multiples of 8. -/
theorem noseg_minv_mult8 (s : NoSeg.State) (live bs : List Nat) (hI : MInv s live bs)
    (fuel : Nat) (hf : s.heap_size < fuel) :
    NoSeg.walk_blocks fuel s s.heap_start = some bs ∧
    (8 ∣ s.heap_size - NoSeg.HDR →
      (∀ b ∈ bs, 8 ∣ NoSeg.size s.mem b) ∧
      ∀ p ∈ live, 8 ∣ NoSeg.openalloc_usable_size s p) := by
  have hT := (noseg_tiles_iff _ _ _ _).mp hI.tiles
  have hlen := seg_tiles_length _ _ _ _ hT
  refine ⟨noseg_walk_of_tiles s hI.fits bs _ hI.tiles fuel
    (by simp only [Seg.HDR] at hlen; omega), ?_⟩
  intro h8
  have hm := hI.mult8 h8
  refine ⟨hm, ?_⟩
  intro p hp
  obtain ⟨b, hb, hpb, _⟩ := hI.live_blocks p hp
  have h1 := (seg_tiles_mem _ _ _ _ b hT hb).2
  have h2 := hI.fits
  have hW := W_eq
  simp only [Seg.HDR, NoSeg.HDR] at h1 h2 hpb
  have hgb : get_block_doubly p = b := by
    simp only [get_block_doubly, sub64, NoSeg.HDR, W]; omega
  unfold NoSeg.openalloc_usable_size
  rw [if_neg (by omega), hgb]
  exact hm b hb

/-- Coalescing build: `openalloc_malloc` with fuel 2 keeps the invariant; a non-null
result joins the live pointers. -/
theorem noseg_malloc_minv (s : NoSeg.State) (live bs : List Nat) (hI : MInv s live bs)
    (n : Nat) (hn : n + 8 ≤ W) (f : Nat) :
    ∃ p t, NoSeg.openalloc_malloc (f + 2) s n = some (p, t) ∧
      t.heap_start = s.heap_start ∧ t.heap_size = s.heap_size ∧
      ∃ bs1, MInv t (if p = 0 then live else p :: live) bs1 := by
  have hW := W_eq
  by_cases h0 : n = 0
  · refine ⟨0, s, ?_, rfl, rfl, bs, by rw [if_pos rfl]; exact hI⟩
    unfold NoSeg.openalloc_malloc; rw [if_pos h0]
  · obtain ⟨ha1, ha2, ha3, ha4⟩ := align_size_bounds n hn
    unfold NoSeg.openalloc_malloc
    rw [if_neg h0]
    have hT := (noseg_tiles_iff _ _ _ _).mp hI.tiles
    have hfits := hI.fits
    rcases hI.tail with hfl | ⟨hbm, hend, hnx, hpv, hfr⟩
    · refine ⟨0, s, ?_, rfl, rfl, bs, by rw [if_pos rfl]; exact hI⟩
      simp only [NoSeg.malloc_loop, hfl, if_true]
    · have hp0 : s.free_list ≠ 0 := by
        have := (seg_tiles_mem _ _ _ _ _ hT hbm).1
        have := hI.base_pos
        omega
      by_cases hfit : NoSeg.free s.mem s.free_list ≠ 0 ∧
          NoSeg.size s.mem s.free_list ≥ align_size n
      · obtain ⟨_, hfa⟩ := hfit
        have hsz : NoSeg.size s.mem s.free_list = read64 s.mem s.free_list := rfl
        simp only [NoSeg.HDR] at hend
        rw [hsz] at hfa hend
        have hsep : ∀ y ∈ bs, y ≠ s.free_list →
            y + 32 + read64 s.mem y ≤ s.free_list := by
          intro y hy hne
          have h1 := seg_tiles_sep _ _ _ _ y s.free_list hT hy hbm hne
          have h2 := (seg_tiles_mem _ _ _ _ _ hT hy).2
          simp only [Seg.HDR, NoSeg.size] at h1 h2
          omega
        have hp1 : ¬ s.free_list + 32 = 0 := by omega
        by_cases hs : align_size n + 48 ≤ read64 s.mem s.free_list
        · have hml := noseg_take_split s (align_size n) s.free_list (f + 1) hp0 rfl hfr
            (by omega) hs hnx
          refine ⟨_, _, hml, rfl, rfl,
            Seg.insertAfter s.free_list (s.free_list + 32 + align_size n) bs, ?_⟩
          rw [if_neg hp1]
          have hfrm : ∀ y ∈ bs, y ≠ s.free_list →
              NoSeg.size (NoSeg.set_prev (NoSeg.set_next (NoSeg.set_next (NoSeg.set_free
                (NoSeg.set_prev (NoSeg.set_next (NoSeg.set_size (NoSeg.set_prev (NoSeg.set_next
                (NoSeg.set_free (NoSeg.set_size s.mem (s.free_list + 32 + align_size n)
                  (read64 s.mem s.free_list - align_size n - 32))
                (s.free_list + 32 + align_size n) 1) (s.free_list + 32 + align_size n) 0)
                (s.free_list + 32 + align_size n) 0) s.free_list (align_size n))
                (s.free_list + 32 + align_size n) s.free_list) s.free_list
                (s.free_list + 32 + align_size n)) s.free_list 0)
                (s.free_list + 32 + align_size n) 0) s.free_list 0) s.free_list 0) y
              = NoSeg.size s.mem y := by
            intro y hy hne
            have := hsep y hy hne
            simp only [NoSeg.size, NoSeg.set_free, NoSeg.set_prev, NoSeg.set_next,
              NoSeg.set_size]
            simp (disch := omega) only [read64_write64_ne, read64_write8_ne]
          have hsb : NoSeg.size (NoSeg.set_prev (NoSeg.set_next (NoSeg.set_next (NoSeg.set_free
                (NoSeg.set_prev (NoSeg.set_next (NoSeg.set_size (NoSeg.set_prev (NoSeg.set_next
                (NoSeg.set_free (NoSeg.set_size s.mem (s.free_list + 32 + align_size n)
                  (read64 s.mem s.free_list - align_size n - 32))
                (s.free_list + 32 + align_size n) 1) (s.free_list + 32 + align_size n) 0)
                (s.free_list + 32 + align_size n) 0) s.free_list (align_size n))
                (s.free_list + 32 + align_size n) s.free_list) s.free_list
                (s.free_list + 32 + align_size n)) s.free_list 0)
                (s.free_list + 32 + align_size n) 0) s.free_list 0) s.free_list 0) s.free_list
              = align_size n := by
            simp only [NoSeg.size, NoSeg.set_free, NoSeg.set_prev, NoSeg.set_next,
              NoSeg.set_size]
            simp (disch := omega) only [read64_write64_ne, read64_write8_ne,
              read64_write64_eq]
          have hsn : NoSeg.size (NoSeg.set_prev (NoSeg.set_next (NoSeg.set_next (NoSeg.set_free
                (NoSeg.set_prev (NoSeg.set_next (NoSeg.set_size (NoSeg.set_prev (NoSeg.set_next
                (NoSeg.set_free (NoSeg.set_size s.mem (s.free_list + 32 + align_size n)
                  (read64 s.mem s.free_list - align_size n - 32))
                (s.free_list + 32 + align_size n) 1) (s.free_list + 32 + align_size n) 0)
                (s.free_list + 32 + align_size n) 0) s.free_list (align_size n))
                (s.free_list + 32 + align_size n) s.free_list) s.free_list
                (s.free_list + 32 + align_size n)) s.free_list 0)
                (s.free_list + 32 + align_size n) 0) s.free_list 0) s.free_list 0)
                (s.free_list + 32 + align_size n)
              = read64 s.mem s.free_list - align_size n - 32 := by
            simp only [NoSeg.size, NoSeg.set_free, NoSeg.set_prev, NoSeg.set_next,
              NoSeg.set_size]
            simp (disch := omega) only [read64_write64_ne, read64_write8_ne,
              read64_write64_eq]
          have hffr : ∀ y ∈ bs, y ≠ s.free_list →
              NoSeg.free (NoSeg.set_prev (NoSeg.set_next (NoSeg.set_next (NoSeg.set_free
                (NoSeg.set_prev (NoSeg.set_next (NoSeg.set_size (NoSeg.set_prev (NoSeg.set_next
                (NoSeg.set_free (NoSeg.set_size s.mem (s.free_list + 32 + align_size n)
                  (read64 s.mem s.free_list - align_size n - 32))
                (s.free_list + 32 + align_size n) 1) (s.free_list + 32 + align_size n) 0)
                (s.free_list + 32 + align_size n) 0) s.free_list (align_size n))
                (s.free_list + 32 + align_size n) s.free_list) s.free_list
                (s.free_list + 32 + align_size n)) s.free_list 0)
                (s.free_list + 32 + align_size n) 0) s.free_list 0) s.free_list 0) y
              = NoSeg.free s.mem y := by
            intro y hy hne
            have := hsep y hy hne
            simp only [NoSeg.free, NoSeg.set_free, NoSeg.set_prev, NoSeg.set_next,
              NoSeg.set_size]
            simp (disch := omega) only [read8_write64_ne, read8_write8_ne]
          have hfb : NoSeg.free (NoSeg.set_prev (NoSeg.set_next (NoSeg.set_next (NoSeg.set_free
                (NoSeg.set_prev (NoSeg.set_next (NoSeg.set_size (NoSeg.set_prev (NoSeg.set_next
                (NoSeg.set_free (NoSeg.set_size s.mem (s.free_list + 32 + align_size n)
                  (read64 s.mem s.free_list - align_size n - 32))
                (s.free_list + 32 + align_size n) 1) (s.free_list + 32 + align_size n) 0)
                (s.free_list + 32 + align_size n) 0) s.free_list (align_size n))
                (s.free_list + 32 + align_size n) s.free_list) s.free_list
                (s.free_list + 32 + align_size n)) s.free_list 0)
                (s.free_list + 32 + align_size n) 0) s.free_list 0) s.free_list 0) s.free_list
              = 0 := by
            simp only [NoSeg.free, NoSeg.set_free, NoSeg.set_prev, NoSeg.set_next,
              NoSeg.set_size]
            simp (disch := omega) only [read8_write64_ne, read8_write8_ne, read8_write8_eq]
          refine ⟨hI.base_pos, hfits, ?_, Or.inr ⟨?_, ?_, ?_, ?_, ?_⟩, ?_, ?_, ?_⟩
          · apply (noseg_tiles_iff _ _ _ _).mpr
            refine seg_tiles_split _ _ _ s.free_list (s.free_list + 32 + align_size n)
              (align_size n + 8) (read64 s.mem s.free_list - align_size n - 32 + 8)
              (by simp only [Seg.HDR]; omega) ?_ ?_ ?_ bs _ hT hbm ?_
            · show NoSeg.size _ s.free_list + 8 = _
              rw [hsb]
            · show NoSeg.size _ (s.free_list + 32 + align_size n) + 8 = _
              rw [hsn]
            · show _ = NoSeg.size s.mem s.free_list + 8
              simp only [Seg.HDR, NoSeg.size]; omega
            · intro y hy hne
              show NoSeg.size _ y + 8 = NoSeg.size s.mem y + 8
              rw [hfrm y hy hne]
          · show s.free_list + 32 + align_size n ∈ _
            exact (seg_mem_insertAfter _ _ _ _).mpr (Or.inr ⟨rfl, hbm⟩)
          · show s.free_list + 32 + align_size n + NoSeg.HDR + NoSeg.size _ _ = _
            rw [hsn]
            simp only [NoSeg.HDR]; omega
          · simp only [NoSeg.next, NoSeg.set_free, NoSeg.set_prev, NoSeg.set_next, NoSeg.set_size]
            simp (disch := omega) only [read64_write64_ne, read64_write8_ne, read8_write64_ne,
              read8_write8_ne, read64_write64_eq, read8_write8_eq]
          · simp only [NoSeg.prev, NoSeg.set_free, NoSeg.set_prev, NoSeg.set_next, NoSeg.set_size]
            simp (disch := omega) only [read64_write64_ne, read64_write8_ne, read8_write64_ne,
              read8_write8_ne, read64_write64_eq, read8_write8_eq]
          · simp only [NoSeg.free, NoSeg.set_free, NoSeg.set_prev, NoSeg.set_next, NoSeg.set_size]
            simp (disch := omega) only [read64_write64_ne, read64_write8_ne, read8_write64_ne,
              read8_write8_ne, read64_write64_eq, read8_write8_eq]
            decide
          · intro y hy hne
            rcases (seg_mem_insertAfter _ _ _ _).mp hy with hy | ⟨hy, _⟩
            · by_cases hyb : y = s.free_list
              · show NoSeg.free _ y = 0
                rw [hyb]; exact hfb
              · show NoSeg.free _ y = 0
                rw [hffr y hy hyb]; exact hI.alloc y hy hyb
            · exact absurd hy hne
          · intro p hp
            rcases List.mem_cons.mp hp with hp | hp
            · exact ⟨s.free_list, (seg_mem_insertAfter _ _ _ _).mpr (Or.inl hbm), hp, hfb⟩
            · obtain ⟨b, hb, hpb, hb0⟩ := hI.live_blocks p hp
              have hne : b ≠ s.free_list := fun h => hfr (by rw [← h]; exact hb0)
              refine ⟨b, (seg_mem_insertAfter _ _ _ _).mpr (Or.inl hb), hpb, ?_⟩
              show NoSeg.free _ b = 0
              rw [hffr b hb hne]; exact hb0
          · intro h8 y hy
            have hm := hI.mult8 h8
            have hm0 := hm s.free_list hbm
            rw [hsz] at hm0
            rcases (seg_mem_insertAfter _ _ _ _).mp hy with hy | ⟨hy, _⟩
            · by_cases hne : y = s.free_list
              · show 8 ∣ NoSeg.size _ y
                rw [hne, hsb]; exact ha3
              · show 8 ∣ NoSeg.size _ y
                rw [hfrm y hy hne]; exact hm y hy
            · show 8 ∣ NoSeg.size _ y
              rw [hy, hsn]
              omega
        · have hml := noseg_take_whole s (align_size n) s.free_list (f + 1) hp0 hfr
            (by omega) hfa hs hnx hpv
          refine ⟨_, _, hml, rfl, rfl, bs, ?_⟩
          rw [if_neg hp1]
          have hfrm : ∀ y ∈ bs,
              NoSeg.size (NoSeg.set_prev (NoSeg.set_next (NoSeg.set_free s.mem s.free_list 0)
                s.free_list 0) s.free_list 0) y = NoSeg.size s.mem y := by
            intro y hy
            by_cases hne : y = s.free_list
            · rw [hne]
              simp only [NoSeg.size, NoSeg.set_free, NoSeg.set_prev, NoSeg.set_next]
              simp (disch := omega) only [read64_write64_ne, read64_write8_ne]
            · have := hsep y hy hne
              simp only [NoSeg.size, NoSeg.set_free, NoSeg.set_prev, NoSeg.set_next]
              simp (disch := omega) only [read64_write64_ne, read64_write8_ne]
          have hffr : ∀ y ∈ bs, y ≠ s.free_list →
              NoSeg.free (NoSeg.set_prev (NoSeg.set_next (NoSeg.set_free s.mem s.free_list 0)
                s.free_list 0) s.free_list 0) y = NoSeg.free s.mem y := by
            intro y hy hne
            have := hsep y hy hne
            simp only [NoSeg.free, NoSeg.set_free, NoSeg.set_prev, NoSeg.set_next]
            simp (disch := omega) only [read8_write64_ne, read8_write8_ne]
          have hfb : NoSeg.free (NoSeg.set_prev (NoSeg.set_next
              (NoSeg.set_free s.mem s.free_list 0) s.free_list 0) s.free_list 0) s.free_list
              = 0 := by
            simp only [NoSeg.free, NoSeg.set_free, NoSeg.set_prev, NoSeg.set_next]
            simp (disch := omega) only [read8_write64_ne, read8_write8_ne, read8_write8_eq]
          have hall : ∀ y ∈ bs, NoSeg.free s.mem y = 0 → y ≠ s.free_list :=
            fun y _ hy0 h => hfr (by rw [← h]; exact hy0)
          refine ⟨hI.base_pos, hfits, ?_, Or.inl rfl, ?_, ?_, ?_⟩
          · apply (noseg_tiles_iff _ _ _ _).mpr
            refine seg_tiles_congr _ _ _ bs _ ?_ hT
            intro y hy
            show NoSeg.size _ y + 8 = NoSeg.size s.mem y + 8
            rw [hfrm y hy]
          · intro y hy _
            show NoSeg.free _ y = 0
            by_cases hyb : y = s.free_list
            · rw [hyb]; exact hfb
            · rw [hffr y hy hyb]; exact hI.alloc y hy hyb
          · intro p hp
            rcases List.mem_cons.mp hp with hp | hp
            · exact ⟨s.free_list, hbm, hp, hfb⟩
            · obtain ⟨b, hb, hpb, hb0⟩ := hI.live_blocks p hp
              refine ⟨b, hb, hpb, ?_⟩
              show NoSeg.free _ b = 0
              rw [hffr b hb (hall b hb hb0)]; exact hb0
          · intro h8 y hy
            show 8 ∣ NoSeg.size _ y
            rw [hfrm y hy]
            exact hI.mult8 h8 y hy
      · refine ⟨0, s, ?_, rfl, rfl, bs, by rw [if_pos rfl]; exact hI⟩
        simp only [NoSeg.malloc_loop, if_neg hp0, if_neg hfit, hnx, if_true]

/-- Coalescing build: every returned `openalloc_malloc` keeps the invariant. -/
theorem noseg_malloc_minv_any (s : NoSeg.State) (live bs : List Nat) (hI : MInv s live bs)
    (n : Nat) (hn : n + 8 ≤ W) (fuel p : Nat) (t : NoSeg.State)
    (h : NoSeg.openalloc_malloc fuel s n = some (p, t)) :
    t.heap_start = s.heap_start ∧ t.heap_size = s.heap_size ∧
      ∃ bs1, MInv t (if p = 0 then live else p :: live) bs1 := by
  obtain ⟨p1, t1, h1, h2⟩ := noseg_malloc_minv s live bs hI n hn fuel
  have h3 : NoSeg.openalloc_malloc (fuel + 2) s n = some (p, t) := by
    unfold NoSeg.openalloc_malloc at h ⊢
    by_cases h0 : n = 0
    · simp only [if_pos h0] at h ⊢; exact h
    · simp only [if_neg h0] at h ⊢
      exact noseg_malloc_loop_mono s _ 2 _ fuel _ h
  rw [h3] at h1
  cases h1
  exact h2

/-- Coalescing build: the invariant holds for every caller reached from an accepted
`openalloc_init` by `openalloc_malloc` calls. -/
theorem noseg_run_minv (m0 : Mem) (region L : Nat) (hfit : region + L < W)
    (c : NoSeg.Client) (h : MallocRun m0 region L c) :
    (∃ bs, MInv c.st c.live bs) ∧ c.st.heap_start = region ∧ c.st.heap_size = L := by
  induction h with
  | init h0 =>
    obtain ⟨hr, hL⟩ := (noseg_init_ret (NoSeg.boot m0) region L).1.mp h0
    have hW := W_eq
    obtain ⟨h1, h2, h3, h4, h5, h6, h7⟩ :=
      noseg_init_fields (NoSeg.boot m0) region L hr (by omega) hL
    have hs : (NoSeg.start m0 region L).st = (NoSeg.openalloc_init (NoSeg.boot m0) region L).2 :=
      rfl
    have hl : (NoSeg.start m0 region L).live = [] := rfl
    rw [hs, hl]
    refine ⟨⟨[region], ?_, ?_, ?_, Or.inr ?_, ?_, ?_, ?_⟩, h1, h2⟩
    · rw [h1]; omega
    · rw [h1, h2]; exact hfit
    · rw [h1, h2]
      simp only [NoSeg.Tiles, h4, NoSeg.HDR, true_and]
      omega
    · rw [h3, h4, h5, h6, h7, h1, h2]
      refine ⟨List.mem_singleton.mpr rfl, ?_, rfl, rfl, by decide⟩
      simp only [NoSeg.HDR]; omega
    · intro b hb hne
      rw [h3] at hne
      exact absurd (List.mem_singleton.mp hb) hne
    · intro p hp; cases hp
    · intro h8 b hb
      rw [h2] at h8
      rw [List.mem_singleton.mp hb, h4]
      exact h8
  | malloc fuel c n r c1 _ hn hm ih =>
    obtain ⟨⟨bs, hI⟩, i1, i2⟩ := ih
    simp only [NoSeg.step, Option.map_eq_some'] at hm
    obtain ⟨⟨p, t⟩, hm1, hm2⟩ := hm
    obtain ⟨h1, h2, bs1, h3⟩ := noseg_malloc_minv_any c.st c.live bs hI n hn fuel p t hm1
    have hr : r = p := (congrArg Prod.fst hm2).symm
    have hc : c1 = { st := t, live := if p = 0 then c.live else p :: c.live } :=
      (congrArg Prod.snd hm2).symm
    rw [hc]
    exact ⟨⟨bs1, h3⟩, by show t.heap_start = region; rw [h1]; exact i1,
      by show t.heap_size = L; rw [h2]; exact i2⟩

/-- Coalescing build: when the scan of `openalloc_malloc` returns `NULL`, the state
is the one it started from. -/
theorem noseg_malloc_loop_null (s : NoSeg.State) (a : Nat)
    (hlast : NoSeg.free s.mem (W - NoSeg.HDR) = 0) :
    ∀ (fuel blk : Nat) (t : NoSeg.State), blk < W →
    NoSeg.malloc_loop fuel s a blk = some (0, t) → t = s := by
  have hW := W_eq
  intro fuel
  induction fuel with
  | zero => intro blk t _ h; simp only [NoSeg.malloc_loop] at h; cases h
  | succ f ih =>
    intro blk t hblk h
    simp only [NoSeg.malloc_loop] at h
    by_cases h0 : blk = 0
    · rw [if_pos h0] at h
      injection h with h
      injection h with _ h2
      exact h2.symm
    · rw [if_neg h0] at h
      by_cases hf : NoSeg.free s.mem blk ≠ 0 ∧ NoSeg.size s.mem blk ≥ a
      · rw [if_pos hf] at h
        injection h with h
        injection h with h1 _
        exfalso
        have : blk = W - NoSeg.HDR := by
          simp only [get_data_doubly, add64, NoSeg.HDR, W] at h1 ⊢
          omega
        rw [this] at hf
        exact hf.1 hlast
      · rw [if_neg hf] at h
        exact ih _ t (read64_lt _ _) h

/-- In a tiling the end of a block is the end of the tiling or the next block. -/
theorem seg_tiles_succ (sz : Nat → Nat) (e : Nat) : ∀ (bs : List Nat) (a b : Nat),
    Seg.Tiles sz e a bs → b ∈ bs → b + Seg.HDR + sz b = e ∨ b + Seg.HDR + sz b ∈ bs := by
  intro bs
  induction bs with
  | nil => intro a b _ hb; simp at hb
  | cons x bs ih =>
    intro a b h hb
    simp only [Seg.Tiles] at h
    obtain ⟨hx, ht⟩ := h
    rcases List.mem_cons.mp hb with hbx | hbr
    · rw [hbx, hx]
      cases bs with
      | nil => left; simpa [Seg.Tiles] using ht
      | cons y ys =>
        simp only [Seg.Tiles] at ht
        right
        rw [← ht.1]
        exact List.mem_cons_of_mem _ (List.mem_cons_self _ _)
    · rcases ih _ b ht hbr with h1 | h1
      · left; exact h1
      · right; exact List.mem_cons_of_mem _ h1

/-- The header address of a pointer is below `2 ^ 64`. -/
theorem noseg_get_block_lt (p : Nat) : get_block_doubly p < W := by
  unfold get_block_doubly sub64
  exact Nat.mod_lt _ (by rw [W_eq]; omega)

/-- The search of `coalesce_block_doubly` for a free predecessor finds none when the
blocks in front of `block` tile the arena and have `free` clear. -/
theorem noseg_find_prev_none (s : NoSeg.State) (sz : Nat → Nat) (e b : Nat) (heW : e < W) :
    ∀ (bs : List Nat) (a : Nat), Seg.Tiles (fun x => sz x + 8) e a bs → b ∈ bs →
    (∀ y ∈ bs, y < b → NoSeg.size s.mem y = sz y ∧ NoSeg.free s.mem y = 0) →
    ∀ fuel, bs.length < fuel → find_prev fuel s b a = some 0 := by
  intro bs
  induction bs with
  | nil => intro a _ hb; simp at hb
  | cons x bs ih =>
    intro a h hb hag fuel hf
    simp only [Seg.Tiles] at h
    obtain ⟨hx, ht⟩ := h
    obtain ⟨f, rfl⟩ : ∃ f, fuel = f + 1 := ⟨fuel - 1, by simp at hf; omega⟩
    simp only [find_prev]
    rcases List.mem_cons.mp hb with hbx | hbr
    · rw [if_neg (by omega)]
    · have h1 := (seg_tiles_mem _ _ _ _ b ht hbr).1
      have h2 := (seg_tiles_mem _ _ _ _ b ht hbr).2
      simp only [Seg.HDR] at h1 h2
      have hab : a < b := by omega
      obtain ⟨hs1, hs2⟩ := hag a (by rw [← hx]; exact List.mem_cons_self _ _) hab
      have e1 : add64 (add64 a NoSeg.HDR) (NoSeg.size s.mem a) = a + 24 + (sz a + 8) := by
        rw [hs1]
        simp only [add64, NoSeg.HDR]
        rw [Nat.mod_eq_of_lt (a := a + 32) (by omega), Nat.mod_eq_of_lt (by omega)]
        omega
      rw [if_pos hab, e1, if_neg (by rw [hs2]; simp)]
      exact ih _ ht hbr (fun y hy hyb => hag y (List.mem_cons_of_mem _ hy) hyb) f
        (by simp at hf; omega)

/-- Coalescing build: `openalloc_free` when `coalesce_block_doubly` finds no free
neighbour: the block is pushed on the free list. -/
theorem noseg_free_plain (s : NoSeg.State) (p fuel : Nat) (hp : p ≠ 0)
    (hnx : ¬ (add64 (add64 (get_block_doubly p) NoSeg.HDR)
          (NoSeg.size (NoSeg.set_free s.mem (get_block_doubly p) 1) (get_block_doubly p))
        < add64 s.heap_start s.heap_size ∧
      NoSeg.free (NoSeg.set_free s.mem (get_block_doubly p) 1)
        (add64 (add64 (get_block_doubly p) NoSeg.HDR)
          (NoSeg.size (NoSeg.set_free s.mem (get_block_doubly p) 1) (get_block_doubly p)))
        ≠ 0))
    (hfp : find_prev fuel { s with mem := NoSeg.set_free s.mem (get_block_doubly p) 1 }
      (get_block_doubly p) s.heap_start = some 0) :
    NoSeg.openalloc_free fuel s p = some
      { s with
        mem := if s.free_list ≠ 0 then
            NoSeg.set_prev (NoSeg.set_prev (NoSeg.set_next
              (NoSeg.set_free s.mem (get_block_doubly p) 1) (get_block_doubly p) s.free_list)
              (get_block_doubly p) 0) s.free_list (get_block_doubly p)
          else NoSeg.set_prev (NoSeg.set_next
              (NoSeg.set_free s.mem (get_block_doubly p) 1) (get_block_doubly p) s.free_list)
              (get_block_doubly p) 0
        free_list := get_block_doubly p } := by
  have hfr : ¬ NoSeg.free (NoSeg.set_free s.mem (get_block_doubly p) 1) (get_block_doubly p)
      = 0 := by
    simp only [NoSeg.free, NoSeg.set_free]
    rw [read8_write8_eq]
    decide
  have hc : coalesce_block_doubly fuel
      { s with mem := NoSeg.set_free s.mem (get_block_doubly p) 1 } (get_block_doubly p)
      = some { s with mem := NoSeg.set_free s.mem (get_block_doubly p) 1 } := by
    unfold coalesce_block_doubly
    simp only [if_neg hfr, if_neg hnx, hfp]
    rfl
  unfold NoSeg.openalloc_free
  rw [if_neg hp]
  simp only [hc]

/-- Coalescing build: `openalloc_free` when the physical successor `nxt` of the block
is the only node of the free list: the successor leaves the list, the block takes
over its bytes and is pushed on the empty list. -/
theorem noseg_free_merge_next (s : NoSeg.State) (p fuel b nxt merged : Nat) (m : Mem)
    (hp : p ≠ 0) (hb : get_block_doubly p = b) (hm : m = NoSeg.set_free s.mem b 1)
    (hnxt : nxt = add64 (add64 b NoSeg.HDR) (NoSeg.size m b))
    (hmg : merged = add64 (NoSeg.size m b) (add64 (NoSeg.size m nxt) NoSeg.HDR))
    (hlt : nxt < add64 s.heap_start s.heap_size) (hfr : NoSeg.free m nxt ≠ 0)
    (hpv : NoSeg.prev m nxt = 0) (hnn : NoSeg.next m nxt = 0)
    (hfp : find_prev fuel
      { s with mem := NoSeg.set_size m b merged, free_list := 0 } b s.heap_start = some 0) :
    NoSeg.openalloc_free fuel s p = some
      { s with
        mem := NoSeg.set_prev (NoSeg.set_next (NoSeg.set_size m b merged) b 0) b 0
        free_list := b } := by
  subst hm
  have hfb : ¬ NoSeg.free (NoSeg.set_free s.mem b 1) b = 0 := by
    simp only [NoSeg.free, NoSeg.set_free]
    rw [read8_write8_eq]
    decide
  have hu : unlink { s with mem := NoSeg.set_free s.mem b 1 } nxt
      = { s with mem := NoSeg.set_free s.mem b 1, free_list := 0 } :=
    noseg_unlink_only { s with mem := NoSeg.set_free s.mem b 1 } nxt hpv hnn
  have hc : coalesce_block_doubly fuel { s with mem := NoSeg.set_free s.mem b 1 } b
      = some { s with
          mem := NoSeg.set_size (NoSeg.set_free s.mem b 1) b merged
          free_list := 0 } := by
    unfold coalesce_block_doubly
    simp only [if_neg hfb, ← hnxt, if_pos (And.intro hlt hfr), hu, ← hmg, hfp]
    rfl
  unfold NoSeg.openalloc_free
  rw [if_neg hp, hb]
  simp only [hc]
  rfl

/-- Coalescing build: `openalloc_free(p)` in a state whose free list already starts
at the block of `p`, when `coalesce_block_doubly` finds no free neighbour: the call
returns, and the block is the head of the free list with both links pointing to the
block itself. -/
theorem noseg_refree (t : NoSeg.State) (p fuel b : Nat) (hp : p ≠ 0)
    (hb : get_block_doubly p = b) (hb0 : b ≠ 0) (hfl : t.free_list = b)
    (hnx : ¬ (add64 (add64 b NoSeg.HDR) (NoSeg.size (NoSeg.set_free t.mem b 1) b)
        < add64 t.heap_start t.heap_size ∧
      NoSeg.free (NoSeg.set_free t.mem b 1)
        (add64 (add64 b NoSeg.HDR) (NoSeg.size (NoSeg.set_free t.mem b 1) b)) ≠ 0))
    (hfp : find_prev fuel { t with mem := NoSeg.set_free t.mem b 1 } b t.heap_start
      = some 0) :
    ∃ t2, NoSeg.openalloc_free fuel t p = some t2 ∧ t2.free_list = b ∧
      NoSeg.next t2.mem b = b ∧ NoSeg.prev t2.mem b = b ∧ NoSeg.free t2.mem b = 1 ∧
      t2.heap_start = t.heap_start ∧ t2.heap_size = t.heap_size := by
  have hbW : b < W := by rw [← hb]; exact noseg_get_block_lt p
  subst hb
  have h := noseg_free_plain t p fuel hp hnx hfp
  rw [hfl, if_pos hb0] at h
  refine ⟨_, h, rfl, ?_, ?_, ?_, rfl, rfl⟩
  · simp only [NoSeg.next, NoSeg.set_prev, NoSeg.set_next, NoSeg.set_free]
    rw [read64_write64_ne _ _ _ _ (by omega), read64_write64_ne _ _ _ _ (by omega),
      read64_write64_eq _ _ _ hbW]
  · simp only [NoSeg.prev, NoSeg.set_prev, NoSeg.set_next, NoSeg.set_free]
    rw [read64_write64_eq _ _ _ hbW]
  · simp only [NoSeg.free, NoSeg.set_prev, NoSeg.set_next, NoSeg.set_free]
    rw [read8_write64_ne _ _ _ _ (by omega), read8_write64_ne _ _ _ _ (by omega),
      read8_write64_ne _ _ _ _ (by omega), read8_write8_eq]

/-- A traversal that starts at a non-null block whose `next` link points to the
block itself does not end. -/
theorem noseg_list_nodes_self (m : Mem) (b : Nat) (hb : b ≠ 0) (h : NoSeg.next m b = b) :
    ∀ fuel, NoSeg.list_nodes fuel m b = none := by
  intro fuel
  induction fuel with
  | zero => rfl
  | succ f ih =>
    simp only [NoSeg.list_nodes]
    rw [if_neg hb, h, ih]
    rfl

/-- Coalescing build, under the invariant of the states reached by `openalloc_malloc`
calls: `openalloc_free(p)` of a live pointer returns, a second `openalloc_free(p)`
returns too, and then the block of `p` is the head of the free list with both links
pointing to the block itself. -/
theorem noseg_double_free (s : NoSeg.State) (live bs : List Nat) (hI : MInv s live bs)
    (p : Nat) (hp : p ∈ live) (fuel : Nat) (hf : s.heap_size < fuel) :
    get_block_doubly p ≠ 0 ∧
    ∃ t1 t2, NoSeg.openalloc_free fuel s p = some t1 ∧
      NoSeg.openalloc_free fuel t1 p = some t2 ∧
      t1.free_list = get_block_doubly p ∧
      t2.free_list = get_block_doubly p ∧
      NoSeg.next t2.mem (get_block_doubly p) = get_block_doubly p ∧
      NoSeg.prev t2.mem (get_block_doubly p) = get_block_doubly p ∧
      NoSeg.free t2.mem (get_block_doubly p) = 1 := by
  have hW := W_eq
  obtain ⟨b, hb, hpb, hb0⟩ := hI.live_blocks p hp
  have hT := (noseg_tiles_iff _ _ _ _).mp hI.tiles
  have hfits := hI.fits
  have hpos := hI.base_pos
  obtain ⟨hb1, hb2⟩ := seg_tiles_mem _ _ _ _ b hT hb
  have hlen := seg_tiles_length _ _ _ _ hT
  simp only [Seg.HDR, NoSeg.HDR, NoSeg.size] at hb2 hlen hpb
  simp only [NoSeg.free] at hb0
  have hp0 : p ≠ 0 := by omega
  have hbne : b ≠ 0 := by omega
  have hgb : get_block_doubly p = b := by
    simp only [get_block_doubly, sub64, NoSeg.HDR, W]; omega
  have hbl : bs.length < fuel := by omega
  have he : add64 s.heap_start s.heap_size = s.heap_start + s.heap_size := by
    simp only [add64]; exact Nat.mod_eq_of_lt hfits
  have hnxt : add64 (add64 b NoSeg.HDR) (read64 s.mem b) = b + 32 + read64 s.mem b := by
    simp only [add64, NoSeg.HDR, W]; omega
  -- the blocks in front of `b` end before `b` and are allocated
  have hbefore : ∀ y ∈ bs, y < b →
      y + 32 + read64 s.mem y ≤ b ∧ read8 s.mem (y + 24) = 0 := by
    intro y hy hyb
    have h1 := seg_tiles_inside _ _ _ _ y b hT hy hb hyb
    simp only [Seg.HDR, NoSeg.size] at h1
    refine ⟨by omega, hI.alloc y hy ?_⟩
    intro hyf
    rcases hI.tail with h0 | ⟨_, hend, _⟩
    · rw [h0] at hyf
      have := (seg_tiles_mem _ _ _ _ y hT hy).1
      omega
    · rw [← hyf] at hend
      simp only [NoSeg.HDR, NoSeg.size] at hend
      omega
  have hfind : ∀ (m1 : Mem) (fl : Nat),
      (∀ y ∈ bs, y < b → read64 m1 y = read64 s.mem y ∧ read8 m1 (y + 24) = 0) →
      find_prev fuel (NoSeg.State.mk m1 fl s.heap_start s.heap_size) b s.heap_start
        = some 0 := by
    intro m1 fl hag
    exact noseg_find_prev_none (NoSeg.State.mk m1 fl s.heap_start s.heap_size)
      (NoSeg.size s.mem) _ b hfits bs _ hT hb hag fuel hbl
  rw [hgb]
  refine ⟨hbne, ?_⟩
  by_cases hA : s.free_list ≠ 0 ∧ s.free_list = b + 32 + read64 s.mem b
  · -- the successor of the block is the node of the free list
    obtain ⟨hT0, hTeq⟩ := hA
    rcases hI.tail with h0 | ⟨hTm, hend, hnx, hpv, hfr⟩
    · exact absurd h0 hT0
    simp only [NoSeg.HDR, NoSeg.size, NoSeg.next, NoSeg.prev, NoSeg.free] at hend hnx hpv hfr
    have hmv : add64 (NoSeg.size (NoSeg.set_free s.mem b 1) b)
        (add64 (NoSeg.size (NoSeg.set_free s.mem b 1) s.free_list) NoSeg.HDR)
        = read64 s.mem b + read64 s.mem s.free_list + 32 := by
      simp only [NoSeg.size, NoSeg.set_free]
      rw [read64_write8_ne _ _ _ _ (by omega), read64_write8_ne _ _ _ _ (by omega)]
      simp only [add64, NoSeg.HDR, W]
      omega
    have h1 := noseg_free_merge_next s p fuel b s.free_list
      (add64 (NoSeg.size (NoSeg.set_free s.mem b 1) b)
        (add64 (NoSeg.size (NoSeg.set_free s.mem b 1) s.free_list) NoSeg.HDR))
      (NoSeg.set_free s.mem b 1) hp0 hgb rfl
      (by
        simp only [NoSeg.size, NoSeg.set_free]
        rw [read64_write8_ne _ _ _ _ (by omega), hnxt]
        exact hTeq)
      rfl (by rw [he]; omega)
      (by
        simp only [NoSeg.free, NoSeg.set_free]
        rw [read8_write8_ne _ _ _ _ (by omega)]
        exact hfr)
      (by
        simp only [NoSeg.prev, NoSeg.set_free]
        rw [read64_write8_ne _ _ _ _ (by omega)]
        exact hpv)
      (by
        simp only [NoSeg.next, NoSeg.set_free]
        rw [read64_write8_ne _ _ _ _ (by omega)]
        exact hnx)
      (by
        apply hfind
        intro y hy hyb
        obtain ⟨k1, k2⟩ := hbefore y hy hyb
        simp only [NoSeg.set_size, NoSeg.set_free]
        simp (disch := omega) only [read64_write64_ne, read64_write8_ne, read8_write64_ne,
          read8_write8_ne]
        exact ⟨trivial, k2⟩)
    rw [hmv] at h1
    obtain ⟨t2, k1, k2, k3, k4, k5, _⟩ := noseg_refree
      { s with
        mem := NoSeg.set_prev (NoSeg.set_next (NoSeg.set_size (NoSeg.set_free s.mem b 1) b
          (read64 s.mem b + read64 s.mem s.free_list + 32)) b 0) b 0
        free_list := b } p fuel b hp0 hgb hbne rfl
      (by
        intro hc
        have hs : NoSeg.size (NoSeg.set_free (NoSeg.set_prev (NoSeg.set_next (NoSeg.set_size
            (NoSeg.set_free s.mem b 1) b (read64 s.mem b + read64 s.mem s.free_list + 32))
            b 0) b 0) b 1) b = read64 s.mem b + read64 s.mem s.free_list + 32 := by
          simp only [NoSeg.size, NoSeg.set_prev, NoSeg.set_next, NoSeg.set_size,
            NoSeg.set_free]
          simp (disch := omega) only [read64_write64_ne, read64_write8_ne,
            read64_write64_eq]
        have h2 := hc.1
        simp only [hs] at h2
        rw [he] at h2
        simp only [add64, NoSeg.HDR, W] at h2
        omega)
      (by
        apply hfind
        intro y hy hyb
        obtain ⟨k1, k2⟩ := hbefore y hy hyb
        simp only [NoSeg.set_size, NoSeg.set_free, NoSeg.set_prev, NoSeg.set_next]
        simp (disch := omega) only [read64_write64_ne, read64_write8_ne, read8_write64_ne,
          read8_write8_ne]
        exact ⟨trivial, k2⟩)
    exact ⟨_, t2, h1, k1, rfl, k2, k3, k4, k5⟩
  · -- the successor of the block is allocated, or the block is the last one
    have hsucc : b + 32 + read64 s.mem b < s.heap_start + s.heap_size →
        b + 32 + read64 s.mem b ∈ bs ∧ read8 s.mem (b + 32 + read64 s.mem b + 24) = 0 := by
      intro hlt
      have h1 := seg_tiles_succ _ _ _ _ b hT hb
      simp only [Seg.HDR, NoSeg.size] at h1
      have e1 : b + 24 + (read64 s.mem b + 8) = b + 32 + read64 s.mem b := by omega
      rw [e1] at h1
      rcases h1 with h1 | h1
      · omega
      · refine ⟨h1, hI.alloc _ h1 ?_⟩
        intro hc
        apply hA
        refine ⟨?_, hc.symm⟩
        rw [← hc]; omega
    have hnx1 : ∀ m1 : Mem, read64 m1 b = read64 s.mem b →
        (b + 32 + read64 s.mem b < s.heap_start + s.heap_size →
          read8 m1 (b + 32 + read64 s.mem b + 24) = 0) →
        ¬ (add64 (add64 b NoSeg.HDR) (NoSeg.size m1 b)
            < add64 s.heap_start s.heap_size ∧
          NoSeg.free m1 (add64 (add64 b NoSeg.HDR) (NoSeg.size m1 b)) ≠ 0) := by
      intro m1 k1 k2 hc
      simp only [NoSeg.size, NoSeg.free, k1, hnxt, he] at hc
      exact hc.2 (k2 hc.1)
    have h1 := noseg_free_plain s p fuel hp0
      (by
        rw [hgb]
        apply hnx1
        · simp only [NoSeg.set_free]
          rw [read64_write8_ne _ _ _ _ (by omega)]
        · intro hlt
          simp only [NoSeg.set_free]
          rw [read8_write8_ne _ _ _ _ (by omega)]
          exact (hsucc hlt).2)
      (by
        rw [hgb]
        apply hfind
        intro y hy hyb
        obtain ⟨k1, k2⟩ := hbefore y hy hyb
        simp only [NoSeg.set_free]
        simp (disch := omega) only [read64_write8_ne, read8_write8_ne]
        exact ⟨trivial, k2⟩)
    rw [hgb] at h1
    by_cases hfl0 : s.free_list = 0
    · rw [if_neg (by rw [hfl0]; simp)] at h1
      obtain ⟨t2, k1, k2, k3, k4, k5, _⟩ := noseg_refree
        { s with
          mem := NoSeg.set_prev (NoSeg.set_next (NoSeg.set_free s.mem b 1) b s.free_list) b 0
          free_list := b } p fuel b hp0 hgb hbne rfl
        (by
          apply hnx1
          · simp only [NoSeg.set_free, NoSeg.set_prev, NoSeg.set_next]
            simp (disch := omega) only [read64_write64_ne, read64_write8_ne]
          · intro hlt
            have := (hsucc hlt).2
            simp only [NoSeg.set_free, NoSeg.set_prev, NoSeg.set_next]
            simp (disch := omega) only [read8_write64_ne, read8_write8_ne]
            exact this)
        (by
          apply hfind
          intro y hy hyb
          obtain ⟨k1, k2⟩ := hbefore y hy hyb
          simp only [NoSeg.set_free, NoSeg.set_prev, NoSeg.set_next]
          simp (disch := omega) only [read64_write64_ne, read64_write8_ne, read8_write64_ne,
            read8_write8_ne]
          exact ⟨trivial, k2⟩)
      exact ⟨_, t2, h1, k1, rfl, k2, k3, k4, k5⟩
    · rw [if_pos hfl0] at h1
      rcases hI.tail with h0 | ⟨hTm, hend, hnx, hpv, hfr⟩
      · exact absurd h0 hfl0
      simp only [NoSeg.HDR, NoSeg.size, NoSeg.free] at hend hfr
      have hTb : s.free_list ≠ b := by
        intro hc
        rw [hc] at hfr
        exact hfr hb0
      have hlast : ∀ y ∈ bs, y ≠ s.free_list → y + 32 + read64 s.mem y ≤ s.free_list := by
        intro y hy hne
        have h1 := seg_tiles_sep _ _ _ _ y s.free_list hT hy hTm hne
        have h2 := (seg_tiles_mem _ _ _ _ _ hT hy).2
        simp only [Seg.HDR, NoSeg.size] at h1 h2
        omega
      have hbT := hlast b hb (fun h => hTb h.symm)
      obtain ⟨t2, k1, k2, k3, k4, k5, _⟩ := noseg_refree
        { s with
          mem := NoSeg.set_prev (NoSeg.set_prev (NoSeg.set_next (NoSeg.set_free s.mem b 1) b
            s.free_list) b 0) s.free_list b
          free_list := b } p fuel b hp0 hgb hbne rfl
        (by
          apply hnx1
          · simp only [NoSeg.set_free, NoSeg.set_prev, NoSeg.set_next]
            simp (disch := omega) only [read64_write64_ne, read64_write8_ne]
          · intro hlt
            obtain ⟨q1, q2⟩ := hsucc hlt
            have q3 := hlast _ q1 (by
              intro hc
              exact hA ⟨hfl0, hc.symm⟩)
            simp only [NoSeg.set_free, NoSeg.set_prev, NoSeg.set_next]
            simp (disch := omega) only [read8_write64_ne, read8_write8_ne]
            exact q2)
        (by
          apply hfind
          intro y hy hyb
          obtain ⟨k1, k2⟩ := hbefore y hy hyb
          simp only [NoSeg.set_free, NoSeg.set_prev, NoSeg.set_next]
          simp (disch := omega) only [read64_write64_ne, read64_write8_ne, read8_write64_ne,
            read8_write8_ne]
          exact ⟨trivial, k2⟩)
      exact ⟨_, t2, h1, k1, rfl, k2, k3, k4, k5⟩

end NoSegMalloc

/-! ## Claims -/

/-- C1 (coalescing build; fails on the code).  On a zeroed arena of 1024 bytes at
address 4096, three `malloc(100)` return 4128, 4264, 4400; they are freed in that
order; then `malloc(720)` returns 4400 and `malloc(584)` returns 4536.  Both
pointers are live, their usable sizes are 720 and 584, and the payload ranges
`[4400, 5120)` and `[4536, 5120)` are not disjoint. -/
theorem noseg_live_payloads_overlap :
    (NoSeg.run 8 (NoSeg.start zero_mem 4096 1024)
      [Call.malloc 100, Call.malloc 100, Call.malloc 100, Call.free 4128, Call.free 4264,
        Call.free 4400, Call.malloc 720, Call.malloc 584]).map
      (fun r => (r.1, r.2.live, NoSeg.openalloc_usable_size r.2.st 4400,
        NoSeg.openalloc_usable_size r.2.st 4536,
        decide (NoSeg.PayloadsDisjoint r.2.st 4400 4536)))
    = some ([4128, 4264, 4400, 0, 0, 0, 4400, 4536], [4536, 4400], 720, 584, false) := by
  decide

/-- C2 (segregated build; fails on the code).  On a zeroed arena of 1024 bytes at
address 4096, `malloc(100)` returns 4120 and `realloc(4120, 2^64 - 1)` returns 4248,
which is then the only live pointer.  Afterwards the walk from `heap_start` with
stride `sizeof(header) + size` leaves the arena at 5136, not at
`heap_start + heap_size = 5120`: the blocks do not tile the arena. -/
theorem seg_realloc_breaks_tiling :
    (Seg.run 8 (Seg.start zero_mem 4096 1024)
      [Call.malloc 100, Call.realloc 4120 (W - 1)]).map
      (fun r => (r.1, r.2.live, r.2.st.heap_start + r.2.st.heap_size,
        Seg.walk_end 64 r.2.st r.2.st.heap_start))
    = some ([4120, 4248], [4248], 5120, some 5136) := by
  decide

/-- C3 (fails on the code, coalescing build).  On a zeroed arena of 1024 bytes at
address 4096, after three `malloc(100)`, the three frees in allocation order and
`malloc(96)`, the call `malloc(4500)` returns the non-null pointer 4536 although
`4536 + 4500` lies beyond `heap_start + heap_size = 5120`, and the usable size of
4536 is 0, less than the 4500 bytes requested. -/
theorem noseg_malloc_out_of_arena :
    (NoSeg.run 8 (NoSeg.start zero_mem 4096 1024)
      [Call.malloc 100, Call.malloc 100, Call.malloc 100, Call.free 4128, Call.free 4264,
        Call.free 4400, Call.malloc 96, Call.malloc 4500]).map
      (fun r => (r.1, r.2.st.heap_start + r.2.st.heap_size,
        NoSeg.openalloc_usable_size r.2.st 4536))
    = some ([4128, 4264, 4400, 0, 0, 0, 4400, 4536], 5120, 0) := by
  decide

/-- C4 (fails on the code, coalescing build).  The zeroed arena of 1024 bytes starts
at 4096, a multiple of 8.  The calls `malloc(80)`, `malloc(112)`, `malloc(80)`,
`free(4240)`, `malloc(376)`, `free(4384)`, `free(4128)`, `malloc(208)` return the
pointers 4128, 4240, 4384, 4496 and 4128 again; every `free` receives a live
pointer.  The next call `malloc(104)` returns 4897, and `4897 % 8 = 1`: the
returned pointer is not a multiple of 8. -/
theorem noseg_malloc_unaligned :
    (NoSeg.run 8 (NoSeg.start zero_mem 4096 1024)
      [Call.malloc 80, Call.malloc 112, Call.malloc 80, Call.free 4240, Call.malloc 376,
        Call.free 4384, Call.free 4128, Call.malloc 208, Call.malloc 104]).map
      (fun r => (r.1, r.2.live, r.2.live.map (· % 8)))
    = some ([4128, 4240, 4384, 0, 4496, 0, 0, 4128, 4897], [4897, 4128, 4496], [1, 0, 0]) ∧
    4096 % 8 = 0 := by
  decide

/-- C5 (coalescing build; fails on the code).  On a zeroed arena of 1024 bytes at
address 4096, after `malloc(100)`, `malloc(200)` and the two frees in allocation
order, the arena walk consists of the single block 4096 with `free = 1` and
`size = 992`, and `align_size 900 = 904 ≤ 992`; yet `malloc(900)` returns `NULL`,
because the free list holds only the header at 4232 with size 856. -/
theorem noseg_malloc_misses_free_block :
    (NoSeg.run 8 (NoSeg.start zero_mem 4096 1024)
      [Call.malloc 100, Call.malloc 200, Call.free 4128, Call.free 4264]).map
      (fun r => (r.1, NoSeg.walk_blocks 8 r.2.st r.2.st.heap_start,
        NoSeg.free r.2.st.mem 4096, NoSeg.size r.2.st.mem 4096,
        (NoSeg.openalloc_malloc 8 r.2.st 900).map (·.1)))
    = some ([4128, 4264, 0, 0], some [4096], 1, 992, some 0) ∧
    align_size 900 = 904 ∧
    (NoSeg.run 8 (NoSeg.start zero_mem 4096 1024)
      [Call.malloc 100, Call.malloc 200, Call.free 4128, Call.free 4264]).map
      (fun r => (r.2.st.free_list, NoSeg.size r.2.st.mem 4232, NoSeg.next r.2.st.mem 4232))
    = some (4232, 856, 0) := by
  decide

/-- C6 (coalescing build; fails on the code).  On a zeroed arena of 1024 bytes at
address 4096, after three `malloc(100)`, the three frees in allocation order and
one more `malloc(100)`, the free list starts at 4504 and the `next` link of 4504
is 4504 itself: the list is cyclic.  The scan of `malloc(1000)` then never
returns: it runs out of every amount of fuel. -/
theorem noseg_free_list_cycle :
    ∃ c : NoSeg.Client,
      NoSeg.run 8 (NoSeg.start zero_mem 4096 1024)
        [Call.malloc 100, Call.malloc 100, Call.malloc 100, Call.free 4128, Call.free 4264,
          Call.free 4400, Call.malloc 100] = some ([4128, 4264, 4400, 0, 0, 0, 4400], c) ∧
      c.st.free_list = 4504 ∧ NoSeg.next c.st.mem 4504 = 4504 ∧
      ∀ fuel, NoSeg.openalloc_malloc fuel c.st 1000 = none := by
  refine ⟨_, rfl, by decide, by decide, ?_⟩
  intro fuel
  unfold NoSeg.openalloc_malloc
  rw [if_neg (by decide)]
  exact noseg_malloc_loop_spin _ _ _ (by decide) (by decide) (by decide) fuel

/-- C7 (fails on the code, both builds).  Right after `openalloc_init` of a zeroed
arena of 1024 bytes at address 4096, `malloc(2^64 - 1)` returns a non-null pointer:
4128 in the coalescing build and 4120 in the segregated build, because
`align_size (2^64 - 1) = 0`. -/
theorem malloc_size_max_succeeds :
    align_size (W - 1) = 0 ∧
    (NoSeg.run 8 (NoSeg.start zero_mem 4096 1024) [Call.malloc (W - 1)]).map (·.1)
      = some [4128] ∧
    (Seg.run 8 (Seg.start zero_mem 4096 1024) [Call.malloc (W - 1)]).map (·.1)
      = some [4120] := by
  decide

/-- C8.  In both builds and in every state, `openalloc_malloc(0)` returns `NULL`
(whatever the fuel) and the state after the call is the state before it: memory,
free-list root(s), `heap_start` and `heap_size`. -/
theorem malloc_zero_returns_null :
    (∀ (fuel : Nat) (s : NoSeg.State), NoSeg.openalloc_malloc fuel s 0 = some (0, s)) ∧
    (∀ (fuel : Nat) (s : Seg.State), Seg.openalloc_malloc fuel s 0 = some (0, s)) := by
  constructor
  · intro fuel s; simp [NoSeg.openalloc_malloc]
  · intro fuel s; simp [Seg.openalloc_malloc]

/-- C9.  In each build `openalloc_init(region, L)` returns 0 exactly when `region`
is non-null and `L ≥ sizeof(header) + 16` (32 + 16 in the coalescing build, 24 + 16
in the segregated build); it returns 0 or -1; and when it returns -1 the state
after the call (memory, free-list roots, `heap_start`, `heap_size`) is the state
before it. -/
theorem init_accepts_iff (sN : NoSeg.State) (sS : Seg.State) (region L : Nat) :
    ((NoSeg.openalloc_init sN region L).1 = 0 ↔ region ≠ 0 ∧ 32 + 16 ≤ L) ∧
    ((NoSeg.openalloc_init sN region L).1 = 0 ∨ (NoSeg.openalloc_init sN region L).1 = -1) ∧
    ((NoSeg.openalloc_init sN region L).1 = -1 → (NoSeg.openalloc_init sN region L).2 = sN) ∧
    ((Seg.openalloc_init sS region L).1 = 0 ↔ region ≠ 0 ∧ 24 + 16 ≤ L) ∧
    ((Seg.openalloc_init sS region L).1 = 0 ∨ (Seg.openalloc_init sS region L).1 = -1) ∧
    ((Seg.openalloc_init sS region L).1 = -1 → (Seg.openalloc_init sS region L).2 = sS) := by
  obtain ⟨a1, a2, a3⟩ := noseg_init_ret sN region L
  obtain ⟨b1, b2, b3⟩ := seg_init_ret sS region L
  exact ⟨a1, a2, a3, b1, b2, b3⟩

/-- Witness of C9: a null region is refused and the boot state is kept; a region of
39 bytes is refused by the segregated build and the boot state is kept. -/
theorem init_accepts_iff_witness :
    (NoSeg.openalloc_init (NoSeg.boot zero_mem) 0 1024).1 = -1 ∧
    (NoSeg.openalloc_init (NoSeg.boot zero_mem) 0 1024).2 = NoSeg.boot zero_mem ∧
    (Seg.openalloc_init (Seg.boot zero_mem) 4096 39).1 = -1 ∧
    (Seg.openalloc_init (Seg.boot zero_mem) 4096 39).2 = Seg.boot zero_mem :=
  ⟨by decide,
   (init_accepts_iff (NoSeg.boot zero_mem) (Seg.boot zero_mem) 0 1024).2.2.1 (by decide),
   by decide,
   (init_accepts_iff (NoSeg.boot zero_mem) (Seg.boot zero_mem) 4096 39).2.2.2.2.2 (by decide)⟩

/-- C10.  Let `region` be non-null with `region + L` below `2 ^ 64` (the region is
an object of `L` bytes).  From any prior state, if `L ≥ sizeof(header) + 16` then
`openalloc_init(region, L)` returns 0 and leaves `heap_start = region`,
`heap_size = L` and one header at `region` with `size = L - sizeof(header)`,
`free = 1` and null links; that header is the whole free-list index (coalescing:
`free_list = region`; segregated: `free_lists[9] = region` and the lists 0..8 are
empty); the arena walk visits exactly that block, and `openalloc_get_stats`
reports `heap_size = L`, `free_blocks = 1`, `allocated_blocks = 0`,
`total_allocated = 0`, `total_freed = L - sizeof(header)`. -/
theorem init_installs_single_free_block (sN : NoSeg.State) (sS : Seg.State)
    (region L fuel : Nat) (hr : region ≠ 0) (hfit : region + L < W) :
    (32 + 16 ≤ L →
      (NoSeg.openalloc_init sN region L).1 = 0 ∧
      (NoSeg.openalloc_init sN region L).2.heap_start = region ∧
      (NoSeg.openalloc_init sN region L).2.heap_size = L ∧
      (NoSeg.openalloc_init sN region L).2.free_list = region ∧
      NoSeg.size (NoSeg.openalloc_init sN region L).2.mem region = L - 32 ∧
      NoSeg.free (NoSeg.openalloc_init sN region L).2.mem region = 1 ∧
      NoSeg.next (NoSeg.openalloc_init sN region L).2.mem region = 0 ∧
      NoSeg.prev (NoSeg.openalloc_init sN region L).2.mem region = 0 ∧
      NoSeg.walk_blocks (fuel + 2) (NoSeg.openalloc_init sN region L).2 region
        = some [region] ∧
      NoSeg.openalloc_get_stats (fuel + 2) (NoSeg.openalloc_init sN region L).2 = some
        { heap_start := region, heap_size := L, allocated_blocks := 0, free_blocks := 1,
          total_allocated := 0, total_freed := L - 32 }) ∧
    (24 + 16 ≤ L →
      (Seg.openalloc_init sS region L).1 = 0 ∧
      (Seg.openalloc_init sS region L).2.heap_start = region ∧
      (Seg.openalloc_init sS region L).2.heap_size = L ∧
      (Seg.openalloc_init sS region L).2.free_lists 9 = region ∧
      (∀ i, i < 9 → (Seg.openalloc_init sS region L).2.free_lists i = 0) ∧
      Seg.size (Seg.openalloc_init sS region L).2.mem region = L - 24 ∧
      Seg.free (Seg.openalloc_init sS region L).2.mem region = 1 ∧
      Seg.next (Seg.openalloc_init sS region L).2.mem region = 0 ∧
      Seg.walk_blocks (fuel + 2) (Seg.openalloc_init sS region L).2 region = some [region] ∧
      Seg.openalloc_get_stats (fuel + 2) (Seg.openalloc_init sS region L).2 = some
        { heap_start := region, heap_size := L, allocated_blocks := 0, free_blocks := 1,
          total_allocated := 0, total_freed := L - 24 }) := by
  have hL : L < W := by omega
  constructor
  · intro h
    obtain ⟨h1, h2, h3, h4, h5, h6, h7⟩ := noseg_init_fields sN region L hr hL h
    have hst := noseg_stats_single (NoSeg.openalloc_init sN region L).2 fuel (L - 32)
      (by rw [h1, h2]; exact hfit) (by rw [h1]; exact h4) (by rw [h2]; omega)
      (by rw [h1]; exact h5)
    rw [h1, h2] at hst
    exact ⟨(noseg_init_ret sN region L).1.2 ⟨hr, h⟩, h1, h2, h3, h4, h5, h6, h7, hst.1, hst.2⟩
  · intro h
    obtain ⟨h1, h2, h3, h4, h5, h6, h7⟩ := seg_init_fields sS region L hr hL h
    have hst := seg_stats_single (Seg.openalloc_init sS region L).2 fuel (L - 24)
      (by rw [h1, h2]; exact hfit) (by rw [h1]; exact h5) (by rw [h2]; omega)
      (by rw [h1]; exact h6)
    rw [h1, h2] at hst
    exact ⟨(seg_init_ret sS region L).1.2 ⟨hr, h⟩, h1, h2, h3, h4, h5, h6, h7, hst.1, hst.2⟩

/-- Witness of C10: the zeroed arena of 1024 bytes at address 4096, from the boot
state. -/
theorem init_installs_single_free_block_witness :
    NoSeg.openalloc_get_stats (0 + 2) (NoSeg.openalloc_init (NoSeg.boot zero_mem) 4096 1024).2
      = some { heap_start := 4096, heap_size := 1024, allocated_blocks := 0, free_blocks := 1,
               total_allocated := 0, total_freed := 1024 - 32 } ∧
    Seg.openalloc_get_stats (0 + 2) (Seg.openalloc_init (Seg.boot zero_mem) 4096 1024).2
      = some { heap_start := 4096, heap_size := 1024, allocated_blocks := 0, free_blocks := 1,
               total_allocated := 0, total_freed := 1024 - 24 } :=
  ⟨((init_installs_single_free_block (NoSeg.boot zero_mem) (Seg.boot zero_mem) 4096 1024 0
      (by decide) (by decide)).1 (by decide)).2.2.2.2.2.2.2.2.2,
   ((init_installs_single_free_block (NoSeg.boot zero_mem) (Seg.boot zero_mem) 4096 1024 0
      (by decide) (by decide)).2 (by decide)).2.2.2.2.2.2.2.2.2⟩

/-- C11.  In both builds and in every state, `openalloc_free(NULL)` returns (whatever
the fuel) and the state after the call is the state before it: memory, free-list
root(s), `heap_start` and `heap_size`. -/
theorem free_null_is_noop :
    (∀ (fuel : Nat) (s : NoSeg.State), NoSeg.openalloc_free fuel s 0 = some s) ∧
    (∀ s : Seg.State, Seg.openalloc_free s 0 = s) := by
  constructor
  · intro fuel s; simp [NoSeg.openalloc_free]
  · intro s; simp [Seg.openalloc_free]

/-- C12 (coalescing build; fails on the code).  On a zeroed arena of 1024 bytes at
address 4096 the valid calls `malloc(184)`, `malloc(8)`, `free(4128)`, `malloc(8)`,
`free(4344)`, `malloc(8)`, `free(4128)`, `malloc(192)`, `free(4344)` return the
pointers 4128, 4344, 4128, 4344, 4128.  After the last `free` the arena walk is
4096 (allocated), 4320 (`free = 1`, size 0), 4352 (`free = 1`, size 736): the blocks
4320 and 4352 are physically adjacent and both free, and `get_stats` reports two
free blocks. -/
theorem noseg_adjacent_free_after_free :
    (NoSeg.run 8 (NoSeg.start zero_mem 4096 1024)
      [Call.malloc 184, Call.malloc 8, Call.free 4128, Call.malloc 8, Call.free 4344,
        Call.malloc 8, Call.free 4128, Call.malloc 192, Call.free 4344]).map
      (fun r => (r.1, NoSeg.walk_blocks 8 r.2.st r.2.st.heap_start,
        (NoSeg.openalloc_get_stats 8 r.2.st).map (·.free_blocks)))
    = some ([4128, 4344, 0, 4128, 0, 4344, 0, 4128, 0], some [4096, 4320, 4352], some 2) ∧
    (NoSeg.run 8 (NoSeg.start zero_mem 4096 1024)
      [Call.malloc 184, Call.malloc 8, Call.free 4128, Call.malloc 8, Call.free 4344,
        Call.malloc 8, Call.free 4128, Call.malloc 192, Call.free 4344]).map
      (fun r => (NoSeg.free r.2.st.mem 4320, NoSeg.size r.2.st.mem 4320,
        NoSeg.free r.2.st.mem 4352, NoSeg.size r.2.st.mem 4352))
    = some (1, 0, 1, 736) := by
  decide

/-- C13 (coalescing build; fails on the code).  On a zeroed arena of 1024 bytes at
address 4096 let `S` be the state after the valid calls `malloc(168)`, `malloc(88)`,
`malloc(320)`, `free(4328)`, `malloc(240)`, `free(4448)`, `free(4128)`.  In `S` the
snapshot is 1 allocated block, 2 free blocks, 240 allocated bytes, 688 free bytes,
and `malloc(304)` returns the non-null pointer 4128.  After `malloc(304)` followed
immediately by `free(4128)` the snapshot is 18 allocated blocks, 2 free blocks,
0 allocated bytes, 384 free bytes. -/
theorem noseg_malloc_free_changes_stats :
    (NoSeg.run 8 (NoSeg.start zero_mem 4096 1024)
      [Call.malloc 168, Call.malloc 88, Call.malloc 320, Call.free 4328, Call.malloc 240,
        Call.free 4448, Call.free 4128]).map
      (fun r => (r.1, NoSeg.openalloc_get_stats 32 r.2.st,
        (NoSeg.openalloc_malloc 8 r.2.st 304).map (·.1)))
    = some ([4128, 4328, 4448, 0, 4800, 0, 0],
        some { heap_start := 4096, heap_size := 1024, allocated_blocks := 1, free_blocks := 2,
               total_allocated := 240, total_freed := 688 },
        some 4128) ∧
    (NoSeg.run 8 (NoSeg.start zero_mem 4096 1024)
      [Call.malloc 168, Call.malloc 88, Call.malloc 320, Call.free 4328, Call.malloc 240,
        Call.free 4448, Call.free 4128, Call.malloc 304, Call.free 4128]).map
      (fun r => (r.1, NoSeg.openalloc_get_stats 32 r.2.st))
    = some ([4128, 4328, 4448, 0, 4800, 0, 0, 4128, 0],
        some { heap_start := 4096, heap_size := 1024, allocated_blocks := 18, free_blocks := 2,
               total_allocated := 0, total_freed := 384 }) := by
  decide

/-- C14.  In both builds, in every state, for a non-null pointer `p` and every `n`
with `0 < n ≤ openalloc_usable_size(p)`, `openalloc_realloc(p, n)` returns `p`
(whatever the fuel) and the state after the call is the state before it; in
particular this holds for `n = openalloc_usable_size(p)` when that size is
positive. -/
theorem realloc_within_usable_size (fuel p n : Nat) (hp : p ≠ 0) (hn : 0 < n) :
    (∀ s : NoSeg.State, n ≤ NoSeg.openalloc_usable_size s p →
      NoSeg.openalloc_realloc fuel s p n = some (p, s)) ∧
    (∀ s : Seg.State, n ≤ Seg.openalloc_usable_size s p →
      Seg.openalloc_realloc fuel s p n = some (p, s)) := by
  have hn0 : n ≠ 0 := by omega
  constructor
  · intro s h
    unfold NoSeg.openalloc_usable_size at h
    rw [if_neg hp] at h
    unfold NoSeg.openalloc_realloc
    rw [if_neg hp, if_neg hn0]
    simp only
    rw [if_pos h]
  · intro s h
    unfold Seg.openalloc_usable_size at h
    rw [if_neg hp] at h
    unfold Seg.openalloc_realloc
    rw [if_neg hp, if_neg hn0]
    simp only
    rw [if_pos h]

/-- Witness of C14: on the zeroed arena of 1024 bytes at address 4096, right after
`openalloc_init`, the payload pointer of the first block with `n = 50`. -/
theorem realloc_within_usable_size_witness :
    NoSeg.openalloc_realloc 0 (NoSeg.openalloc_init (NoSeg.boot zero_mem) 4096 1024).2 4128 50
      = some (4128, (NoSeg.openalloc_init (NoSeg.boot zero_mem) 4096 1024).2) ∧
    Seg.openalloc_realloc 0 (Seg.openalloc_init (Seg.boot zero_mem) 4096 1024).2 4120 50
      = some (4120, (Seg.openalloc_init (Seg.boot zero_mem) 4096 1024).2) :=
  ⟨(realloc_within_usable_size 0 4128 50 (by decide) (by decide)).1 _ (by decide),
   (realloc_within_usable_size 0 4120 50 (by decide) (by decide)).2 _ (by decide)⟩

/-- C15 (fails on the code, segregated build).  On a zeroed arena of 1024 bytes at
address 4096, after `malloc(100) = 4120` the pointer 4120 is live with usable size
104.  For `n = 2^64 - 1 > 104` the internal `malloc(n)` succeeds (it returns 4248),
and `realloc(4120, n)` returns 4248, but afterwards `usable_size(4248) = 0`, which
is less than `n`. -/
theorem seg_realloc_grow_too_small :
    (Seg.run 8 (Seg.start zero_mem 4096 1024) [Call.malloc 100]).map
      (fun r => (r.1, r.2.live, Seg.openalloc_usable_size r.2.st 4120,
        (Seg.openalloc_malloc 8 r.2.st (W - 1)).map (·.1)))
    = some ([4120], [4120], 104, some 4248) ∧
    (Seg.run 8 (Seg.start zero_mem 4096 1024)
      [Call.malloc 100, Call.realloc 4120 (W - 1)]).map
      (fun r => (r.1, r.2.live, Seg.openalloc_usable_size r.2.st 4248))
    = some ([4120, 4248], [4248], 0) := by
  decide

/-- C16 (fails on the code, coalescing build).  On a zeroed arena of 1024 bytes at
address 4096, after three `malloc(100)`, the three frees in allocation order and
`malloc(96) = 4400`, the pointer 4400 is live with usable size 96 and the arena
walk is the single block 4096 with `free = 1` and size 992, so no free block can
hold 4500 bytes (the arena has 1024).  Yet `realloc(4400, 4500)` returns the
non-null pointer 4536 and 4400 is no longer live. -/
theorem noseg_realloc_succeeds_without_fit :
    (NoSeg.run 8 (NoSeg.start zero_mem 4096 1024)
      [Call.malloc 100, Call.malloc 100, Call.malloc 100, Call.free 4128, Call.free 4264,
        Call.free 4400, Call.malloc 96]).map
      (fun r => (r.1, r.2.live, NoSeg.openalloc_usable_size r.2.st 4400,
        NoSeg.walk_blocks 8 r.2.st r.2.st.heap_start, NoSeg.size r.2.st.mem 4096))
    = some ([4128, 4264, 4400, 0, 0, 0, 4400], [4400], 96, some [4096], 992) ∧
    (NoSeg.run 8 (NoSeg.start zero_mem 4096 1024)
      [Call.malloc 100, Call.malloc 100, Call.malloc 100, Call.free 4128, Call.free 4264,
        Call.free 4400, Call.malloc 96, Call.realloc 4400 4500]).map
      (fun r => (r.1, r.2.live))
    = some ([4128, 4264, 4400, 0, 0, 0, 4400, 4536], [4536]) := by
  decide

/-- C17 (fails on the code, coalescing build).  Arena of 1024 bytes at address 4096
that the caller filled with the byte 1; the memory around it holds the byte 1 too.
After the valid calls `malloc(300) = 4128`, `malloc(24) = 4464`, `malloc(8) = 4520`,
`malloc(300) = 4560`, `free(4520)`, `free(4560)`, `malloc(16) = 4560`, `free(4464)`
and `malloc(100) = 4464` the pointer 4560 is live with usable size 16.  The bytes at
`4528 + 32 + 16 = 4576`, where its block ends, read as a header with `free = 1`,
`prev = 1` and `next = 0`.  `realloc(4560, 0)` calls `openalloc_free`, whose
`coalesce_block_doubly` unlinks that header with `next->prev->next = next->next`: a
store of the 8 bytes 0 at address `1 + 8 = 9`, outside the arena.  The model, whose
memory is total, goes on and returns `NULL`; the bytes 9..16 are 1 before the call
and 0 after it. -/
theorem realloc_zero_stores_outside_arena :
    (NoSeg.run 8 (NoSeg.start ones_mem 4096 1024)
      [Call.malloc 300, Call.malloc 24, Call.malloc 8, Call.malloc 300, Call.free 4520,
        Call.free 4560, Call.malloc 16, Call.free 4464, Call.malloc 100]).map
      (fun r => (r.1, r.2.live,
        (NoSeg.openalloc_usable_size r.2.st 4560, NoSeg.free r.2.st.mem 4576,
          NoSeg.prev r.2.st.mem 4576, NoSeg.next r.2.st.mem 4576),
        (List.range 8).map (fun i => read8 r.2.st.mem (9 + i)),
        (NoSeg.openalloc_realloc 8 r.2.st 4560 0).map (fun q =>
          (q.1, (List.range 8).map (fun i => read8 q.2.mem (9 + i))))))
    = some ([4128, 4464, 4520, 4560, 0, 0, 4560, 0, 4464], [4464, 4560, 4128],
        (16, 1, 1, 0), [1, 1, 1, 1, 1, 1, 1, 1],
        some (0, [0, 0, 0, 0, 0, 0, 0, 0])) :=
  rfl

/-- C18.  In both builds, from every state, for every `n` (also `n = 0`) and every
fuel, `openalloc_realloc(NULL, n)` returns the same pointer and the same state as
`openalloc_malloc(n)`. -/
theorem realloc_null_is_malloc :
    (∀ (fuel : Nat) (s : NoSeg.State) (n : Nat),
      NoSeg.openalloc_realloc fuel s 0 n = NoSeg.openalloc_malloc fuel s n) ∧
    (∀ (fuel : Nat) (s : Seg.State) (n : Nat),
      Seg.openalloc_realloc fuel s 0 n = Seg.openalloc_malloc fuel s n) := by
  constructor
  · intro fuel s n; simp [NoSeg.openalloc_realloc]
  · intro fuel s n; simp [Seg.openalloc_realloc]

/-- C19 (as written, fails by design in both builds).  `openalloc_init` accepts an
arena whose payload is not a multiple of 8.  Segregated build: on a zeroed arena of
71 bytes at address 4096, `malloc(1) = 4120` hands out the whole block and
`usable_size(4120) = 47`, so the excess over the request is 46, which is more than
`24 + 16 - 1 = 39`.  Coalescing build: on a zeroed arena of 87 bytes at address 4096,
`malloc(1) = 4128` and `usable_size(4128) = 55`, so the excess is 54, which is more
than `32 + 16 - 1 = 47`. -/
theorem malloc_excess_above_bound :
    ((Seg.openalloc_init (Seg.boot zero_mem) 4096 71).1,
      (Seg.openalloc_malloc 8 (Seg.start zero_mem 4096 71).st 1).map
        (fun r => (r.1, Seg.openalloc_usable_size r.2 r.1,
          decide (Seg.openalloc_usable_size r.2 r.1 - 1 ≤ Seg.HDR + 16 - 1))))
      = (0, some (4120, 47, false)) ∧
    ((NoSeg.openalloc_init (NoSeg.boot zero_mem) 4096 87).1,
      (NoSeg.openalloc_malloc 8 (NoSeg.start zero_mem 4096 87).st 1).map
        (fun r => (r.1, NoSeg.openalloc_usable_size r.2 r.1,
          decide (NoSeg.openalloc_usable_size r.2 r.1 - 1 ≤ NoSeg.HDR + 16 - 1))))
      = (0, some (4128, 55, false)) := by
  decide

/-- C19 (amended).  Let the arena `[region, region + L)` not wrap around the address
space, let `L < 2 ^ 63` and `n ≤ 2 ^ 64 - 8`.  Segregated build: in every state
reached from an accepted `openalloc_init` by valid calls with sizes up to
`2 ^ 64 - 8` and by stores of the caller into live payloads, `openalloc_malloc(n)`
returns (with fuel above `L`), and a non-null result `p` has
`n ≤ usable_size(p) ≤ n + sizeof(header) + 16 + 6`, and
`usable_size(p) ≤ n + sizeof(header) + 16 - 1` when `L - sizeof(header)` is a
multiple of 8.  Coalescing build: the same holds in every state reached from an
accepted `openalloc_init` by `openalloc_malloc` calls with sizes up to `2 ^ 64 - 8`. -/
theorem malloc_excess_bound (m0 : Mem) (region L n : Nat) (hfit : region + L < W)
    (hL : L < 2 ^ 63) (hn : n + 8 ≤ W) :
    (∀ c, Seg.Reach m0 region L c →
      (∀ fuel, L < fuel → ∃ r, Seg.openalloc_malloc fuel c.st n = some r) ∧
      (∀ fuel p t, Seg.openalloc_malloc fuel c.st n = some (p, t) → p ≠ 0 →
        n ≤ Seg.openalloc_usable_size t p ∧
        Seg.openalloc_usable_size t p ≤ n + (Seg.HDR + 16 + 6) ∧
        (8 ∣ L - Seg.HDR → Seg.openalloc_usable_size t p ≤ n + (Seg.HDR + 16 - 1)))) ∧
    (∀ s, NoSeg.MallocReach m0 region L s →
      (∀ fuel, 2 ≤ fuel → ∃ r, NoSeg.openalloc_malloc fuel s n = some r) ∧
      (∀ fuel p t, NoSeg.openalloc_malloc fuel s n = some (p, t) → p ≠ 0 →
        n ≤ NoSeg.openalloc_usable_size t p ∧
        NoSeg.openalloc_usable_size t p ≤ n + (NoSeg.HDR + 16 + 6) ∧
        (8 ∣ L - NoSeg.HDR → NoSeg.openalloc_usable_size t p ≤ n + (NoSeg.HDR + 16 - 1)))) := by
  refine ⟨?_, ?_⟩
  · intro c hc
    obtain ⟨⟨bs, ls, hI⟩, h1, h2⟩ := seg_reach_good m0 region L hfit hL c hc
    refine ⟨?_, ?_⟩
    · intro fuel hf
      obtain ⟨p, t, h3, _⟩ := seg_malloc_big c.st c.live bs ls hI n hn fuel (by rw [h2]; exact hf)
      exact ⟨_, h3⟩
    · intro fuel p t hm hp
      obtain ⟨_, _, _, _, h4⟩ := seg_malloc_inv c.st c.live bs ls hI n hn fuel p t hm
      obtain ⟨_, h5, h6, h7⟩ := h4 hp
      rw [h2] at h7
      exact ⟨h5, h6, h7⟩
  · intro s hs
    obtain ⟨hT, h1, h2⟩ := noseg_reach_tail m0 region L hfit s hs
    refine ⟨?_, ?_⟩
    · intro fuel hf
      obtain ⟨p, t, h3, _⟩ := noseg_malloc_tail s hT n hn fuel hf
      exact ⟨_, h3⟩
    · intro fuel p t hm hp
      obtain ⟨_, _, _, h4⟩ := noseg_malloc_tail_any s hT n hn fuel p t hm
      obtain ⟨h5, h6, h7⟩ := h4 hp
      rw [h2] at h7
      exact ⟨h5, h6, h7⟩

/-- Witness of C19 (amended): the zeroed arena of 1024 bytes at address 4096 with
`n = 100`.  Segregated build: after `malloc(100) = 4120` and `free(4120)` the next
`malloc(100)` returns.  Coalescing build: right after `openalloc_init` the call
`malloc(100)` returns. -/
theorem malloc_excess_bound_witness :
    (4096 + 1024 < W ∧ 1024 < 2 ^ 63 ∧ 100 + 8 ≤ W) ∧
    (Seg.openalloc_malloc 1025
      ((Seg.run 8 (Seg.start zero_mem 4096 1024) [Call.malloc 100, Call.free 4120]).getD
        ([], Seg.start zero_mem 4096 1024)).2.st 100).isSome = true ∧
    (NoSeg.openalloc_malloc 2 (NoSeg.openalloc_init (NoSeg.boot zero_mem) 4096 1024).2
      100).isSome = true :=
  ⟨⟨by decide, by decide, by decide⟩,
   Option.isSome_iff_exists.mpr
    (((malloc_excess_bound zero_mem 4096 1024 100 (by decide) (by decide) (by decide)).1 _
      (Seg.Reach.call 8 _ (Call.free 4120) 0 _
        (Seg.Reach.call 8 _ (Call.malloc 100) 4120 _ (Seg.Reach.init (by decide))
          (by show 100 + 8 ≤ W; decide) rfl) trivial rfl)).1 1025 (by decide)),
   Option.isSome_iff_exists.mpr
    (((malloc_excess_bound zero_mem 4096 1024 100 (by decide) (by decide) (by decide)).2 _
      (NoSeg.MallocReach.init (by decide))).1 2 (by decide))⟩

/-- C20 (fails on the code, both builds).  Zeroed arena of 1024 bytes at address
4096.  Coalescing build: after the valid calls `malloc(168)`, `malloc(88)`,
`malloc(320)`, `free(4328)`, `malloc(240)`, `free(4448)`, `free(4128)`,
`malloc(304)` the walk of `openalloc_get_stats` leaves the arena at 8896, not at
`heap_start + heap_size = 5120`, and the snapshot gives
`304 + 4432 + 32 * (1 + 1) = 4800`, not 1024.  Segregated build: after
`malloc(100)` and `realloc(4120, 2^64 - 1)` the walk leaves the arena at 5136 and
the snapshot sums to 1040. -/
theorem stats_walk_leaves_arena :
    (NoSeg.run 8 (NoSeg.start zero_mem 4096 1024)
      [Call.malloc 168, Call.malloc 88, Call.malloc 320, Call.free 4328, Call.malloc 240,
        Call.free 4448, Call.free 4128, Call.malloc 304]).map
      (fun r => (r.1, r.2.st.heap_start + r.2.st.heap_size,
        NoSeg.walk_end 8 r.2.st r.2.st.heap_start, NoSeg.openalloc_get_stats 8 r.2.st))
    = some ([4128, 4328, 4448, 0, 4800, 0, 0, 4128], 5120, some 8896,
        some { heap_start := 4096, heap_size := 1024, allocated_blocks := 1, free_blocks := 1,
               total_allocated := 304, total_freed := 4432 }) ∧
    (Seg.run 8 (Seg.start zero_mem 4096 1024)
      [Call.malloc 100, Call.realloc 4120 (W - 1)]).map
      (fun r => (r.1, r.2.st.heap_start + r.2.st.heap_size,
        Seg.walk_end 64 r.2.st r.2.st.heap_start,
        (Seg.openalloc_get_stats 64 r.2.st).map (fun t =>
          t.total_allocated + t.total_freed + 24 * (t.allocated_blocks + t.free_blocks))))
    = some ([4120, 4248], 5120, some 5136, some 1040) := by
  decide

/-- C21 (counterexample).  Segregated build, zeroed arena of 1024 bytes at address
4096: right after `openalloc_init` the snapshot reports `total_freed = 1000`, which
is `1024 - 24`, not `1024 - 16 = 1008`.  The macro `BLOCK_HEADER_SIZE 16` is never
used; the stride of the code is `sizeof(block_header_t) = 24`. -/
theorem seg_header_stride_not_16 :
    (Seg.openalloc_init (Seg.boot zero_mem) 4096 1024).1 = 0 ∧
    (Seg.openalloc_get_stats 2 (Seg.start zero_mem 4096 1024).st).map
      (fun t => t.total_freed) = some 1000 ∧
    (1000 : Nat) ≠ 1024 - 16 := by
  decide

/-- C21 (amended).  Right after a successful `openalloc_init` of an arena of length
`L` the snapshot of `openalloc_get_stats` holds one free block and no allocated
block, with `total_freed = L - 24` in the segregated build and
`total_freed = L - 32` in the coalescing build: the header strides are 24 and 32
bytes. -/
theorem initial_total_freed (m : Mem) (region L fuel : Nat) (hfit : region + L < W) :
    ((Seg.openalloc_init (Seg.boot m) region L).1 = 0 →
      Seg.openalloc_get_stats (fuel + 2) (Seg.start m region L).st = some
        { heap_start := region, heap_size := L, allocated_blocks := 0, free_blocks := 1,
          total_allocated := 0, total_freed := L - 24 }) ∧
    ((NoSeg.openalloc_init (NoSeg.boot m) region L).1 = 0 →
      NoSeg.openalloc_get_stats (fuel + 2) (NoSeg.start m region L).st = some
        { heap_start := region, heap_size := L, allocated_blocks := 0, free_blocks := 1,
          total_allocated := 0, total_freed := L - 32 }) := by
  refine ⟨?_, ?_⟩
  · intro h0
    obtain ⟨hr, hL⟩ := (seg_init_ret (Seg.boot m) region L).1.mp h0
    obtain ⟨h1, h2, _, _, h5, h6, _⟩ := seg_init_fields (Seg.boot m) region L hr (by omega) hL
    have hs : (Seg.start m region L).st = (Seg.openalloc_init (Seg.boot m) region L).2 := rfl
    rw [hs, (seg_stats_single (Seg.openalloc_init (Seg.boot m) region L).2 fuel (L - 24)
      (by rw [h1, h2]; exact hfit) (by rw [h1]; exact h5) (by rw [h2]; omega)
      (by rw [h1]; exact h6)).2, h1, h2]
  · intro h0
    obtain ⟨hr, hL⟩ := (noseg_init_ret (NoSeg.boot m) region L).1.mp h0
    obtain ⟨h1, h2, _, h5, h6, _⟩ := noseg_init_fields (NoSeg.boot m) region L hr (by omega) hL
    have hs : (NoSeg.start m region L).st = (NoSeg.openalloc_init (NoSeg.boot m) region L).2 :=
      rfl
    rw [hs, (noseg_stats_single (NoSeg.openalloc_init (NoSeg.boot m) region L).2 fuel (L - 32)
      (by rw [h1, h2]; exact hfit) (by rw [h1]; exact h5) (by rw [h2]; omega)
      (by rw [h1]; exact h6)).2, h1, h2]

/-- Witness of C21 (amended): the zeroed arena of 1024 bytes at address 4096, in
both builds. -/
theorem initial_total_freed_witness :
    4096 + 1024 < W ∧
    Seg.openalloc_get_stats 2 (Seg.start zero_mem 4096 1024).st = some
      { heap_start := 4096, heap_size := 1024, allocated_blocks := 0, free_blocks := 1,
        total_allocated := 0, total_freed := 1024 - 24 } ∧
    NoSeg.openalloc_get_stats 2 (NoSeg.start zero_mem 4096 1024).st = some
      { heap_start := 4096, heap_size := 1024, allocated_blocks := 0, free_blocks := 1,
        total_allocated := 0, total_freed := 1024 - 32 } :=
  ⟨by decide,
   (initial_total_freed zero_mem 4096 1024 0 (by decide)).1 (by decide),
   (initial_total_freed zero_mem 4096 1024 0 (by decide)).2 (by decide)⟩

/-- C22 (counterexample).  Segregated build, zeroed arena of 1024 bytes at address
4096, right after `openalloc_init`: the only block, 4096, has `free = 1` and size
1000, so `get_bin(size) = 6`, but `free_lists[6]` is empty and the block is the node
of `free_lists[9]`, where `openalloc_init` puts the first block whatever its
size. -/
theorem initial_block_outside_its_class :
    (Seg.openalloc_init (Seg.boot zero_mem) 4096 1024).1 = 0 ∧
    Seg.walk_blocks 2 (Seg.start zero_mem 4096 1024).st 4096 = some [4096] ∧
    Seg.free (Seg.start zero_mem 4096 1024).st.mem 4096 = 1 ∧
    Seg.size (Seg.start zero_mem 4096 1024).st.mem 4096 = 1000 ∧
    Seg.get_bin 1000 = 6 ∧
    Seg.list_nodes 2 (Seg.start zero_mem 4096 1024).st.mem
      ((Seg.start zero_mem 4096 1024).st.free_lists 6) = some [] ∧
    Seg.list_nodes 2 (Seg.start zero_mem 4096 1024).st.mem
      ((Seg.start zero_mem 4096 1024).st.free_lists 9) = some [4096] := by
  decide

/-- C22 (amended).  Segregated build, arena `[region, region + L)` with
`region + L < 2^64` and `L < 2^63`.  In every state reached from an accepted
`openalloc_init` by valid calls with sizes up to `2^64 - 8` (and stores of the caller
into live payloads), with `bs` the blocks of the arena walk and `ls i` the nodes of
`free_lists[i]`: every block with `free` set is once on one list `i` and on no
other list, and `i = get_bin(size)` unless the block is the only block of the arena
and `i = 9`. -/
theorem free_block_on_one_list (m0 : Mem) (region L : Nat) (hfit : region + L < W)
    (hL : L < 2 ^ 63) (c : Seg.Client) (hc : Seg.Reach m0 region L c) (fuel : Nat)
    (hf : L < fuel) :
    ∃ (bs : List Nat) (ls : Nat → List Nat), Seg.walk_blocks fuel c.st c.st.heap_start = some bs ∧
      (∀ i, i < NUM_BINS → Seg.list_nodes fuel c.st.mem (c.st.free_lists i) = some (ls i)) ∧
      ∀ b ∈ bs, Seg.free c.st.mem b ≠ 0 →
        ∃ i, i < NUM_BINS ∧ (ls i).count b = 1 ∧ (∀ j, j < NUM_BINS → j ≠ i → b ∉ ls j) ∧
          (i = Seg.get_bin (Seg.size c.st.mem b) ∨ (i = NUM_BINS - 1 ∧ bs = [b])) := by
  obtain ⟨⟨bs, ls, hI⟩, _, h2⟩ := seg_reach_good m0 region L hfit hL c hc
  exact ⟨bs, ls, seg_inv_walk c.st c.live bs ls hI fuel (by rw [h2]; exact hf),
    fun i hi => seg_inv_nodes c.st c.live bs ls hI fuel (by rw [h2]; exact hf) i hi,
    fun b hb hfr => seg_inv_free_listed c.st c.live bs ls hI b hb hfr⟩

/-- Witness of C22 (amended): the zeroed arena of 1024 bytes at address 4096 after
`malloc(100) = 4120` and `free(4120)`. -/
theorem free_block_on_one_list_witness :
    (4096 + 1024 < W ∧ 1024 < 2 ^ 63 ∧ 1024 < 1025) ∧
    ∃ (bs : List Nat) (ls : Nat → List Nat),
      Seg.walk_blocks 1025
        ((Seg.run 8 (Seg.start zero_mem 4096 1024) [Call.malloc 100, Call.free 4120]).getD
          ([], Seg.start zero_mem 4096 1024)).2.st
        ((Seg.run 8 (Seg.start zero_mem 4096 1024) [Call.malloc 100, Call.free 4120]).getD
          ([], Seg.start zero_mem 4096 1024)).2.st.heap_start = some bs ∧
      (∀ i, i < NUM_BINS → Seg.list_nodes 1025
        ((Seg.run 8 (Seg.start zero_mem 4096 1024) [Call.malloc 100, Call.free 4120]).getD
          ([], Seg.start zero_mem 4096 1024)).2.st.mem
        (((Seg.run 8 (Seg.start zero_mem 4096 1024) [Call.malloc 100, Call.free 4120]).getD
          ([], Seg.start zero_mem 4096 1024)).2.st.free_lists i) = some (ls i)) ∧
      ∀ b ∈ bs,
        Seg.free ((Seg.run 8 (Seg.start zero_mem 4096 1024)
          [Call.malloc 100, Call.free 4120]).getD
            ([], Seg.start zero_mem 4096 1024)).2.st.mem b ≠ 0 →
        ∃ i, i < NUM_BINS ∧ (ls i).count b = 1 ∧ (∀ j, j < NUM_BINS → j ≠ i → b ∉ ls j) ∧
          (i = Seg.get_bin (Seg.size ((Seg.run 8 (Seg.start zero_mem 4096 1024)
            [Call.malloc 100, Call.free 4120]).getD
              ([], Seg.start zero_mem 4096 1024)).2.st.mem b) ∨
            (i = NUM_BINS - 1 ∧ bs = [b])) :=
  ⟨⟨by decide, by decide, by decide⟩,
   free_block_on_one_list zero_mem 4096 1024 (by decide) (by decide) _
    (Seg.Reach.call 8 _ (Call.free 4120) 0 _
      (Seg.Reach.call 8 _ (Call.malloc 100) 4120 _ (Seg.Reach.init (by decide))
        (by show 100 + 8 ≤ W; decide) rfl) trivial rfl) 1025 (by decide)⟩

/-- C23 (counterexample).  Zeroed arena of 71 bytes at address 4096, accepted by
`openalloc_init` in both builds.  Segregated build: the block has size `71 - 24 = 47`
and `malloc(1) = 4120` hands it out whole, with usable size 47.  Coalescing build:
the block has size `71 - 32 = 39` and `malloc(1) = 4128` has usable size 39. -/
theorem block_size_not_multiple_of_8 :
    (Seg.run 2 (Seg.start zero_mem 4096 71) [Call.malloc 1]).map
      (fun r => (r.1, r.2.live, Seg.walk_blocks 2 r.2.st r.2.st.heap_start,
        Seg.size r.2.st.mem 4096, Seg.openalloc_usable_size r.2.st 4120))
    = some ([4120], [4120], some [4096], 47, 47) ∧
    (NoSeg.run 2 (NoSeg.start zero_mem 4096 71) [Call.malloc 1]).map
      (fun r => (r.1, r.2.live, NoSeg.walk_blocks 2 r.2.st r.2.st.heap_start,
        NoSeg.size r.2.st.mem 4096, NoSeg.openalloc_usable_size r.2.st 4128))
    = some ([4128], [4128], some [4096], 39, 39) ∧
    (Seg.openalloc_init (Seg.boot zero_mem) 4096 71).1 = 0 ∧
    (NoSeg.openalloc_init (NoSeg.boot zero_mem) 4096 71).1 = 0 ∧
    ¬ 8 ∣ 47 ∧ ¬ 8 ∣ 39 :=
  ⟨rfl, rfl, by decide, by decide, by decide, by decide⟩

/-- C23 (amended).  Arena `[region, region + L)` with `region + L < 2^64` and
`L < 2^63` whose payload `L - sizeof(header)` is a multiple of 8.  Segregated build:
in every state reached from an accepted `openalloc_init` by valid calls with sizes
up to `2^64 - 8`, the size of every block of the arena walk and the usable size of
every live pointer are multiples of 8.  Coalescing build: the same in every state
reached by `openalloc_malloc` calls with sizes up to `2^64 - 8`. -/
theorem block_sizes_multiple_of_8 (m0 : Mem) (region L fuel : Nat) (hfit : region + L < W)
    (hL : L < 2 ^ 63) (hf : L < fuel) :
    (8 ∣ L - Seg.HDR → ∀ c, Seg.Reach m0 region L c →
      ∃ bs, Seg.walk_blocks fuel c.st c.st.heap_start = some bs ∧
        (∀ b ∈ bs, 8 ∣ Seg.size c.st.mem b) ∧
        ∀ p ∈ c.live, 8 ∣ Seg.openalloc_usable_size c.st p) ∧
    (8 ∣ L - NoSeg.HDR → ∀ c, NoSeg.MallocRun m0 region L c →
      ∃ bs, NoSeg.walk_blocks fuel c.st c.st.heap_start = some bs ∧
        (∀ b ∈ bs, 8 ∣ NoSeg.size c.st.mem b) ∧
        ∀ p ∈ c.live, 8 ∣ NoSeg.openalloc_usable_size c.st p) := by
  refine ⟨?_, ?_⟩
  · intro h8 c hc
    obtain ⟨⟨bs, ls, hI⟩, _, h2⟩ := seg_reach_good m0 region L hfit hL c hc
    obtain ⟨h3, h4⟩ := seg_inv_mult8 c.st c.live bs ls hI (by rw [h2]; exact h8)
    exact ⟨bs, seg_inv_walk c.st c.live bs ls hI fuel (by rw [h2]; exact hf), h3, h4⟩
  · intro h8 c hc
    obtain ⟨⟨bs, hI⟩, _, h2⟩ := noseg_run_minv m0 region L hfit c hc
    obtain ⟨h3, h4⟩ := noseg_minv_mult8 c.st c.live bs hI fuel (by rw [h2]; exact hf)
    obtain ⟨h5, h6⟩ := h4 (by rw [h2]; exact h8)
    exact ⟨bs, h3, h5, h6⟩

/-- Witness of C23 (amended): the zeroed arena of 1024 bytes at address 4096.
Segregated build: after `malloc(100) = 4120` and `free(4120)`.  Coalescing build:
after `malloc(100) = 4128`. -/
theorem block_sizes_multiple_of_8_witness :
    (4096 + 1024 < W ∧ 1024 < 2 ^ 63 ∧ 1024 < 1025 ∧ 8 ∣ 1024 - Seg.HDR ∧
      8 ∣ 1024 - NoSeg.HDR) ∧
    (∃ bs,
      Seg.walk_blocks 1025
        ((Seg.run 8 (Seg.start zero_mem 4096 1024) [Call.malloc 100, Call.free 4120]).getD
          ([], Seg.start zero_mem 4096 1024)).2.st
        ((Seg.run 8 (Seg.start zero_mem 4096 1024) [Call.malloc 100, Call.free 4120]).getD
          ([], Seg.start zero_mem 4096 1024)).2.st.heap_start = some bs ∧
      (∀ b ∈ bs, 8 ∣ Seg.size
        ((Seg.run 8 (Seg.start zero_mem 4096 1024) [Call.malloc 100, Call.free 4120]).getD
          ([], Seg.start zero_mem 4096 1024)).2.st.mem b) ∧
      ∀ p ∈ ((Seg.run 8 (Seg.start zero_mem 4096 1024)
          [Call.malloc 100, Call.free 4120]).getD ([], Seg.start zero_mem 4096 1024)).2.live,
        8 ∣ Seg.openalloc_usable_size
          ((Seg.run 8 (Seg.start zero_mem 4096 1024) [Call.malloc 100, Call.free 4120]).getD
            ([], Seg.start zero_mem 4096 1024)).2.st p) ∧
    (∃ bs,
      NoSeg.walk_blocks 1025
        ((NoSeg.run 8 (NoSeg.start zero_mem 4096 1024) [Call.malloc 100]).getD
          ([], NoSeg.start zero_mem 4096 1024)).2.st
        ((NoSeg.run 8 (NoSeg.start zero_mem 4096 1024) [Call.malloc 100]).getD
          ([], NoSeg.start zero_mem 4096 1024)).2.st.heap_start = some bs ∧
      (∀ b ∈ bs, 8 ∣ NoSeg.size
        ((NoSeg.run 8 (NoSeg.start zero_mem 4096 1024) [Call.malloc 100]).getD
          ([], NoSeg.start zero_mem 4096 1024)).2.st.mem b) ∧
      ∀ p ∈ ((NoSeg.run 8 (NoSeg.start zero_mem 4096 1024) [Call.malloc 100]).getD
          ([], NoSeg.start zero_mem 4096 1024)).2.live,
        8 ∣ NoSeg.openalloc_usable_size
          ((NoSeg.run 8 (NoSeg.start zero_mem 4096 1024) [Call.malloc 100]).getD
            ([], NoSeg.start zero_mem 4096 1024)).2.st p) :=
  ⟨⟨by decide, by decide, by decide, by decide, by decide⟩,
   (block_sizes_multiple_of_8 zero_mem 4096 1024 1025 (by decide) (by decide)
      (by decide)).1 (by decide) _
    (Seg.Reach.call 8 _ (Call.free 4120) 0 _
      (Seg.Reach.call 8 _ (Call.malloc 100) 4120 _ (Seg.Reach.init (by decide))
        (by show 100 + 8 ≤ W; decide) rfl) trivial rfl),
   (block_sizes_multiple_of_8 zero_mem 4096 1024 1025 (by decide) (by decide)
      (by decide)).2 (by decide) _
    (NoSeg.MallocRun.malloc 8 _ 100 4128 _ (NoSeg.MallocRun.init (by decide))
      (by decide) rfl)⟩

/-- C24.  Arena `[region, region + L)` with `region + L < 2^64` and `L < 2^63`,
header size `H` (24 in the segregated build, 32 in the coalescing build), right after
an accepted `openalloc_init`, and `n > 0` with `r = align8(n)`,
`r + H ≤ L < r + 2 * H + 16`: `openalloc_malloc(n)` returns `region + H`, the payload
of the whole arena block (usable size `L - H`, the walk still has one block, now
with `free = 0`), and `openalloc_malloc(n)` in the state after it returns `NULL`
and changes nothing. -/
theorem whole_arena_request_succeeds_once (m : Mem) (region L n f : Nat)
    (hfit : region + L < W) (hL : L < 2 ^ 63) (hn : 0 < n) :
    ((Seg.openalloc_init (Seg.boot m) region L).1 = 0 →
      align8 n + Seg.HDR ≤ L → L < align8 n + 2 * Seg.HDR + 16 →
      ∃ t, Seg.openalloc_malloc (f + 1) (Seg.start m region L).st n
          = some (region + Seg.HDR, t) ∧
        Seg.openalloc_usable_size t (region + Seg.HDR) = L - Seg.HDR ∧
        Seg.free t.mem region = 0 ∧
        Seg.walk_blocks (f + 2) t t.heap_start = some [region] ∧
        Seg.openalloc_malloc (f + 1) t n = some (0, t)) ∧
    ((NoSeg.openalloc_init (NoSeg.boot m) region L).1 = 0 →
      align8 n + NoSeg.HDR ≤ L → L < align8 n + 2 * NoSeg.HDR + 16 →
      ∃ t, NoSeg.openalloc_malloc (f + 1) (NoSeg.start m region L).st n
          = some (region + NoSeg.HDR, t) ∧
        NoSeg.openalloc_usable_size t (region + NoSeg.HDR) = L - NoSeg.HDR ∧
        NoSeg.free t.mem region = 0 ∧
        NoSeg.walk_blocks (f + 2) t t.heap_start = some [region] ∧
        NoSeg.openalloc_malloc (f + 1) t n = some (0, t)) := by
  have hW := W_eq
  refine ⟨?_, ?_⟩
  · intro h0 hlo hhi
    obtain ⟨hr, h40⟩ := (seg_init_ret (Seg.boot m) region L).1.mp h0
    obtain ⟨h1, h2, h3, h4, h5, h6, h7⟩ :=
      seg_init_fields (Seg.boot m) region L hr (by omega) h40
    exact seg_malloc_whole (Seg.openalloc_init (Seg.boot m) region L).2 region L n f hr hfit hL
      h1 h2 h3 h4 h5 h6 h7 hn hlo hhi
  · intro h0 hlo hhi
    obtain ⟨hr, h48⟩ := (noseg_init_ret (NoSeg.boot m) region L).1.mp h0
    obtain ⟨h1, h2, h3, h5, h6, h7, h8⟩ :=
      noseg_init_fields (NoSeg.boot m) region L hr (by omega) h48
    exact noseg_malloc_whole (NoSeg.openalloc_init (NoSeg.boot m) region L).2 region L n f hr
      hfit h1 h2 h3 h5 h6 h7 h8 hn hlo hhi

/-- Witness of C24: the zeroed arena of 1024 bytes at address 4096 and `n = 984`,
which is `L - H - 16` of the segregated build and lies in the range of both
builds. -/
theorem whole_arena_request_succeeds_once_witness :
    (4096 + 1024 < W ∧ 1024 < 2 ^ 63 ∧ 0 < 984 ∧
      align8 984 + Seg.HDR ≤ 1024 ∧ 1024 < align8 984 + 2 * Seg.HDR + 16 ∧
      align8 984 + NoSeg.HDR ≤ 1024 ∧ 1024 < align8 984 + 2 * NoSeg.HDR + 16) ∧
    (∃ t, Seg.openalloc_malloc 1 (Seg.start zero_mem 4096 1024).st 984
        = some (4096 + Seg.HDR, t) ∧
      Seg.openalloc_usable_size t (4096 + Seg.HDR) = 1024 - Seg.HDR ∧
      Seg.free t.mem 4096 = 0 ∧
      Seg.walk_blocks 2 t t.heap_start = some [4096] ∧
      Seg.openalloc_malloc 1 t 984 = some (0, t)) ∧
    (∃ t, NoSeg.openalloc_malloc 1 (NoSeg.start zero_mem 4096 1024).st 984
        = some (4096 + NoSeg.HDR, t) ∧
      NoSeg.openalloc_usable_size t (4096 + NoSeg.HDR) = 1024 - NoSeg.HDR ∧
      NoSeg.free t.mem 4096 = 0 ∧
      NoSeg.walk_blocks 2 t t.heap_start = some [4096] ∧
      NoSeg.openalloc_malloc 1 t 984 = some (0, t)) :=
  ⟨⟨by decide, by decide, by decide, by decide, by decide, by decide, by decide⟩,
   (whole_arena_request_succeeds_once zero_mem 4096 1024 984 0 (by decide) (by decide)
      (by decide)).1 (by decide) (by decide) (by decide),
   (whole_arena_request_succeeds_once zero_mem 4096 1024 984 0 (by decide) (by decide)
      (by decide)).2 (by decide) (by decide) (by decide)⟩

/-- C25 (fails on the code).  Coalescing build, zeroed arena of 1024 bytes at
address 4096.  After `malloc(100) = 4128`, `malloc(100) = 4264` and `free(4128)` the
arena holds the blocks 4096 (free, size 104), 4232 (allocated, the block of the live
pointer 4264) and 4368 (free).  `free(4264)` merges all three into the block at
4096 of size 992, the physical predecessor, but the head of the free list becomes
4232, the header of the freed pointer, which lies inside the merged block; the
merged block itself is no node of the free list. -/
theorem free_head_inside_merged_block :
    (NoSeg.run 8 (NoSeg.start zero_mem 4096 1024)
      [Call.malloc 100, Call.malloc 100, Call.free 4128]).map
      (fun r => (r.1, r.2.live, NoSeg.walk_blocks 8 r.2.st r.2.st.heap_start,
        NoSeg.free r.2.st.mem 4096, NoSeg.size r.2.st.mem 4096))
    = some ([4128, 4264, 0], [4264], some [4096, 4232, 4368], 1, 104) ∧
    (NoSeg.run 8 (NoSeg.start zero_mem 4096 1024)
      [Call.malloc 100, Call.malloc 100, Call.free 4128, Call.free 4264]).map
      (fun r => (r.2.st.free_list, NoSeg.walk_blocks 8 r.2.st r.2.st.heap_start,
        NoSeg.size r.2.st.mem 4096, NoSeg.free r.2.st.mem 4096,
        NoSeg.list_nodes 8 r.2.st.mem r.2.st.free_list))
    = some (4232, some [4096], 992, 1, some [4232]) :=
  ⟨rfl, rfl⟩

/-- C26 (fails on the code).  Coalescing build, zeroed arena of 1024 bytes at
address 4096, after the valid calls `malloc(100)`, `malloc(100)`, `free(4128)`,
`free(4264)`: the only block of the arena walk, 4096, has `free = 1` and is no node
of the free list, and the only node of the free list, 4232, is no block of the arena
walk: it lies in the payload of the block 4096. -/
theorem free_flag_and_list_disagree :
    ∃ c bs l,
      NoSeg.run 8 (NoSeg.start zero_mem 4096 1024)
        [Call.malloc 100, Call.malloc 100, Call.free 4128, Call.free 4264]
        = some ([4128, 4264, 0, 0], c) ∧
      NoSeg.walk_blocks 8 c.st c.st.heap_start = some bs ∧
      NoSeg.list_nodes 8 c.st.mem c.st.free_list = some l ∧
      (4096 ∈ bs ∧ NoSeg.free c.st.mem 4096 = 1 ∧ 4096 ∉ l) ∧
      (4232 ∈ l ∧ 4232 ∉ bs ∧ 4096 + NoSeg.HDR ≤ 4232 ∧
        4232 < 4096 + NoSeg.HDR + NoSeg.size c.st.mem 4096) :=
  ⟨_, [4096], [4232], rfl, by decide, by decide, by decide, by decide⟩

/-- C27 (fails on the code).  Segregated build, arena of 256 bytes at address 4096
that the caller filled with the byte 1.  After the valid calls `malloc(8) = 4120`,
`malloc(24) = 4152`, `malloc(1) = 4200`, `malloc(2^64 - 1) = 4232`, `free(4232)` and
`realloc(4200, 2^64 - 1) = 4232` the block 4232 of the arena walk has `free = 1` and
size `0x0101010101010101`, and it is the only node of `free_lists[3]`.  The call
`malloc(200)` starts at class `get_bin(200) = 4` and returns `NULL`, although that
free block has size at least 200. -/
theorem malloc_misses_block_below_start_class :
    (Seg.run 8 (Seg.start ones_mem 4096 256)
      [Call.malloc 8, Call.malloc 24, Call.malloc 1, Call.malloc (W - 1), Call.free 4232,
        Call.realloc 4200 (W - 1)]).map
      (fun r => (r.1, Seg.walk_blocks 8 r.2.st r.2.st.heap_start,
        (List.range 10).map (fun i => Seg.list_nodes 8 r.2.st.mem (r.2.st.free_lists i)),
        (Seg.free r.2.st.mem 4232, Seg.size r.2.st.mem 4232),
        (Seg.openalloc_malloc 8 r.2.st 200).map (fun q => q.1)))
    = some ([4120, 4152, 4200, 4232, 0, 4232], some [4096, 4128, 4176, 4208, 4232],
        [some [4176], some [], some [], some [4232], some [], some [], some [], some [],
          some [], some []],
        (1, 72340172838076673), some 0) ∧
    Seg.get_bin (align_size 200) = 4 :=
  ⟨rfl, by decide⟩

/-- C28.  The function `get_bin` returns the index of the smallest size class whose
upper bound is at least `s` for the bounds 16, 32, ..., 4096 (indices 0..8), and 9
when `s > 4096`; its values are at most 9 and it is monotone. -/
theorem get_bin_smallest_class :
    (∀ s, Seg.get_bin s = smallest_class s) ∧
    (∀ s i, i < 9 → (Seg.get_bin s = i ↔
      s ≤ class_bounds.getD i 0 ∧ ∀ j, j < i → class_bounds.getD j 0 < s)) ∧
    (∀ s, Seg.get_bin s = 9 ↔ 4096 < s) ∧
    (∀ s, Seg.get_bin s ≤ 9) ∧
    (∀ s t, s ≤ t → Seg.get_bin s ≤ Seg.get_bin t) := by
  refine ⟨seg_get_bin_findIdx, seg_get_bin_iff, ?_, ?_, seg_get_bin_mono⟩
  · intro s
    have := seg_get_bin_cases s
    omega
  · intro s
    have := seg_get_bin_cases s
    omega

/-- Witness of C28: the sizes 17 and 4097 lie in the classes 1 and 9. -/
theorem get_bin_smallest_class_witness :
    (17 : Nat) ≤ 4097 ∧ Seg.get_bin 17 ≤ Seg.get_bin 4097 ∧ (Seg.get_bin 17 = 1 ↔
      17 ≤ class_bounds.getD 1 0 ∧ ∀ j, j < 1 → class_bounds.getD j 0 < 17) :=
  ⟨by decide, get_bin_smallest_class.2.2.2.2 17 4097 (by decide),
   get_bin_smallest_class.2.1 17 1 (by decide)⟩

/-- C29 (fails on the code, coalescing build).  Zeroed arena of 1024 bytes at
address 4096, after the valid calls `malloc(24) = 4128`, `malloc(24) = 4184`,
`malloc(300) = 4240`, `free(4128)`, `free(4184)`, `malloc(300) = 4576`, `free(4240)`,
`free(4576)`: the head of the free list is 4544 with `free = 1` and size 544.
`malloc(24)` selects it, splits it (new block 4600 of size 488) and returns 4576; the
selected block 4544 ends with `free = 0` and size 24 but is still a node of the free
list, behind the new block. -/
theorem selected_block_stays_on_free_list :
    (NoSeg.run 8 (NoSeg.start zero_mem 4096 1024)
      [Call.malloc 24, Call.malloc 24, Call.malloc 300, Call.free 4128, Call.free 4184,
        Call.malloc 300, Call.free 4240, Call.free 4576]).map
      (fun r => (r.1, r.2.st.free_list, NoSeg.free r.2.st.mem 4544,
        NoSeg.size r.2.st.mem 4544,
        (NoSeg.openalloc_malloc 8 r.2.st 24).map (fun q =>
          (q.1, NoSeg.free q.2.mem 4544, NoSeg.size q.2.mem 4544,
            NoSeg.size q.2.mem 4600, NoSeg.list_nodes 8 q.2.mem q.2.free_list))))
    = some ([4128, 4184, 4240, 0, 0, 4576, 0, 0], 4544, 1, 544,
        some (4576, 0, 24, 488, some [4600, 4544])) :=
  rfl

/-- C30 (fails on the code).  Segregated build, zeroed arena of 488 bytes at address
4096.  After the valid calls `malloc(200) = 4120`, `malloc(100) = 4344`,
`malloc(8) = 4472`, `free(4344)` and `realloc(4120, 2^64 - 1) = 4344` the pointer
4472 is live with usable size 0 and the snapshot counts 11 allocated blocks and 1
free block with `total_allocated = 0` and `total_freed = 200`.  After `free(4472)`
the snapshot still counts 11 allocated blocks and 1 free block, and
`total_allocated` is 1: no counter moved as a freed block of size 0 requires. -/
theorem seg_free_leaves_block_counts :
    (Seg.run 8 (Seg.start zero_mem 4096 488)
      [Call.malloc 200, Call.malloc 100, Call.malloc 8, Call.free 4344,
        Call.realloc 4120 (W - 1)]).map
      (fun r => (r.1, r.2.live, Seg.openalloc_usable_size r.2.st 4472,
        Seg.openalloc_get_stats 16 r.2.st,
        Seg.openalloc_get_stats 16 (Seg.openalloc_free r.2.st 4472)))
    = some ([4120, 4344, 4472, 0, 4344], [4344, 4472], 0,
        some { heap_start := 4096, heap_size := 488, allocated_blocks := 11,
               free_blocks := 1, total_allocated := 0, total_freed := 200 },
        some { heap_start := 4096, heap_size := 488, allocated_blocks := 11,
               free_blocks := 1, total_allocated := 1, total_freed := 200 }) := by
  decide

/-- C31 (fails on the code).  Segregated build, arena of 8192 bytes at address 4096
(end 12288) that the caller filled with the byte 1.  After the valid calls
`malloc(1) = 4120`, `malloc(2^64 - 1) = 4152`, `free(4152)`,
`realloc(4120, 2^64 - 1) = 4152` and `malloc(0x0101010101010100) = 4176` the pointer
4176 is live with usable size `s = 0x0101010101010101`.  For `n = 2^55` the conditions
of the claim hold: `align8(n) = 2^55 ≤ s` and `get_bin(align8(n)) = 9 = get_bin(s)`.
`malloc(2^55)` after `free(4176)` selects the block 4152 and splits it: it stores the
header of the remainder at `4152 + 24 + 2^55 = 36028797018968144`, outside the arena,
and makes that address the head of `free_lists[9]`.  The model, whose memory is
total, goes on and returns 4176; the size field at that address is
`0x0101010101010101` before the call and `s - 2^55 - 24` after it. -/
theorem free_then_malloc_stores_outside_arena :
    (Seg.run 8 (Seg.start ones_mem 4096 8192)
      [Call.malloc 1, Call.malloc (W - 1), Call.free 4152, Call.realloc 4120 (W - 1),
        Call.malloc 72340172838076672]).map
      (fun r => (r.1, r.2.live,
        (r.2.st.heap_start + r.2.st.heap_size, Seg.openalloc_usable_size r.2.st 4176,
          Seg.size r.2.st.mem (4152 + 24 + 2 ^ 55)),
        (align8 (2 ^ 55), Seg.get_bin (align8 (2 ^ 55)),
          Seg.get_bin (Seg.openalloc_usable_size r.2.st 4176)),
        (Seg.openalloc_malloc 8 (Seg.openalloc_free r.2.st 4176) (2 ^ 55)).map (fun q =>
          (q.1, q.2.free_lists 9, Seg.size q.2.mem (4152 + 24 + 2 ^ 55),
            Seg.free q.2.mem (4152 + 24 + 2 ^ 55)))))
    = some ([4120, 4152, 0, 4152, 4176], [4176, 4152],
        (12288, 72340172838076673, 72340172838076673),
        (36028797018963968, 9, 9),
        some (4176, 36028797018968144, 36311375819112681, 1)) ∧
    4152 + 24 + 2 ^ 55 = 36028797018968144 ∧
    72340172838076673 - 2 ^ 55 - 24 = 36311375819112681 :=
  ⟨rfl, by decide, by decide⟩

/-- C32 (fails on the code, both builds).  The calls of `src/test_security.c` on a
zeroed arena of 1 MiB at address 4096: `malloc(100)`, `free`, `malloc(100)`, `free`,
and the same `free` once more, which the test expects to abort.  Segregated build:
the second `free(4120)` returns, and the block 4096 is again the head of
`free_lists[3]`, now with `next = 4096`.  Coalescing build: the second `free(4128)`
returns with fuel 1, and the block 4096 is the head of the free list with
`next = prev = 4096`.  In both builds the block has been linked into its list again
and the traversal of that list does not end. -/
theorem double_free_returns_normally :
    (Seg.run 8 (Seg.start zero_mem 4096 1048576)
      [Call.malloc 100, Call.free 4120, Call.malloc 100, Call.free 4120]).map
      (fun r => (r.1, r.2.live, r.2.st.free_lists 3,
        (Seg.openalloc_free r.2.st 4120).free_lists 3,
        Seg.next (Seg.openalloc_free r.2.st 4120).mem 4096,
        Seg.list_nodes 64 (Seg.openalloc_free r.2.st 4120).mem 4096))
    = some ([4120, 0, 4120, 0], [], 4096, 4096, 4096, none) ∧
    (NoSeg.run 8 (NoSeg.start zero_mem 4096 1048576)
      [Call.malloc 100, Call.free 4128, Call.malloc 100, Call.free 4128]).map
      (fun r => (r.1, r.2.live, r.2.st.free_list,
        (NoSeg.openalloc_free 1 r.2.st 4128).map (fun t =>
          (t.free_list, NoSeg.next t.mem 4096, NoSeg.prev t.mem 4096,
            NoSeg.list_nodes 64 t.mem t.free_list))))
    = some ([4128, 0, 4128, 0], [], 4096, some (4096, 4096, 4096, none)) :=
  ⟨rfl, rfl⟩

/-- C33.  In both builds, in a state whose free-list roots are 64-bit values and in
which no header with `free` set occupies the last header-sized bytes of the address
space (its payload address would wrap around to `NULL`): whenever
`openalloc_malloc(n)` returns `NULL`, for any `n` and any fuel, the state after the
call is the state before it. -/
theorem malloc_null_leaves_state :
    (∀ (s : Seg.State) (fuel n : Nat) (t : Seg.State),
      (∀ i, i < NUM_BINS → s.free_lists i < W) → Seg.free s.mem (W - Seg.HDR) = 0 →
      Seg.openalloc_malloc fuel s n = some (0, t) → t = s) ∧
    (∀ (s : NoSeg.State) (fuel n : Nat) (t : NoSeg.State),
      s.free_list < W → NoSeg.free s.mem (W - NoSeg.HDR) = 0 →
      NoSeg.openalloc_malloc fuel s n = some (0, t) → t = s) := by
  refine ⟨?_, ?_⟩
  · intro s fuel n t hfl hlast h
    unfold Seg.openalloc_malloc at h
    by_cases h0 : n = 0
    · rw [if_pos h0] at h
      injection h with h
      injection h with _ h2
      exact h2.symm
    · rw [if_neg h0] at h
      have hg := seg_get_bin_lt (align_size n)
      exact seg_bin_loop_null s (align_size n) fuel hfl hlast _ _ t (by omega) h
  · intro s fuel n t hfl hlast h
    unfold NoSeg.openalloc_malloc at h
    by_cases h0 : n = 0
    · rw [if_pos h0] at h
      injection h with h
      injection h with _ h2
      exact h2.symm
    · rw [if_neg h0] at h
      exact noseg_malloc_loop_null s (align_size n) hlast fuel _ t hfl h

/-- Witness of C33: the zeroed arena of 1024 bytes at address 4096 right after
`openalloc_init`, where `malloc(2000)` returns `NULL` in both builds. -/
theorem malloc_null_leaves_state_witness :
    ((∀ i, i < NUM_BINS → (Seg.start zero_mem 4096 1024).st.free_lists i < W) ∧
      Seg.free (Seg.start zero_mem 4096 1024).st.mem (W - Seg.HDR) = 0 ∧
      (Seg.openalloc_malloc 2 (Seg.start zero_mem 4096 1024).st 2000).map (fun r => r.1)
        = some 0 ∧
      (NoSeg.start zero_mem 4096 1024).st.free_list < W ∧
      NoSeg.free (NoSeg.start zero_mem 4096 1024).st.mem (W - NoSeg.HDR) = 0 ∧
      (NoSeg.openalloc_malloc 2 (NoSeg.start zero_mem 4096 1024).st 2000).map (fun r => r.1)
        = some 0) ∧
    (Seg.openalloc_malloc 2 (Seg.start zero_mem 4096 1024).st 2000).map (fun r => r.2)
      = some (Seg.start zero_mem 4096 1024).st ∧
    (NoSeg.openalloc_malloc 2 (NoSeg.start zero_mem 4096 1024).st 2000).map (fun r => r.2)
      = some (NoSeg.start zero_mem 4096 1024).st :=
  ⟨⟨by decide, by decide, by decide, by decide, by decide, by decide⟩,
   congrArg some (malloc_null_leaves_state.1 (Seg.start zero_mem 4096 1024).st 2 2000 _
    (by decide) (by decide) rfl),
   congrArg some (malloc_null_leaves_state.2 (NoSeg.start zero_mem 4096 1024).st 2 2000 _
    (by decide) (by decide) rfl)⟩

/-- C34 (fails on the code).  Segregated build, zeroed arena of 8192 bytes at address
4096, so that the initial payload `8192 - 24` exceeds 4096.  After the valid calls
`malloc(1) = 4120`, `malloc(2^64 - 1) = 4152`, `free(4152)` and
`realloc(4120, 2^64 - 1) = 4152` the arena walk starts with the blocks 4096 (size 8),
4128 (size 0) and 4152; the block 4152 has `free = 1` and size 0, so
`get_bin(size) = 0`, but it is the node of `free_lists[9]` and not of
`free_lists[0]`. -/
theorem free_block_on_wrong_list :
    ((Seg.openalloc_init (Seg.boot zero_mem) 4096 8192).1 = 0 ∧ 4096 < 8192 - Seg.HDR) ∧
    (Seg.run 8 (Seg.start zero_mem 4096 8192)
      [Call.malloc 1, Call.malloc (W - 1), Call.free 4152, Call.realloc 4120 (W - 1)]).map
      (fun r => (r.1,
        (r.2.st.heap_start, Seg.size r.2.st.mem 4096, Seg.size r.2.st.mem 4128),
        (Seg.free r.2.st.mem 4152, Seg.size r.2.st.mem 4152,
          Seg.get_bin (Seg.size r.2.st.mem 4152)),
        Seg.list_nodes 8 r.2.st.mem (r.2.st.free_lists 0),
        Seg.list_nodes 8 r.2.st.mem (r.2.st.free_lists 9)))
    = some ([4120, 4152, 0, 4152], (4096, 8, 0), (1, 0, 0), some [4096], some [4152]) ∧
    4096 + Seg.HDR + 8 = 4128 ∧ 4128 + Seg.HDR + 0 = 4152 :=
  ⟨by decide, rfl, by decide, by decide⟩

/-- C35 (fails on the code).  Segregated build, arena of 256 bytes at address 4096
that the caller filled with the byte 1.  Right after `openalloc_init` the only block
has size 232, below `align8(250) = 256`, and `malloc(250)` returns `NULL`.  After
the valid calls `malloc(1) = 4120`, `malloc(2^64 - 1) = 4152` and `free(4152)` the
block 4152 has size 176; the valid call `realloc(4120, 2^64 - 1) = 4152` raises its
size field to `0x0101010101010101`, and then `malloc(250)` returns the non-null
pointer 4176 with usable size 256, more than the arena holds. -/
theorem block_size_grows_and_malloc_succeeds :
    ((Seg.walk_blocks 8 (Seg.start ones_mem 4096 256).st 4096,
      Seg.size (Seg.start ones_mem 4096 256).st.mem 4096, align_size 250,
      (Seg.openalloc_malloc 8 (Seg.start ones_mem 4096 256).st 250).map (fun q => q.1))
      = (some [4096], 232, 256, some 0)) ∧
    (Seg.run 8 (Seg.start ones_mem 4096 256)
      [Call.malloc 1, Call.malloc (W - 1), Call.free 4152]).map
      (fun r => (r.1, Seg.walk_blocks 8 r.2.st r.2.st.heap_start, Seg.size r.2.st.mem 4152))
    = some ([4120, 4152, 0], some [4096, 4128, 4152], 176) ∧
    (Seg.run 8 (Seg.start ones_mem 4096 256)
      [Call.malloc 1, Call.malloc (W - 1), Call.free 4152, Call.realloc 4120 (W - 1)]).map
      (fun r => (r.1, Seg.size r.2.st.mem 4152,
        (Seg.openalloc_malloc 8 r.2.st 250).map (fun q =>
          (q.1, Seg.openalloc_usable_size q.2 q.1))))
    = some ([4120, 4152, 0, 4152], 72340172838076673, some (4176, 256)) :=
  ⟨rfl, rfl, rfl⟩

end OpenAlloc
